import Mathlib

/-!
The bit primitives and the `Bits` word of `bittle.hpp`.

A shallow embedding of `src/test-little-bit/bittle.hpp` (namespace `bittle`).

Machine integers.

A C++ integral type is an `IntType` (bit width and signedness).  A value of such
a type is represented by its two's-complement bit pattern, a natural number
below `2 ^ width`.  Expressions are evaluated on typed values (`CVal`) with the
C++20 rules spelled out:

* integral promotion (`IntType.promote`): types narrower than `int` become `int`;
* usual arithmetic conversions (`IntType.common`) for the binary operators;
* conversions (`cvt`) keep the value modulo `2 ^ width` of the target, that is,
  sign-extend a signed source, zero-extend an unsigned source, and truncate;
* `<<` wraps modulo the width of the promoted left operand, `>>` on a signed
  operand is arithmetic.

The data model is LP64 (`int` is 32 bits, `size_t` is 64 bits) and bytes of an
object are stored least significant first (little-endian).

Undefined behaviour.

A shift whose count is negative or not below the width of the promoted left
operand has no meaning in C++.  Such shifts occur in the source: the literal
`1` in `1 << i` is an `int`, and `i` runs up to 63 for 64-bit words.  The result
of every such shift is taken from an oracle (`Undef`), so a theorem quantified
over the oracle holds for whatever value the platform produces, as long as the
same shift gives the same value each time.  Two concrete oracles are provided:
`Undef.wrap` (the shifted-out bits are lost) and `Undef.masked` (the count is
reduced modulo the width, as x86-64 and AArch64 shift instructions do).

`reverse_bytes` reads and writes bytes past the end of a 4-byte `int` object
when the word has 8 bytes; the contents of those bytes are an arbitrary
parameter `adj`.

Variadic methods.

`insertRight`, `insertLeft` and `assign` take their flags as a list.  A call
that does not compile (no argument, or a failed `static_assert`) has the result
`none`.

Other files.

`as_vect` and the class `Bittle<T>` with its `toString` come from
`src/bitty/bitty.hpp` (namespace `bitty`), which is written in the same
expression language.
-/

namespace bittle

/-! ## Integral types and conversions -/

/-- A fixed-width integral type: its width in bits and its signedness. -/
structure IntType where
  width : Nat
  signed : Bool
deriving DecidableEq

/-- The type `uint8_t`. -/
def uint8_t : IntType := ⟨8, false⟩
/-- The type `uint16_t`. -/
def uint16_t : IntType := ⟨16, false⟩
/-- The type `uint32_t`. -/
def uint32_t : IntType := ⟨32, false⟩
/-- The type `uint64_t`. -/
def uint64_t : IntType := ⟨64, false⟩
/-- The type `int8_t`. -/
def int8_t : IntType := ⟨8, true⟩
/-- The type `int16_t`. -/
def int16_t : IntType := ⟨16, true⟩
/-- The type `int32_t`. -/
def int32_t : IntType := ⟨32, true⟩
/-- The type `int64_t`. -/
def int64_t : IntType := ⟨64, true⟩
/-- The type `int` (32 bits, signed). -/
def int_t : IntType := ⟨32, true⟩
/-- The type `std::size_t` (64 bits, unsigned). -/
def size_t : IntType := ⟨64, false⟩

/-- The word types the library is instantiated with: 8, 16, 32 or 64 bits,
signed or unsigned. -/
def IntType.supported (T : IntType) : Prop :=
  T.width = 8 ∨ T.width = 16 ∨ T.width = 32 ∨ T.width = 64

instance (T : IntType) : Decidable T.supported := by
  unfold IntType.supported; infer_instance

/-- The constant `BIT_SIZE = 8` of the source. -/
def BIT_SIZE : Nat := 8

/-- The value of `sizeof(T)`, in bytes. -/
def IntType.sizeof (T : IntType) : Nat := T.width / 8

/-- The mathematical value of the bit pattern `p` read at type `T`. -/
def IntType.sval (T : IntType) (p : Nat) : Int :=
  if T.signed && p.testBit (T.width - 1) then (p : Int) - 2 ^ T.width else (p : Int)

/-- Sign extension of a `w`-bit pattern to `cw` bits: when bit `w - 1` is set,
bits `w .. cw - 1` are set as well. -/
def signExtend (w cw p : Nat) : Nat :=
  if p.testBit (w - 1) then p ||| ((2 ^ (cw - w) - 1) <<< w) else p

/-- Conversion of the pattern `p` of type `S` to type `D`: the value is kept
modulo `2 ^ D.width`. -/
def cvt (S D : IntType) (p : Nat) : Nat :=
  (if S.signed then signExtend S.width D.width p else p) % 2 ^ D.width

/-- Integral promotion. -/
def IntType.promote (T : IntType) : IntType :=
  if T.width < 32 then int_t else T

/-- The common type of the usual arithmetic conversions. -/
def IntType.common (A B : IntType) : IntType :=
  if A.promote.width = B.promote.width then
    ⟨A.promote.width, A.promote.signed && B.promote.signed⟩
  else if B.promote.width < A.promote.width then A.promote
  else B.promote

/-- The results of the shifts the language leaves undefined: given the promoted
type of the left operand, its pattern and the value of the count. -/
structure Undef where
  shl : IntType → Nat → Int → Nat
  shr : IntType → Nat → Int → Nat

/-- A typed value: a type and a bit pattern of that type. -/
structure CVal where
  ty : IntType
  bits : Nat

/-- An `int` literal or an `int` variable holding the non-negative value `v`. -/
def lit (v : Nat) : CVal := ⟨int_t, v⟩

/-- The mathematical value of a typed value. -/
def CVal.val (a : CVal) : Int := a.ty.sval a.bits

/-- Conversion to type `D` (an initialisation, an assignment, a return or a
`static_cast`). -/
def CVal.conv (a : CVal) (D : IntType) : CVal := ⟨D, cvt a.ty D a.bits⟩

/-- The operator `a & b`. -/
def CVal.band (a b : CVal) : CVal :=
  ⟨a.ty.common b.ty,
    cvt a.ty (a.ty.common b.ty) a.bits &&& cvt b.ty (a.ty.common b.ty) b.bits⟩

/-- The operator `a | b`. -/
def CVal.bor (a b : CVal) : CVal :=
  ⟨a.ty.common b.ty,
    cvt a.ty (a.ty.common b.ty) a.bits ||| cvt b.ty (a.ty.common b.ty) b.bits⟩

/-- The operator `a ^ b`. -/
def CVal.bxor (a b : CVal) : CVal :=
  ⟨a.ty.common b.ty,
    cvt a.ty (a.ty.common b.ty) a.bits ^^^ cvt b.ty (a.ty.common b.ty) b.bits⟩

/-- The operator `~a`. -/
def CVal.bnot (a : CVal) : CVal :=
  ⟨a.ty.promote, (2 ^ a.ty.promote.width - 1) ^^^ cvt a.ty a.ty.promote a.bits⟩

/-- The operator `a - b` (wrapping in the common type). -/
def CVal.sub (a b : CVal) : CVal :=
  ⟨a.ty.common b.ty,
    (cvt a.ty (a.ty.common b.ty) a.bits + 2 ^ (a.ty.common b.ty).width
      - cvt b.ty (a.ty.common b.ty) b.bits) % 2 ^ (a.ty.common b.ty).width⟩

/-- The operator `a << k`. -/
def CVal.shl (U : Undef) (a k : CVal) : CVal :=
  ⟨a.ty.promote,
    if 0 ≤ k.val ∧ k.val < a.ty.promote.width then
      (cvt a.ty a.ty.promote a.bits <<< k.val.toNat) % 2 ^ a.ty.promote.width
    else
      U.shl a.ty.promote (cvt a.ty a.ty.promote a.bits) k.val % 2 ^ a.ty.promote.width⟩

/-- The operator `a >> k`: the promoted operand is extended by `k` further bits
(copies of the sign bit for a signed type) before the low `k` bits are dropped. -/
def CVal.shr (U : Undef) (a k : CVal) : CVal :=
  ⟨a.ty.promote,
    if 0 ≤ k.val ∧ k.val < a.ty.promote.width then
      cvt a.ty.promote ⟨a.ty.promote.width + k.val.toNat, a.ty.promote.signed⟩
        (cvt a.ty a.ty.promote a.bits) >>> k.val.toNat
    else
      U.shr a.ty.promote (cvt a.ty a.ty.promote a.bits) k.val % 2 ^ a.ty.promote.width⟩

/-- The comparison `a < b`, after the usual arithmetic conversions. -/
def CVal.lt (a b : CVal) : Bool :=
  decide ((a.ty.common b.ty).sval (cvt a.ty (a.ty.common b.ty) a.bits)
    < (a.ty.common b.ty).sval (cvt b.ty (a.ty.common b.ty) b.bits))

/-- The comparison `a > b`. -/
def CVal.gt (a b : CVal) : Bool := b.lt a

/-- Contextual conversion to `bool`: the value is non-zero. -/
def CVal.toBool (a : CVal) : Bool := a.bits != 0

/-- Undefined shifts lose the shifted-out bits: a left shift yields 0, a right
shift yields the sign fill (as the PowerPC word shifts do for counts from 32 to
63). -/
def Undef.wrap : Undef where
  shl := fun _ _ _ => 0
  shr := fun P x _ => if P.signed && x.testBit (P.width - 1) then 2 ^ P.width - 1 else 0

/-- Undefined shifts use the count modulo the width of the promoted operand, as
the shift instructions of x86-64 and AArch64 do. -/
def Undef.masked : Undef where
  shl := fun P x k => (x <<< (k % P.width).toNat) % 2 ^ P.width
  shr := fun P x k =>
    cvt P ⟨P.width + (k % P.width).toNat, P.signed⟩ x >>> (k % P.width).toNat

/-! ## Primitive bit functions -/

/-- The loop `for(int i = 0; i < sizeof(T) * BIT_SIZE; ++i)`: the values `i`
takes, in order. -/
def loopIndices (T : IntType) : List Nat := List.range (T.sizeof * BIT_SIZE)

/-- The loop body of `reverse_bits`: `ret = (ret << 1) | ((n >> i) & 1);`. -/
def reverseStep (U : Undef) (T : IntType) (n ret i : Nat) : Nat :=
  ((((CVal.mk T ret).shl U (lit 1)).bor
    (((CVal.mk T n).shr U (lit i)).band (lit 1))).conv T).bits

/-- Source `reverse_bits`: the loop body is run for each `i`, starting from
`ret = 0`. -/
def reverse_bits (U : Undef) (T : IntType) (n : Nat) : Nat :=
  (loopIndices T).foldl (fun ret i => reverseStep U T n ret i) 0

/-- Source `count_ones`: `if(n & (1 << i)) cnt++` for each `i`.  The counter is
a `uint32_t` and is incremented at most 64 times, so it never wraps. -/
def count_ones (U : Undef) (T : IntType) (n : Nat) : Nat :=
  (loopIndices T).foldl
    (fun cnt i =>
      if ((CVal.mk T n).band ((lit 1).shl U (lit i))).toBool then cnt + 1 else cnt)
    0

/-- Source `count_zeroes`: `if(!(n & (1 << i))) cnt++` for each `i`. -/
def count_zeroes (U : Undef) (T : IntType) (n : Nat) : Nat :=
  (loopIndices T).foldl
    (fun cnt i =>
      if !((CVal.mk T n).band ((lit 1).shl U (lit i))).toBool then cnt + 1 else cnt)
    0

/-- One `std::swap` of the bytes at offsets `l` and `r`. -/
def swapBytes (mem : Nat → Nat) (l r : Nat) : Nat → Nat :=
  fun k => if k = l then mem r else if k = r then mem l else mem k

/-- The loop `while(l < r) std::swap(*(p + l++), *(p + r--))` of
`reverse_bytes`, on the bytes `mem` found at `p`.  Each turn brings `l` and `r`
closer, so `fuel` turns suffice when `r < fuel`. -/
def swapLoop : Nat → Nat → Nat → (Nat → Nat) → (Nat → Nat)
  | 0, _, _, mem => mem
  | fuel + 1, l, r, mem =>
    if l < r then swapLoop fuel (l + 1) (r - 1) (swapBytes mem l r) else mem

/-- Source `reverse_bytes`: `int t = n;`, then the bytes at the address of `t`
are swapped pairwise between offsets `0` and `sizeof(T) - 1`, and `t` is
returned.  `t` occupies offsets 0 to 3; `adj k` is the byte found at an offset
`k` past the end of `t`. -/
def reverse_bytes (adj : Nat → Nat) (T : IntType) (n : Nat) : Nat :=
  let t := ((CVal.mk T n).conv int_t).bits
  let mem : Nat → Nat := fun k => if k < 4 then (t >>> (8 * k)) % 256 else adj k % 256
  let mem2 := swapLoop T.sizeof 0 (T.sizeof - 1) mem
  let t2 := mem2 0 + mem2 1 * 2 ^ 8 + mem2 2 * 2 ^ 16 + mem2 3 * 2 ^ 24
  ((CVal.mk int_t t2).conv T).bits

/-- The guard `targ < 1 || targ > sizeof(n) * BIT_SIZE` shared by `check_bit`,
`set_bit`, `toggle_bit` and `clear_bit`; `targ` is an `int8_t`. -/
def targOutside (T : IntType) (targ : Nat) : Bool :=
  (CVal.mk int8_t targ).lt (lit 1)
    || (CVal.mk int8_t targ).gt (CVal.mk size_t (T.sizeof * BIT_SIZE))

/-- Source `check_bit`: `return n >> ((targ - 1) & 1);` behind the guard. -/
def check_bit (U : Undef) (T : IntType) (n targ : Nat) : Nat :=
  if targOutside T targ then n
  else (((CVal.mk T n).shr U (((CVal.mk int8_t targ).sub (lit 1)).band (lit 1))).conv T).bits

/-- Source `set_bit`: `return n | (1 << (targ - 1));` behind the guard. -/
def set_bit (U : Undef) (T : IntType) (n targ : Nat) : Nat :=
  if targOutside T targ then n
  else (((CVal.mk T n).bor ((lit 1).shl U ((CVal.mk int8_t targ).sub (lit 1)))).conv T).bits

/-- Source `toggle_bit`: `return n ^ (1 << (targ - 1));` behind the guard. -/
def toggle_bit (U : Undef) (T : IntType) (n targ : Nat) : Nat :=
  if targOutside T targ then n
  else (((CVal.mk T n).bxor ((lit 1).shl U ((CVal.mk int8_t targ).sub (lit 1)))).conv T).bits

/-- Source `clear_bit`: `return n & (~(1 << (targ - 1)));` behind the guard. -/
def clear_bit (U : Undef) (T : IntType) (n targ : Nat) : Nat :=
  if targOutside T targ then n
  else
    (((CVal.mk T n).band
      ((lit 1).shl U ((CVal.mk int8_t targ).sub (lit 1))).bnot).conv T).bits

/-! ## The class `Bits<T>` -/

/-- An object of class `Bits<T>`: the stored word `number` and the `int8_t`
member `tsize`, both as bit patterns. -/
structure Bits (T : IntType) where
  number : Nat
  tsize : Nat

/-- The constructor `Bits(const T& k)`: `number(k)`, and `tsize` takes its
default member initialiser `BIT_SIZE * sizeof(T)`. -/
def Bits.ofValue (T : IntType) (k : Nat) : Bits T :=
  ⟨k, ((CVal.mk size_t (BIT_SIZE * T.sizeof)).conv int8_t).bits⟩

/-- Method `value()`. -/
def Bits.value {T : IntType} (b : Bits T) : Nat := b.number

/-- Method `ones()`. -/
def Bits.ones {T : IntType} (U : Undef) (b : Bits T) : Nat := count_ones U T b.number

/-- Method `zeroes()`. -/
def Bits.zeroes {T : IntType} (U : Undef) (b : Bits T) : Nat := count_zeroes U T b.number

/-- Method `checkBit(const T& n)`: the index is converted to the `int8_t`
parameter of `check_bit`, and the result is compared with 0. -/
def Bits.checkBit {T : IntType} (U : Undef) (b : Bits T) (n : Nat) : Bool :=
  check_bit U T b.number ((CVal.mk T n).conv int8_t).bits != 0

/-- Method `reverseBits()`. -/
def Bits.reverseBits {T : IntType} (U : Undef) (b : Bits T) : Bits T :=
  { b with number := reverse_bits U T b.number }

/-- Method `reverseBytes()`. -/
def Bits.reverseBytes {T : IntType} (adj : Nat → Nat) (b : Bits T) : Bits T :=
  { b with number := reverse_bytes adj T b.number }

/-- Method `toggleBit(const T& n)`. -/
def Bits.toggleBit {T : IntType} (U : Undef) (b : Bits T) (n : Nat) : Bits T :=
  { b with number := toggle_bit U T b.number ((CVal.mk T n).conv int8_t).bits }

/-- Method `setBit(const T& n)`. -/
def Bits.setBit {T : IntType} (U : Undef) (b : Bits T) (n : Nat) : Bits T :=
  { b with number := set_bit U T b.number ((CVal.mk T n).conv int8_t).bits }

/-- Method `clearBit(const T& n)`. -/
def Bits.clearBit {T : IntType} (U : Undef) (b : Bits T) (n : Nat) : Bits T :=
  { b with number := clear_bit U T b.number ((CVal.mk T n).conv int8_t).bits }

/-! ## Notions used to state the properties -/

/-- Bit `j` of the infinite two's-complement expansion of the value that the
pattern `p` has at type `S`: above the width, the sign bit for a signed type and
0 for an unsigned one. -/
def ebit (S : IntType) (p j : Nat) : Bool :=
  p.testBit j || (S.signed && p.testBit (S.width - 1) && decide (S.width ≤ j))

/-- Bit `j` of the expansion of a typed value. -/
def CVal.ebit (a : CVal) (j : Nat) : Bool := bittle.ebit a.ty a.bits j

/-- Population count of a `w`-bit word: the number of positions `i < w` at which
bit `i` of `n` is 1. -/
def popCount (w n : Nat) : Nat := ((List.range w).filter (fun i => n.testBit i)).length

/-- Byte `j` of a word, bytes numbered from the least significant. -/
def byteAt (n j : Nat) : Nat := (n >>> (8 * j)) % 2 ^ 8

/-! ## Hamming distance and the incremental builders of `Bits<T>` -/

/-- The comparison `a != b`, after the usual arithmetic conversions. -/
def CVal.ne (a b : CVal) : Bool :=
  cvt a.ty (a.ty.common b.ty) a.bits != cvt b.ty (a.ty.common b.ty) b.bits

/-- Source `hamming_distance`: `if ((x & (1 << i)) != (y & (1 << i))) diff++`
for each `i`.  The counter is an `int` and is incremented at most 64 times. -/
def hamming_distance (U : Undef) (T : IntType) (x y : Nat) : Nat :=
  (loopIndices T).foldl
    (fun diff i =>
      if ((CVal.mk T x).band ((lit 1).shl U (lit i))).ne
          ((CVal.mk T y).band ((lit 1).shl U (lit i))) then diff + 1 else diff)
    0

/-- Method `hammingDistance(const T& right)`. -/
def Bits.hammingDistance {T : IntType} (U : Undef) (b : Bits T) (right : Nat) : Nat :=
  hamming_distance U T b.number right

/-- Method `operator<<=(const T& n)`: `this->number <<= n;`. -/
def Bits.shlAssign {T : IntType} (U : Undef) (b : Bits T) (n : Nat) : Bits T :=
  { b with number := (((CVal.mk T b.number).shl U (CVal.mk T n)).conv T).bits }

/-- Method `operator|=(const T& n)`: `this->number |= n;`. -/
def Bits.orAssign {T : IntType} (b : Bits T) (n : Nat) : Bits T :=
  { b with number := (((CVal.mk T b.number).bor (CVal.mk T n)).conv T).bits }

/-- The body shared by both overloads of `insertRight`:
`if (k != 0) { *this <<= 1; *this |= 1; } else { *this <<= 1; }`.  The literal
`1` is converted to the parameter type `T` of the operators. -/
def Bits.insertRightStep {T : IntType} (U : Undef) (b : Bits T) (k : Nat) : Bits T :=
  if k != 0 then
    (b.shlAssign U ((lit 1).conv T).bits).orAssign ((lit 1).conv T).bits
  else
    b.shlAssign U ((lit 1).conv T).bits

/-- Method `insertRight(F k)` and `insertRight(F k, Fs... bits)`, on the list of
the arguments (each argument is given by its bit pattern; only `k != 0` is
looked at).  The variadic overload carries
`static_assert(sizeof...(Fs) <= sz)` with `sz = sizeof(T) * 8`, where `Fs` are
the arguments after the first: a call that fails it, like a call without
arguments, does not compile, and the result is `none`. -/
def Bits.insertRight {T : IntType} (U : Undef) : Bits T → List Nat → Option (Bits T)
  | _, [] => none
  | b, [k] => some (b.insertRightStep U k)
  | b, k :: k2 :: bits =>
    if (k2 :: bits).length ≤ T.sizeof * 8 then
      Bits.insertRight U (b.insertRightStep U k) (k2 :: bits)
    else none

/-- The statement shared by both overloads of `insertLeft`:
`if (k != 0 && tsize > 0) this->setBit(tsize--); else this->clearBit(tsize--);`.
The old value of `tsize` is converted to the parameter type `T` of the methods,
and `tsize` is decremented as an `int8_t`. -/
def Bits.insertLeftStep {T : IntType} (U : Undef) (b : Bits T) (k : Nat) : Bits T :=
  let arg := ((CVal.mk int8_t b.tsize).conv T).bits
  let next := (((CVal.mk int8_t b.tsize).sub (lit 1)).conv int8_t).bits
  if k != 0 && (CVal.mk int8_t b.tsize).gt (lit 0) then
    Bits.setBit U { b with tsize := next } arg
  else
    Bits.clearBit U { b with tsize := next } arg

/-- Method `insertLeft(F k)` and `insertLeft(F k, Fs... bits)`, on the list of
the arguments.  The single-argument overload ends with
`tsize = sizeof(T) * 8;`; the variadic overload carries the same
`static_assert` as `insertRight`. -/
def Bits.insertLeft {T : IntType} (U : Undef) : Bits T → List Nat → Option (Bits T)
  | _, [] => none
  | b, [k] =>
    some { Bits.insertLeftStep U b k with
      tsize := ((CVal.mk size_t (T.sizeof * 8)).conv int8_t).bits }
  | b, k :: k2 :: bits =>
    if (k2 :: bits).length ≤ T.sizeof * 8 then
      Bits.insertLeft U (b.insertLeftStep U k) (k2 :: bits)
    else none

/-- Method `assign(F k)` and `assign(F k, Fs... bits)`, on the list of the
arguments.  Single argument: `if (k != 0) setBit(1); else clearBit(1);`.
Variadic: `if (k != 0) { setBit(1); *this <<= 1; } else { *this <<= 1;
clearBit(1); }`, then `assign(bits...)`, behind the same `static_assert` as
`insertRight`. -/
def Bits.assign {T : IntType} (U : Undef) : Bits T → List Nat → Option (Bits T)
  | _, [] => none
  | b, [k] =>
    some (if k != 0 then b.setBit U ((lit 1).conv T).bits
      else b.clearBit U ((lit 1).conv T).bits)
  | b, k :: k2 :: bits =>
    if (k2 :: bits).length ≤ T.sizeof * 8 then
      Bits.assign U
        (if k != 0 then
          (b.setBit U ((lit 1).conv T).bits).shlAssign U ((lit 1).conv T).bits
        else
          (b.shlAssign U ((lit 1).conv T).bits).clearBit U ((lit 1).conv T).bits)
        (k2 :: bits)
    else none

/-- The function `std::to_string` on an integral value: its decimal digits. -/
def to_string (a : CVal) : String := toString a.val

end bittle

/-! ## The class `Bittle<T>` and `as_vect` of `src/bitty/bitty.hpp` -/

namespace bitty

open bittle

/-- Source `as_vect`: `std::vector<int> v(sizeof(T) * BIT_SIZE, 0);`, then
`v[i] = (n >> i) & 1;` for each `i`.  The elements are `int` bit patterns. -/
def as_vect (U : Undef) (T : IntType) (n : Nat) : List Nat :=
  (loopIndices T).foldl
    (fun v i => v.set i ((((CVal.mk T n).shr U (lit i)).band (lit 1)).conv int_t).bits)
    (List.replicate (T.sizeof * BIT_SIZE) 0)

/-- An object of class `Bittle<T>`: the stored word `number` and the member
`const int size`, both as bit patterns. -/
structure Bittle (T : IntType) where
  number : Nat
  size : Nat

/-- The constructor `Bittle(value_type num)`: `number(num)`, and `size` takes its
default member initialiser `BIT_SIZE * sizeof(T)`. -/
def Bittle.ofValue (T : IntType) (num : Nat) : Bittle T :=
  ⟨num, ((CVal.mk size_t (BIT_SIZE * T.sizeof)).conv int_t).bits⟩

/-- Method `asVector()`. -/
def Bittle.asVector {T : IntType} (U : Undef) (b : Bittle T) : List Nat :=
  as_vect U T b.number

/-- Method `toString()`: `for(int i = size - 1; i >= 0; --i)
temp.append(std::to_string((this->number >> i) & 1));`. -/
def Bittle.toString {T : IntType} (U : Undef) (b : Bittle T) : String :=
  (List.range b.size).reverse.foldl
    (fun temp i => temp ++ to_string (((CVal.mk T b.number).shr U (lit i)).band (lit 1))) ""

/-- Method `toStringReverse()`: `for(int i = 0; i < size; ++i)
temp.append(std::to_string((this->number >> i) & 1));`. -/
def Bittle.toStringReverse {T : IntType} (U : Undef) (b : Bittle T) : String :=
  (List.range b.size).foldl
    (fun temp i => temp ++ to_string (((CVal.mk T b.number).shr U (lit i)).band (lit 1))) ""

end bitty

namespace bittle

/-! ## Further notions used to state the properties -/

/-- The number of positions `i < w` at which bit `i` of `x` and of `y` differ. -/
def differing (w x y : Nat) : Nat :=
  ((List.range w).filter (fun i => x.testBit i != y.testBit i)).length

/-- The word spelled by a flag sequence read most significant bit first: the sum
over `j` of `[b_j ≠ 0] * 2 ^ (k - j)` for flags `b_1 .. b_k`. -/
def flagSum : List Nat → Nat
  | [] => 0
  | b :: bits => (if b != 0 then 1 else 0) * 2 ^ bits.length + flagSum bits

/-! ## `flip_bit`, `right_bits`, `left_bits`, division and the reported width -/

/-- Source `flip_bit`: `if((1 << (targ - 1)) & n) return (~(1 << (targ - 1)) & n);
else return ((1 << (targ - 1)) ^ n);`.  There is no guard on `targ`. -/
def flip_bit (U : Undef) (T : IntType) (n targ : Nat) : Nat :=
  if (((lit 1).shl U ((CVal.mk int8_t targ).sub (lit 1))).band (CVal.mk T n)).toBool then
    (((((lit 1).shl U ((CVal.mk int8_t targ).sub (lit 1))).bnot).band (CVal.mk T n)).conv T).bits
  else
    ((((lit 1).shl U ((CVal.mk int8_t targ).sub (lit 1))).bxor (CVal.mk T n)).conv T).bits

/-- Method `flipBit(const T& n)`. -/
def Bits.flipBit {T : IntType} (U : Undef) (b : Bits T) (n : Nat) : Bits T :=
  { b with number := flip_bit U T b.number ((CVal.mk T n).conv int8_t).bits }

/-- The loop body of `right_bits`: `temp = (num >> i) & 1; ret |= temp << i;`,
with `temp` and `ret` of type `T`. -/
def rightStep (U : Undef) (T : IntType) (num ret i : Nat) : Nat :=
  (((CVal.mk T ret).bor
    ((CVal.mk T ((((CVal.mk T num).shr U (lit i)).band (lit 1)).conv T).bits).shl U
      (lit i))).conv T).bits

/-- Source `right_bits`: the loop body is run for `i = 0 .. num_bits - 1`,
starting from `ret = 0`; `num_bits` is an `int`. -/
def right_bits (U : Undef) (T : IntType) (num num_bits : Nat) : Nat :=
  (List.range (int_t.sval num_bits).toNat).foldl (fun ret i => rightStep U T num ret i) 0

/-- Source `left_bits`: `return num >> (sizeof(T) * BIT_SIZE) - num_bits - 1;`.
The subtractions bind tighter than the shift and are done in `size_t`. -/
def left_bits (U : Undef) (T : IntType) (num num_bits : Nat) : Nat :=
  (((CVal.mk T num).shr U
    (((CVal.mk size_t (T.sizeof * BIT_SIZE)).sub (CVal.mk int_t num_bits)).sub (lit 1))).conv
      T).bits

/-- The pattern that the mathematical value `v` has at type `T`. -/
def IntType.ofInt (T : IntType) (v : Int) : Nat := (v % 2 ^ T.width).toNat

/-- The operator `a / b`, truncating towards zero.  It has no result (`none`)
when the divisor is 0 or the quotient is not representable in the common type
(the least value of a signed type divided by -1): the language leaves both
cases undefined, and the division instructions of x86-64 raise the divide
error in both. -/
def CVal.div (a b : CVal) : Option CVal :=
  if (a.ty.common b.ty).sval (cvt b.ty (a.ty.common b.ty) b.bits) = 0
      ∨ ((a.ty.common b.ty).signed = true
        ∧ (a.ty.common b.ty).sval (cvt a.ty (a.ty.common b.ty) a.bits)
            = -(2 ^ ((a.ty.common b.ty).width - 1))
        ∧ (a.ty.common b.ty).sval (cvt b.ty (a.ty.common b.ty) b.bits) = -1) then
    none
  else
    some ⟨a.ty.common b.ty, (a.ty.common b.ty).ofInt
      (((a.ty.common b.ty).sval (cvt a.ty (a.ty.common b.ty) a.bits)).tdiv
        ((a.ty.common b.ty).sval (cvt b.ty (a.ty.common b.ty) b.bits)))⟩

/-- The operator `a % b`, the remainder of the truncating division, undefined
in the same cases as `a / b`. -/
def CVal.mod (a b : CVal) : Option CVal :=
  if (a.ty.common b.ty).sval (cvt b.ty (a.ty.common b.ty) b.bits) = 0
      ∨ ((a.ty.common b.ty).signed = true
        ∧ (a.ty.common b.ty).sval (cvt a.ty (a.ty.common b.ty) a.bits)
            = -(2 ^ ((a.ty.common b.ty).width - 1))
        ∧ (a.ty.common b.ty).sval (cvt b.ty (a.ty.common b.ty) b.bits) = -1) then
    none
  else
    some ⟨a.ty.common b.ty, (a.ty.common b.ty).ofInt
      (((a.ty.common b.ty).sval (cvt a.ty (a.ty.common b.ty) a.bits)).tmod
        ((a.ty.common b.ty).sval (cvt b.ty (a.ty.common b.ty) b.bits)))⟩

/-- Method `divide(const T& num)`: `this->number /= num;`. -/
def Bits.divide {T : IntType} (b : Bits T) (num : Nat) : Option (Bits T) :=
  ((CVal.mk T b.number).div (CVal.mk T num)).map
    (fun q => { b with number := (q.conv T).bits })

/-- Method `mod(const T& num)`: `this->number %= num;`. -/
def Bits.mod {T : IntType} (b : Bits T) (num : Nat) : Option (Bits T) :=
  ((CVal.mk T b.number).mod (CVal.mk T num)).map
    (fun q => { b with number := (q.conv T).bits })

/-- Method `bits()`: `return this->tsize;`, converted to the return type `T`. -/
def Bits.bits {T : IntType} (b : Bits T) : Nat := ((CVal.mk int8_t b.tsize).conv T).bits

/-- A call of a public mutator of `Bits<T>`.  The member `tsize` is written by
`insertLeft` only; `write v` stands for every mutator that is not listed
separately (`value(n)`, `negate`, `clear`, `add`, `subtract`, `multiply`,
`divide`, `mod`, `invert`, the assignments, the compound and the increment
operators, a store through `operator[]`, stream extraction): each of them
assigns the member `number` and nothing else, `v` being the pattern it
stores. -/
inductive Op where
  | write (v : Nat)
  | setBit (i : Nat)
  | clearBit (i : Nat)
  | toggleBit (i : Nat)
  | flipBit (i : Nat)
  | reverseBits
  | reverseBytes (adj : Nat → Nat)
  | shlAssign (n : Nat)
  | orAssign (n : Nat)
  | insertRight (flags : List Nat)
  | insertLeft (flags : List Nat)
  | assign (flags : List Nat)

/-- The object after a call.  A call of a variadic method that does not compile
is no call: it leaves the object as it is. -/
def Op.run {T : IntType} (U : Undef) (b : Bits T) : Op → Bits T
  | Op.write v => { b with number := v }
  | Op.setBit i => b.setBit U i
  | Op.clearBit i => b.clearBit U i
  | Op.toggleBit i => b.toggleBit U i
  | Op.flipBit i => b.flipBit U i
  | Op.reverseBits => b.reverseBits U
  | Op.reverseBytes adj => b.reverseBytes adj
  | Op.shlAssign n => b.shlAssign U n
  | Op.orAssign n => b.orAssign n
  | Op.insertRight flags => (b.insertRight U flags).getD b
  | Op.insertLeft flags => (b.insertLeft U flags).getD b
  | Op.assign flags => (b.assign U flags).getD b


/-! ## Arithmetic operators, conversions between words, `operator!` and the
array constructor -/

/-- The operator `a + b`.  In a signed common type a sum that the type cannot
represent is undefined: there is no result (`none`).  In an unsigned common
type the sum wraps. -/
def CVal.add (a b : CVal) : Option CVal :=
  if (a.ty.common b.ty).signed = true
      ∧ ((a.ty.common b.ty).sval (cvt a.ty (a.ty.common b.ty) a.bits)
            + (a.ty.common b.ty).sval (cvt b.ty (a.ty.common b.ty) b.bits)
          < -(2 ^ ((a.ty.common b.ty).width - 1))
        ∨ 2 ^ ((a.ty.common b.ty).width - 1)
          ≤ (a.ty.common b.ty).sval (cvt a.ty (a.ty.common b.ty) a.bits)
            + (a.ty.common b.ty).sval (cvt b.ty (a.ty.common b.ty) b.bits)) then
    none
  else
    some ⟨a.ty.common b.ty, (a.ty.common b.ty).ofInt
      ((a.ty.common b.ty).sval (cvt a.ty (a.ty.common b.ty) a.bits)
        + (a.ty.common b.ty).sval (cvt b.ty (a.ty.common b.ty) b.bits))⟩

/-- The operator `a * b`, undefined in the same way as `a + b` when the product
is not representable in a signed common type. -/
def CVal.mul (a b : CVal) : Option CVal :=
  if (a.ty.common b.ty).signed = true
      ∧ ((a.ty.common b.ty).sval (cvt a.ty (a.ty.common b.ty) a.bits)
            * (a.ty.common b.ty).sval (cvt b.ty (a.ty.common b.ty) b.bits)
          < -(2 ^ ((a.ty.common b.ty).width - 1))
        ∨ 2 ^ ((a.ty.common b.ty).width - 1)
          ≤ (a.ty.common b.ty).sval (cvt a.ty (a.ty.common b.ty) a.bits)
            * (a.ty.common b.ty).sval (cvt b.ty (a.ty.common b.ty) b.bits)) then
    none
  else
    some ⟨a.ty.common b.ty, (a.ty.common b.ty).ofInt
      ((a.ty.common b.ty).sval (cvt a.ty (a.ty.common b.ty) a.bits)
        * (a.ty.common b.ty).sval (cvt b.ty (a.ty.common b.ty) b.bits))⟩

/-- Method `negate()`: `this->number *= -1;`, where `-1` is an `int`. -/
def Bits.negate {T : IntType} (b : Bits T) : Option (Bits T) :=
  ((CVal.mk T b.number).mul (CVal.mk int_t (int_t.ofInt (-1)))).map
    (fun p => { b with number := (p.conv T).bits })

/-- The converting constructor `Bits(const Bits<G>& right)`:
`this->number = static_cast<T>(right.value());`, and `tsize` takes its default
member initialiser. -/
def Bits.ofBits (T : IntType) {G : IntType} (right : Bits G) : Bits T :=
  ⟨((CVal.mk G right.value).conv T).bits,
    ((CVal.mk size_t (BIT_SIZE * T.sizeof)).conv int8_t).bits⟩

/-- The converting assignment `operator=(Bits<G>&& right)`:
`this->number = static_cast<T>(right.value());`.  The overload taking
`const Bits<G>&` has the same body behind the test
`reinterpret_cast<Bits*>(this) == reinterpret_cast<Bits*>(&right)`, which casts
away `const`, so it is rejected once it is instantiated. -/
def Bits.operatorAssign {T G : IntType} (b : Bits T) (right : Bits G) : Bits T :=
  { b with number := ((CVal.mk G right.value).conv T).bits }

/-- The friend `operator+(const Bits<G>& left, const Bits<F>& right)`:
`if (left.tsize > right.tsize) return Bits<C>(static_cast<G>(left.number +
right.number)); else return Bits<C>(static_cast<F>(left.number +
right.number));`.  The template parameter `C` is not deducible from the
arguments: the expression `a + b` uses its default, `uint64_t`. -/
def operatorPlus (C : IntType) {G F : IntType} (left : Bits G) (right : Bits F) :
    Option (Bits C) :=
  if (CVal.mk int8_t left.tsize).gt (CVal.mk int8_t right.tsize) then
    ((CVal.mk G left.number).add (CVal.mk F right.number)).map
      (fun s => Bits.ofValue C (((s.conv G).conv C).bits))
  else
    ((CVal.mk G left.number).add (CVal.mk F right.number)).map
      (fun s => Bits.ofValue C (((s.conv F).conv C).bits))

/-- The friend `operator*(const Bits<G>& left, const Bits<F>& right)`, written
like `operator+` with `left.number * right.number`. -/
def operatorStar (C : IntType) {G F : IntType} (left : Bits G) (right : Bits F) :
    Option (Bits C) :=
  if (CVal.mk int8_t left.tsize).gt (CVal.mk int8_t right.tsize) then
    ((CVal.mk G left.number).mul (CVal.mk F right.number)).map
      (fun s => Bits.ofValue C (((s.conv G).conv C).bits))
  else
    ((CVal.mk G left.number).mul (CVal.mk F right.number)).map
      (fun s => Bits.ofValue C (((s.conv F).conv C).bits))

/-- The conversion `explicit operator bool()`:
`return this->number != 0 ? true : false;`. -/
def Bits.operatorBool {T : IntType} (b : Bits T) : Bool :=
  if b.number != 0 then true else false

/-- The member `bool operator!() const`: `return !(*this);`.  The operand
`*this` is a `const Bits`, for which the member `operator!` itself is the
viable candidate (`operator bool` is not `const`), so the body is a call of the
same function on the same object.  `fuel` bounds the depth of the calls; `none`
means that the call has not returned within that depth. -/
def Bits.operatorNot {T : IntType} : Nat → Bits T → Option Bool
  | 0, _ => none
  | fuel + 1, b => Bits.operatorNot fuel b

/-- The constructor `Bits(const F* ptr, const std::size_t& len)`:
`for(int i = 0; i < len; i++) this->number |= (ptr[i] << (tsize - i - 1));` on
an object whose members have their default initialisers (`number = T()`).
`ptr i` is the pattern of the element `ptr[i]` of type `F`; `len` is below
`2 ^ 31`, so that the `int` counter reaches it. -/
def Bits.ofArray (U : Undef) (T F : IntType) (ptr : Nat → Nat) (len : Nat) : Bits T :=
  (List.range len).foldl
    (fun b i =>
      { b with number :=
          (((CVal.mk T b.number).bor
            ((CVal.mk F (ptr i)).shl U
              (((CVal.mk int8_t b.tsize).sub (lit i)).sub (lit 1)))).conv T).bits })
    ⟨0, ((CVal.mk size_t (BIT_SIZE * T.sizeof)).conv int8_t).bits⟩

/-- The flags spelled by a string of binary digits: `'1'` is the flag 1 and
every other character the flag 0. -/
def flagsOfString (s : String) : List Nat :=
  s.data.map (fun c => if c = '1' then 1 else 0)

end bittle

/-! ## The variant `check_bit` of `src/little-bit/bitty.hpp`

That file declares its contents in a C++ namespace `bitty` of its own; its
class template is `Bittle<T, BYTESIZE>`. -/

namespace little_bit

open bittle

/-- Source `check_bit` of `src/little-bit/bitty.hpp`, with parameters `T n` and
`int targ`: `if (targ < 1 || targ > sizeof(n) * BYTESIZE) return n;
return (n >> (targ - 1)) & 1;`. -/
def check_bit (U : Undef) (T : IntType) (BYTESIZE : Nat) (n targ : Nat) : Nat :=
  if (CVal.mk int_t targ).lt (lit 1)
      || (CVal.mk int_t targ).gt (CVal.mk size_t (T.sizeof * BYTESIZE)) then n
  else
    ((((CVal.mk T n).shr U ((CVal.mk int_t targ).sub (lit 1))).band (lit 1)).conv T).bits

/-- An object of class `Bittle<T, BYTESIZE>` of `src/little-bit/bitty.hpp`: the
stored word `number`. -/
structure Bittle (T : IntType) (BYTESIZE : Nat) where
  number : Nat

/-- Method `checkBit(int targ)`:
`return bitty::check_bit<value_type, BYTESIZE>(this->number, targ) != 0 ? true : false;`. -/
def Bittle.checkBit {T : IntType} {BYTESIZE : Nat} (U : Undef) (b : Bittle T BYTESIZE)
    (targ : Nat) : Bool :=
  if check_bit U T BYTESIZE b.number targ != 0 then true else false

end little_bit

namespace bittle


/-! ## Bit-level description of conversions and operators -/

theorem testBit_eq_false_of_lt {p w j : Nat} (hp : p < 2 ^ w) (hj : w ≤ j) :
    p.testBit j = false :=
  Nat.testBit_lt_two_pow (Nat.lt_of_lt_of_le hp (Nat.pow_le_pow_right (by decide) hj))

theorem testBit_signExtend (w cw p j : Nat) :
    (signExtend w cw p).testBit j
      = (p.testBit j || (p.testBit (w - 1) && decide (w ≤ j) && decide (j < cw))) := by
  unfold signExtend
  split
  · next h =>
    simp only [Nat.testBit_or, Nat.testBit_shiftLeft, Nat.testBit_two_pow_sub_one, h, Bool.true_and]
    congr 1
    by_cases h1 : w ≤ j <;> by_cases h2 : j < cw <;> simp [h1, h2] <;> omega
  · next h =>
    simp [h]

theorem testBit_cvt (S D : IntType) (p j : Nat) :
    (cvt S D p).testBit j = (decide (j < D.width) && ebit S p j) := by
  unfold cvt ebit
  rw [Nat.testBit_mod_two_pow]
  cases hs : S.signed
  · simp
  · simp only [if_true, testBit_signExtend]
    by_cases h : j < D.width <;> simp [h]

theorem cvt_lt (S D : IntType) (p : Nat) : cvt S D p < 2 ^ D.width := by
  unfold cvt
  exact Nat.mod_lt _ (by positivity)

theorem ebit_of_lt {S : IntType} {p j : Nat} (h : j < S.width) : ebit S p j = p.testBit j := by
  have : ¬ S.width ≤ j := by omega
  simp [ebit, this]

theorem cvt_self (T : IntType) (p : Nat) (hp : p < 2 ^ T.width) : cvt T T p = p := by
  apply Nat.eq_of_testBit_eq
  intro j
  rw [testBit_cvt]
  by_cases h : j < T.width
  · simp [h, ebit_of_lt h]
  · simp [h, testBit_eq_false_of_lt hp (Nat.le_of_not_lt h)]

theorem width_le_promote (T : IntType) : T.width ≤ T.promote.width := by
  unfold IntType.promote
  split
  · simp only [int_t]; omega
  · exact Nat.le_refl _

theorem promote_width_ge (T : IntType) : 32 ≤ T.promote.width := by
  unfold IntType.promote
  split
  · simp [int_t]
  · omega

theorem promote_promote (T : IntType) : T.promote.promote = T.promote := by
  unfold IntType.promote
  split
  · simp [int_t]
  · next h => simp [h]

theorem common_int (T : IntType) : T.common int_t = T.promote := by
  have h32 := promote_width_ge T
  have hpi : int_t.promote = int_t := by simp [IntType.promote, int_t]
  unfold IntType.common
  rw [hpi]
  by_cases h : T.promote.width = 32
  · simp [int_t, h]
    rw [← h]
  · have h1 : (32 : Nat) < T.promote.width := by omega
    simp [int_t, h, h1]

theorem common_self_promote (T : IntType) : T.promote.common T.promote = T.promote := by
  unfold IntType.common
  simp [promote_promote]

theorem ebit_promote (T : IntType) (p j : Nat) (hp : p < 2 ^ T.width) (hw : 0 < T.width) :
    ebit T.promote (cvt T T.promote p) j = ebit T p j := by
  unfold IntType.promote
  split
  · next h =>
    have h31 : p.testBit 31 = false := testBit_eq_false_of_lt hp (by omega)
    have hw31 : ¬ T.width ≤ 31 → False := by omega
    simp only [ebit, testBit_cvt, int_t, h31]
    by_cases hj : j < 32
    · have : ¬ 32 ≤ j := by omega
      simp [hj, this]
    · have hj2 : 32 ≤ j := by omega
      have hj3 : T.width ≤ j := by omega
      have hj4 : T.width ≤ 31 := by omega
      simp [hj, hj2, hj3, hj4, testBit_eq_false_of_lt hp hj3]
  · rw [cvt_self T p hp]


theorem lit_val (i : Nat) (h : i < 2 ^ 31) : (lit i).val = (i : Int) := by
  have : i.testBit 31 = false := Nat.testBit_lt_two_pow h
  simp [lit, CVal.val, IntType.sval, int_t, this]

theorem testBit_band (a b : CVal) (j : Nat) :
    (a.band b).bits.testBit j
      = (decide (j < (a.ty.common b.ty).width) && (a.ebit j && b.ebit j)) := by
  simp only [CVal.band, Nat.testBit_and, testBit_cvt, CVal.ebit]
  cases decide (j < (a.ty.common b.ty).width) <;> simp

theorem testBit_bor (a b : CVal) (j : Nat) :
    (a.bor b).bits.testBit j
      = (decide (j < (a.ty.common b.ty).width) && (a.ebit j || b.ebit j)) := by
  simp only [CVal.bor, Nat.testBit_or, testBit_cvt, CVal.ebit]
  cases decide (j < (a.ty.common b.ty).width) <;> simp

theorem testBit_bxor (a b : CVal) (j : Nat) :
    (a.bxor b).bits.testBit j
      = (decide (j < (a.ty.common b.ty).width) && (a.ebit j != b.ebit j)) := by
  simp only [CVal.bxor, Nat.testBit_xor, testBit_cvt, CVal.ebit]
  cases decide (j < (a.ty.common b.ty).width) <;> simp

theorem testBit_bnot (a : CVal) (j : Nat) :
    (a.bnot).bits.testBit j = (decide (j < a.ty.promote.width) && !a.ebit j) := by
  simp only [CVal.bnot, Nat.testBit_xor, Nat.testBit_two_pow_sub_one, testBit_cvt, CVal.ebit]
  cases decide (j < a.ty.promote.width) <;> simp

theorem testBit_shl (U : Undef) (a k : CVal) (c j : Nat) (hk : k.val = (c : Int))
    (hc : c < a.ty.promote.width) :
    (a.shl U k).bits.testBit j
      = (decide (j < a.ty.promote.width) && (decide (c ≤ j) && a.ebit (j - c))) := by
  have h1 : (0 : Int) ≤ (c : Int) ∧ (c : Int) < (a.ty.promote.width : Int) := by omega
  simp only [CVal.shl, hk, h1, and_self, if_true, Int.toNat_ofNat, Nat.testBit_mod_two_pow,
    Nat.testBit_shiftLeft, testBit_cvt, CVal.ebit]
  by_cases h2 : j < a.ty.promote.width
  · have : j - c < a.ty.promote.width := by omega
    simp [h2, this]
  · simp [h2]

theorem testBit_shr (U : Undef) (a k : CVal) (c j : Nat) (hk : k.val = (c : Int))
    (hc : c < a.ty.promote.width) (ha : a.bits < 2 ^ a.ty.width) (hw : 0 < a.ty.width) :
    (a.shr U k).bits.testBit j = (decide (j < a.ty.promote.width) && a.ebit (c + j)) := by
  have h1 : (0 : Int) ≤ (c : Int) ∧ (c : Int) < (a.ty.promote.width : Int) := by omega
  simp only [CVal.shr, hk, h1, and_self, if_true, Int.toNat_ofNat, Nat.testBit_shiftRight,
    testBit_cvt, ebit_promote a.ty a.bits _ ha hw, CVal.ebit]
  by_cases h2 : j < a.ty.promote.width
  · have : c + j < a.ty.promote.width + c := by omega
    simp [h2, this]
  · have : ¬ c + j < a.ty.promote.width + c := by omega
    simp [h2, this]

theorem testBit_conv (a : CVal) (D : IntType) (j : Nat) :
    (a.conv D).bits.testBit j = (decide (j < D.width) && a.ebit j) :=
  testBit_cvt a.ty D a.bits j

theorem ebit_lit_one (j : Nat) : (lit 1).ebit j = decide (j = 0) := by
  have h31 : Nat.testBit 1 31 = false := by decide
  simp only [CVal.ebit, ebit, lit, int_t, h31]
  cases j with
  | zero => simp
  | succ m => simp [Nat.testBit_succ]


theorem supported_width_pos {T : IntType} (hT : T.supported) : 0 < T.width := by
  rcases hT with h | h | h | h <;> omega

theorem supported_width_le {T : IntType} (hT : T.supported) : T.width ≤ 64 := by
  rcases hT with h | h | h | h <;> omega

theorem loopIndices_eq {T : IntType} (hT : T.supported) : loopIndices T = List.range T.width := by
  unfold loopIndices IntType.sizeof BIT_SIZE
  rcases hT with h | h | h | h <;> rw [h]

theorem ty_shl (U : Undef) (a k : CVal) : (a.shl U k).ty = a.ty.promote := rfl
theorem ty_shr (U : Undef) (a k : CVal) : (a.shr U k).ty = a.ty.promote := rfl
theorem ty_band (a b : CVal) : (a.band b).ty = a.ty.common b.ty := rfl
theorem ty_bor (a b : CVal) : (a.bor b).ty = a.ty.common b.ty := rfl
theorem ty_bxor (a b : CVal) : (a.bxor b).ty = a.ty.common b.ty := rfl
theorem ty_sub (a b : CVal) : (a.sub b).ty = a.ty.common b.ty := rfl
theorem ty_bnot (a : CVal) : (a.bnot).ty = a.ty.promote := rfl
theorem ty_conv (a : CVal) (D : IntType) : (a.conv D).ty = D := rfl
theorem ty_lit (v : Nat) : (lit v).ty = int_t := rfl
theorem ty_mk (T : IntType) (p : Nat) : (CVal.mk T p).ty = T := rfl
theorem bits_mk (T : IntType) (p : Nat) : (CVal.mk T p).bits = p := rfl
theorem bits_conv (a : CVal) (D : IntType) : (a.conv D).bits = cvt a.ty D a.bits := rfl

theorem promote_int : int_t.promote = int_t := by simp [IntType.promote, int_t]

theorem common_promote_int (T : IntType) : T.promote.common int_t = T.promote := by
  rw [common_int, promote_promote]

theorem common_promote_left (A B : IntType) : A.promote.common B = A.common B := by
  unfold IntType.common
  rw [promote_promote]

theorem ebit_low (a : CVal) {j : Nat} (h : j < a.ty.width) : a.ebit j = a.bits.testBit j :=
  ebit_of_lt h

theorem testBit_reverseStep (U : Undef) (T : IntType) (hT : T.supported) (n ret i j : Nat)
    (hn : n < 2 ^ T.width) (hi : i < T.width) :
    (reverseStep U T n ret i).testBit j
      = (decide (j < T.width) && (if j = 0 then n.testBit i else ret.testBit (j - 1))) := by
  have hw := supported_width_pos hT
  have hw64 := supported_width_le hT
  have hP := width_le_promote T
  have hP32 := promote_width_ge T
  have h1 : (lit 1).val = ((1 : Nat) : Int) := lit_val 1 (by decide)
  have hiv : (lit i).val = (i : Int) := lit_val i (by omega)
  rw [reverseStep, testBit_conv]
  by_cases hj : j < T.width
  · have hjP : j < T.promote.width := by omega
    have h0P : 0 < T.promote.width := by omega
    have hiP : i < T.promote.width := by omega
    have h1P : 1 < T.promote.width := by omega
    have hj1 : j - 1 < T.width := by omega
    have e1 : ((CVal.mk T ret).shl U (lit 1)).bits.testBit j
        = (decide (1 ≤ j) && ret.testBit (j - 1)) := by
      rw [testBit_shl U _ _ 1 j h1 h1P]
      simp [hjP, CVal.ebit, ebit_of_lt hj1]
    have e2 : ((CVal.mk T n).shr U (lit i)).bits.testBit 0 = n.testBit i := by
      rw [testBit_shr U _ _ i 0 hiv hiP hn hw]
      simp [h0P, CVal.ebit, ebit_of_lt hi]
    simp only [ebit_low, testBit_bor, testBit_band, ebit_lit_one, ty_bor, ty_shl, ty_band,
      ty_shr, ty_lit, ty_mk, common_promote_int, common_self_promote, hjP, hj, decide_True,
      Bool.true_and, e1]
    by_cases hj0 : j = 0
    · subst hj0
      simp [ebit_low, ty_shr, h0P, e2]
    · have : 1 ≤ j := by omega
      simp [hj0, this]
  · simp [hj]


/-- State of `reverse_bits` after the iterations `i = 0 .. k - 1`. -/
theorem testBit_reverse_prefix (U : Undef) (T : IntType) (hT : T.supported) (n : Nat)
    (hn : n < 2 ^ T.width) (k : Nat) (hk : k ≤ T.width) (j : Nat) :
    ((List.range k).foldl (fun ret i => reverseStep U T n ret i) 0).testBit j
      = (decide (j < k) && n.testBit (k - 1 - j)) := by
  induction k generalizing j with
  | zero => simp
  | succ k ih =>
    rw [List.range_succ, List.foldl_append, List.foldl_cons, List.foldl_nil,
      testBit_reverseStep U T hT n _ k j hn (by omega)]
    by_cases hj0 : j = 0
    · subst hj0
      have : 0 < T.width := by omega
      simp [this]
    · rw [ih (by omega)]
      have e : k - 1 - (j - 1) = k + 1 - 1 - j := by omega
      by_cases hjk : j < k + 1
      · have h1 : j < T.width := by omega
        have h2 : j - 1 < k := by omega
        simp [hj0, hjk, h1, h2, e]
      · have h2 : ¬ j - 1 < k := by omega
        simp [hj0, hjk, h2]

theorem testBit_reverse_bits (U : Undef) (T : IntType) (hT : T.supported) (n : Nat)
    (hn : n < 2 ^ T.width) (j : Nat) :
    (reverse_bits U T n).testBit j = (decide (j < T.width) && n.testBit (T.width - 1 - j)) := by
  rw [reverse_bits, loopIndices_eq hT]
  exact testBit_reverse_prefix U T hT n hn T.width (Nat.le_refl _) j

theorem reverse_bits_lt (U : Undef) (T : IntType) (hT : T.supported) (n : Nat)
    (hn : n < 2 ^ T.width) : reverse_bits U T n < 2 ^ T.width := by
  apply Nat.lt_pow_two_of_testBit
  intro j hj
  have : ¬ j < T.width := by omega
  simp [testBit_reverse_bits U T hT n hn, this]

/-! ## Conversions keep the value modulo the width of the target -/

theorem signExtend_eq_add (w cw p : Nat) (hp : p < 2 ^ w) (h : p.testBit (w - 1) = true) :
    signExtend w cw p = 2 ^ w * (2 ^ (cw - w) - 1) + p := by
  unfold signExtend
  rw [if_pos h, Nat.mul_add_lt_is_or hp, Nat.or_comm, Nat.shiftLeft_eq, Nat.mul_comm]

/-- The conversion `cvt` is the conversion of C++: the result is the value of
the source modulo `2 ^ width` of the target. -/
theorem cvt_eq_sval_emod (S D : IntType) (p : Nat) (hp : p < 2 ^ S.width) :
    ((cvt S D p : Nat) : Int) = S.sval p % 2 ^ D.width := by
  unfold cvt IntType.sval
  by_cases hs : S.signed = true
  · by_cases hb : p.testBit (S.width - 1) = true
    · simp only [hs, hb, Bool.and_self, if_true]
      rw [signExtend_eq_add S.width D.width p hp hb]
      by_cases hd : D.width ≤ S.width
      · have h0 : D.width - S.width = 0 := by omega
        obtain ⟨k, hk⟩ : ∃ k, S.width = D.width + k := ⟨S.width - D.width, by omega⟩
        have e : ((p : Int) - 2 ^ S.width) = (p : Int) + (-(2 ^ k)) * 2 ^ D.width := by
          rw [hk, pow_add]
          ring
        rw [h0, e, Int.add_mul_emod_self]
        simp
      · obtain ⟨k, hk⟩ : ∃ k, D.width = S.width + k := ⟨D.width - S.width, by omega⟩
        have hk2 : D.width - S.width = k := by omega
        have hpos : 0 < 2 ^ k := by positivity
        have hA : 0 < 2 ^ S.width := by positivity
        have hmul : 2 ^ S.width * (2 ^ k - 1) = 2 ^ D.width - 2 ^ S.width := by
          rw [hk, pow_add, Nat.mul_sub, Nat.mul_one]
        have hle : 2 ^ S.width ≤ 2 ^ D.width := Nat.pow_le_pow_right (by decide) (by omega)
        have hlt : 2 ^ D.width - 2 ^ S.width + p < 2 ^ D.width := by omega
        rw [hk2, hmul, Nat.mod_eq_of_lt hlt]
        have e : ((p : Int) - 2 ^ S.width)
            = ((2 ^ D.width - 2 ^ S.width + p : Nat) : Int) + (-1) * 2 ^ D.width := by
          push_cast [hle]
          ring
        rw [e, Int.add_mul_emod_self]
        rw [Int.emod_eq_of_lt (by positivity) (by exact_mod_cast hlt)]
    · have hb2 : p.testBit (S.width - 1) = false := by simpa using hb
      simp [hs, hb2, signExtend]
  · have hs2 : S.signed = false := by simpa using hs
    simp [hs2]

/-! ## Counting bits -/

theorem foldl_count_add_count_not (p : Nat → Bool) (l : List Nat) (a b : Nat) :
    l.foldl (fun cnt i => if p i then cnt + 1 else cnt) a
      + l.foldl (fun cnt i => if !p i then cnt + 1 else cnt) b
      = a + b + l.length := by
  induction l generalizing a b with
  | nil => simp
  | cons x xs ih =>
    simp only [List.foldl_cons, List.length_cons]
    rw [ih]
    cases p x <;> simp <;> omega

theorem eq_zero_iff_testBit (x : Nat) : x = 0 ↔ ∀ j, x.testBit j = false := by
  constructor
  · intro h j
    simp [h]
  · intro h
    apply Nat.eq_of_testBit_eq
    intro j
    simp [h j]

theorem two_pow_and_eq_zero (k m : Nat) : 2 ^ k &&& m = 0 ↔ m.testBit k = false := by
  rw [eq_zero_iff_testBit]
  constructor
  · intro h
    have := h k
    simpa [Nat.testBit_and, Nat.testBit_two_pow] using this
  · intro h j
    by_cases hj : k = j
    · subst hj
      simp [Nat.testBit_and, h]
    · simp [Nat.testBit_and, Nat.testBit_two_pow, hj]

theorem or_and_eq_zero (a b m : Nat) : (a ||| b) &&& m = 0 ↔ a &&& m = 0 ∧ b &&& m = 0 := by
  simp only [eq_zero_iff_testBit, Nat.testBit_and, Nat.testBit_or]
  constructor
  · intro h
    constructor
    · intro j
      have := h j
      cases h1 : a.testBit j <;> simp_all
    · intro j
      have := h j
      cases h1 : b.testBit j <;> simp_all
  · rintro ⟨h1, h2⟩ j
    have := h1 j
    have := h2 j
    cases h3 : a.testBit j <;> cases h4 : b.testBit j <;> simp_all

theorem shl_bits_lt (U : Undef) (a k : CVal) : (a.shl U k).bits < 2 ^ a.ty.promote.width := by
  unfold CVal.shl
  simp only
  split <;> exact Nat.mod_lt _ (by positivity)

theorem bne_zero_congr {a b : Nat} (h : a = 0 ↔ b = 0) : (a != 0) = (b != 0) := by
  by_cases ha : a = 0
  · have hb := h.mp ha
    rw [ha, hb]
  · have hb : ¬ b = 0 := fun hh => ha (h.mpr hh)
    rw [bne_iff_ne.mpr ha, bne_iff_ne.mpr hb]

/-- The test `n & (1 << i)` of `count_ones` on a 64-bit word cannot tell bit 31
from bit 32: the mask is an `int`, and its conversion to 64 bits copies bit 31
into bit 32. -/
theorem count_test_uint64_t (U : Undef) (i : Nat) :
    ((CVal.mk uint64_t (2 ^ 31)).band ((lit 1).shl U (lit i))).toBool
      = ((CVal.mk uint64_t (2 ^ 31 + 2 ^ 32)).band ((lit 1).shl U (lit i))).toBool := by
  have hX : ((lit 1).shl U (lit i)).bits < 2 ^ 32 := shl_bits_lt U (lit 1) (lit i)
  have e1 : cvt uint64_t uint64_t (2 ^ 31) = 2 ^ 31 := by decide
  have e2 : cvt uint64_t uint64_t (2 ^ 31 + 2 ^ 32) = 2 ^ 31 ||| 2 ^ 32 := by decide
  have h32 : (cvt int_t uint64_t ((lit 1).shl U (lit i)).bits).testBit 32
      = (cvt int_t uint64_t ((lit 1).shl U (lit i)).bits).testBit 31 := by
    have := testBit_eq_false_of_lt hX (Nat.le_refl 32)
    simp [testBit_cvt, ebit, int_t, uint64_t, this]
  have key : (cvt uint64_t uint64_t (2 ^ 31)
        &&& cvt int_t uint64_t ((lit 1).shl U (lit i)).bits = 0)
      ↔ (cvt uint64_t uint64_t (2 ^ 31 + 2 ^ 32)
        &&& cvt int_t uint64_t ((lit 1).shl U (lit i)).bits = 0) := by
    rw [e1, e2, or_and_eq_zero, two_pow_and_eq_zero, two_pow_and_eq_zero, h32]
    simp
  exact bne_zero_congr key

theorem count_ones_uint64_t_bit32 (U : Undef) :
    count_ones U uint64_t (2 ^ 31) = count_ones U uint64_t (2 ^ 31 + 2 ^ 32) := by
  unfold count_ones
  congr 1
  funext cnt i
  rw [count_test_uint64_t U i]


/-! ## Independence from the oracle where no shift is undefined -/

theorem shl_oracle (U V : Undef) (a k : CVal)
    (h : 0 ≤ k.val ∧ k.val < a.ty.promote.width) : a.shl U k = a.shl V k := by
  simp only [CVal.shl, h, and_self, if_true]

theorem shr_oracle (U V : Undef) (a k : CVal)
    (h : 0 ≤ k.val ∧ k.val < a.ty.promote.width) : a.shr U k = a.shr V k := by
  simp only [CVal.shr, h, and_self, if_true]

theorem reverse_bits_oracle (U V : Undef) (T : IntType) (hT : T.supported) (n : Nat)
    (hn : n < 2 ^ T.width) : reverse_bits U T n = reverse_bits V T n := by
  apply Nat.eq_of_testBit_eq
  intro j
  rw [testBit_reverse_bits U T hT n hn, testBit_reverse_bits V T hT n hn]


/-! ## Byte reversal on 64-bit words -/

/-- On an 8-byte word `reverse_bytes` returns the four bytes found after `t`,
in reverse order, read as an `int`: the argument does not matter. -/
theorem reverse_bytes_uint64_t (adj : Nat → Nat) (n : Nat) :
    reverse_bytes adj uint64_t n
      = cvt int_t uint64_t
          (adj 7 % 256 + adj 6 % 256 * 2 ^ 8 + adj 5 % 256 * 2 ^ 16 + adj 4 % 256 * 2 ^ 24) := by
  rfl

/-- The result of `reverse_bytes` on a 64-bit word is a sign-extended `int`:
its bits 31 to 63 are equal. -/
theorem reverse_bytes_uint64_t_high (adj : Nat → Nat) (n j : Nat) (h1 : 31 ≤ j) (h2 : j < 64) :
    (reverse_bytes adj uint64_t n).testBit j = (reverse_bytes adj uint64_t n).testBit 31 := by
  rw [reverse_bytes_uint64_t]
  generalize ht : adj 7 % 256 + adj 6 % 256 * 2 ^ 8 + adj 5 % 256 * 2 ^ 16
    + adj 4 % 256 * 2 ^ 24 = t
  have hlt : t < 2 ^ 32 := by
    have h7 := Nat.mod_lt (adj 7) (by decide : 0 < 256)
    have h6 := Nat.mod_lt (adj 6) (by decide : 0 < 256)
    have h5 := Nat.mod_lt (adj 5) (by decide : 0 < 256)
    have h4 := Nat.mod_lt (adj 4) (by decide : 0 < 256)
    omega
  by_cases hj : j = 31
  · rw [hj]
  · have h32 : 32 ≤ j := by omega
    have hf := testBit_eq_false_of_lt hlt h32
    simp [testBit_cvt, ebit, int_t, uint64_t, h2, h32, hf]

theorem testBit_byteAt (n j k : Nat) :
    (byteAt n j).testBit k = (decide (k < 8) && n.testBit (8 * j + k)) := by
  unfold byteAt
  rw [Nat.testBit_mod_two_pow, Nat.testBit_shiftRight]

/-! ## Bit indices that pass the range guard -/

theorem cvt_of_lt (S D : IntType) (p : Nat) (hp : p < 2 ^ (S.width - 1))
    (hd : p < 2 ^ D.width) : cvt S D p = p := by
  have h : p.testBit (S.width - 1) = false := Nat.testBit_lt_two_pow hp
  unfold cvt signExtend
  simp only [h, Bool.false_eq_true, if_false, ite_self]
  exact Nat.mod_eq_of_lt hd

theorem sval_of_lt (S : IntType) (p : Nat) (hp : p < 2 ^ (S.width - 1)) :
    S.sval p = (p : Int) := by
  have h : p.testBit (S.width - 1) = false := Nat.testBit_lt_two_pow hp
  simp [IntType.sval, h]

theorem sizeof_mul_BIT_SIZE {T : IntType} (hT : T.supported) : T.sizeof * BIT_SIZE = T.width := by
  unfold IntType.sizeof BIT_SIZE
  rcases hT with h | h | h | h <;> rw [h]

/-- An index `i` with `1 ≤ i ≤ W` passes the guard of the bit primitives. -/
theorem targOutside_eq_false {T : IntType} (hT : T.supported) (i : Nat) (h1 : 1 ≤ i)
    (h2 : i ≤ T.width) : targOutside T i = false := by
  have hw := supported_width_le hT
  have c1 : int8_t.common int_t = int_t := by decide
  have c2 : size_t.common int8_t = size_t := by decide
  have e1 : cvt int8_t int_t i = i :=
    cvt_of_lt int8_t int_t i (by simp only [int8_t]; omega) (by simp only [int_t]; omega)
  have e2 : cvt int8_t size_t i = i :=
    cvt_of_lt int8_t size_t i (by simp only [int8_t]; omega) (by simp only [size_t]; omega)
  have e3 : cvt int_t int_t 1 = 1 := by decide
  have e4 : cvt size_t size_t T.width = T.width :=
    cvt_self size_t T.width (by simp only [size_t]; omega)
  have s1 : int_t.sval i = (i : Int) := sval_of_lt int_t i (by simp only [int_t]; omega)
  have s2 : int_t.sval 1 = 1 := by decide
  have s3 : size_t.sval i = (i : Int) := sval_of_lt size_t i (by simp only [size_t]; omega)
  have s4 : size_t.sval T.width = (T.width : Int) :=
    sval_of_lt size_t T.width (by simp only [size_t]; omega)
  unfold targOutside CVal.gt CVal.lt
  simp only [ty_mk, bits_mk, ty_lit, lit, sizeof_mul_BIT_SIZE hT, c1, c2, e1, e2, e3, e4, s1, s2,
    s3, s4]
  have a1 : ¬ ((i : Int) < 1) := by omega
  have a2 : ¬ ((T.width : Int) < (i : Int)) := by omega
  simp [a1, a2]

/-- An index `i` with `1 ≤ i ≤ W`, passed as a `T`, arrives unchanged in the
`int8_t` parameter of the primitives. -/
theorem index_conv {T : IntType} (hT : T.supported) (i : Nat) (h2 : i ≤ T.width) :
    ((CVal.mk T i).conv int8_t).bits = i := by
  have hw := supported_width_le hT
  have h15 : T.width = 8 ∨ 16 ≤ T.width := by
    rcases hT with h | h | h | h <;> omega
  show cvt T int8_t i = i
  apply cvt_of_lt
  · rcases h15 with h | h
    · rw [h]
      omega
    · have : 2 ^ 15 ≤ 2 ^ (T.width - 1) := Nat.pow_le_pow_right (by decide) (by omega)
      omega
  · simp only [int8_t]
    omega

/-! ## Bitwise description of `toggle_bit` -/

/-- Bit `j` of `toggle_bit(n, i)` for an index in range: bit `j` of `n`, changed
where the mask `1 << (targ - 1)` has a 1. -/
theorem testBit_toggle_bit (U : Undef) {T : IntType} (hT : T.supported) (n i j : Nat)
    (h1 : 1 ≤ i) (h2 : i ≤ T.width) :
    (toggle_bit U T n i).testBit j
      = (decide (j < T.width)
          && (n.testBit j != ((lit 1).shl U ((CVal.mk int8_t i).sub (lit 1))).ebit j)) := by
  have hP := width_le_promote T
  unfold toggle_bit
  rw [targOutside_eq_false hT i h1 h2]
  simp only [Bool.false_eq_true, if_false]
  rw [testBit_conv]
  by_cases hj : j < T.width
  · have hjP : j < T.promote.width := by omega
    have hc : (T.common int_t.promote) = T.promote := by rw [promote_int, common_int]
    rw [ebit_low _ (by simpa only [ty_bxor, ty_shl, ty_lit, ty_mk, hc] using hjP), testBit_bxor]
    simp only [ty_shl, ty_lit, ty_mk, hc, hjP, hj, decide_True, Bool.true_and, CVal.ebit,
      bits_mk, ebit_of_lt hj]
  · simp [hj]

theorem toggle_bit_toggle_bit (U : Undef) {T : IntType} (hT : T.supported) (n i : Nat)
    (hn : n < 2 ^ T.width) (h1 : 1 ≤ i) (h2 : i ≤ T.width) :
    toggle_bit U T (toggle_bit U T n i) i = n := by
  apply Nat.eq_of_testBit_eq
  intro j
  rw [testBit_toggle_bit U hT _ i j h1 h2, testBit_toggle_bit U hT n i j h1 h2]
  by_cases hj : j < T.width
  · simp only [hj, decide_True, Bool.true_and]
    cases n.testBit j <;>
      cases ((lit 1).shl U ((CVal.mk int8_t i).sub (lit 1))).ebit j <;> rfl
  · simp [hj, testBit_eq_false_of_lt hn (Nat.le_of_not_lt hj)]

/-! ## The swap loop terminates within its fuel -/

/-- Once the fuel covers the distance between `l` and `r`, more fuel does not
change the result of the swap loop: the loop has stopped by itself. -/
theorem swapLoop_add_fuel (fuel extra l r : Nat) (mem : Nat → Nat) (h : r ≤ l + fuel) :
    swapLoop (fuel + extra) l r mem = swapLoop fuel l r mem := by
  induction fuel generalizing l r mem with
  | zero =>
    have hlr : ¬ l < r := by omega
    cases extra with
    | zero => rfl
    | succ e => simp [swapLoop, hlr]
  | succ f ih =>
    rw [Nat.add_right_comm]
    by_cases hlr : l < r
    · simp only [swapLoop, hlr, if_true]
      exact ih (l + 1) (r - 1) _ (by omega)
    · simp [swapLoop, hlr]

/-! ## The mask `1 << k` where the shift is defined -/

/-- For a count `k < 32` the `int` mask `1 << k` has the single bit `k`; read
beyond 32 bits its sign bit is repeated, so for `k = 31` all bits from 31 on
are set. -/
theorem ebit_one_shl (U : Undef) (c : CVal) (k j : Nat) (hc : c.val = (k : Int)) (hk : k < 32) :
    ((lit 1).shl U c).ebit j = (decide (j = k) || (decide (k = 31) && decide (32 ≤ j))) := by
  have hP : (lit 1).ty.promote.width = 32 := by decide
  have hty : ((lit 1).shl U c).ty = int_t := rfl
  have hb : ∀ m, ((lit 1).shl U c).bits.testBit m = (decide (m < 32) && decide (m = k)) := by
    intro m
    rw [testBit_shl U (lit 1) c k m hc (by rw [hP]; exact hk), hP, ebit_lit_one]
    by_cases h1 : m = k
    · subst h1
      simp
    · by_cases h3 : k ≤ m
      · have : ¬ m - k = 0 := by omega
        simp [h1, h3, this]
      · simp [h1, h3]
  unfold CVal.ebit ebit
  rw [hty, hb, hb]
  simp only [int_t]
  by_cases h1 : j = k
  · subst h1
    simp [hk]
  · by_cases h2 : k = 31
    · subst h2
      by_cases h3 : 32 ≤ j
      · have : ¬ j < 32 := by omega
        simp [h3, this]
      · simp [h1, h3]
    · have : ¬ 31 = k := by omega
      simp [h1, h2, this]

/-- The value of `targ - 1` for an index that passes the guard. -/
theorem targ_sub_one_val (i : Nat) (h1 : 1 ≤ i) (h2 : i ≤ 64) :
    ((CVal.mk int8_t i).sub (lit 1)).val = ((i - 1 : Nat) : Int) := by
  have c1 : int8_t.common int_t = int_t := by decide
  have e1 : cvt int8_t int_t i = i :=
    cvt_of_lt int8_t int_t i (by simp only [int8_t]; omega) (by simp only [int_t]; omega)
  have e3 : cvt int_t int_t 1 = 1 := by decide
  have hw : int_t.width = 32 := rfl
  unfold CVal.val CVal.sub
  simp only [ty_mk, bits_mk, ty_lit, lit, c1, e1, e3, hw]
  have : (i + 2 ^ 32 - 1) % 2 ^ 32 = i - 1 := by omega
  rw [this]
  exact sval_of_lt int_t (i - 1) (by simp only [int_t]; omega)

/-! ## Bitwise description of `set_bit` and `clear_bit` -/

/-- Bit `j` of `set_bit(n, i)` for an index in range: bit `j` of `n`, or a 1 of
the mask `1 << (targ - 1)`. -/
theorem testBit_set_bit (U : Undef) {T : IntType} (hT : T.supported) (n i j : Nat)
    (h1 : 1 ≤ i) (h2 : i ≤ T.width) :
    (set_bit U T n i).testBit j
      = (decide (j < T.width)
          && (n.testBit j || ((lit 1).shl U ((CVal.mk int8_t i).sub (lit 1))).ebit j)) := by
  have hP := width_le_promote T
  unfold set_bit
  rw [targOutside_eq_false hT i h1 h2]
  simp only [Bool.false_eq_true, if_false]
  rw [testBit_conv]
  by_cases hj : j < T.width
  · have hjP : j < T.promote.width := by omega
    have hc : (T.common int_t.promote) = T.promote := by rw [promote_int, common_int]
    rw [ebit_low _ (by simpa only [ty_bor, ty_shl, ty_lit, ty_mk, hc] using hjP), testBit_bor]
    simp only [ty_shl, ty_lit, ty_mk, hc, hjP, hj, decide_True, Bool.true_and, CVal.ebit,
      bits_mk, ebit_of_lt hj]
  · simp [hj]

/-- Bit `j` of `clear_bit(n, i)` for an index in range: bit `j` of `n`, cleared
where the mask `1 << (targ - 1)` has a 1. -/
theorem testBit_clear_bit (U : Undef) {T : IntType} (hT : T.supported) (n i j : Nat)
    (h1 : 1 ≤ i) (h2 : i ≤ T.width) :
    (clear_bit U T n i).testBit j
      = (decide (j < T.width)
          && (n.testBit j && !((lit 1).shl U ((CVal.mk int8_t i).sub (lit 1))).ebit j)) := by
  have hP := width_le_promote T
  have hw := supported_width_le hT
  unfold clear_bit
  rw [targOutside_eq_false hT i h1 h2]
  simp only [Bool.false_eq_true, if_false]
  rw [testBit_conv]
  by_cases hj : j < T.width
  · have hjP : j < T.promote.width := by omega
    have hc : (T.common int_t.promote.promote) = T.promote := by
      rw [promote_int, promote_int, common_int]
    rw [ebit_low _ (by simpa only [ty_band, ty_bnot, ty_shl, ty_lit, ty_mk, hc] using hjP),
      testBit_band]
    have hnot : (((lit 1).shl U ((CVal.mk int8_t i).sub (lit 1))).bnot).ebit j
        = !((lit 1).shl U ((CVal.mk int8_t i).sub (lit 1))).ebit j := by
      have hty : (((lit 1).shl U ((CVal.mk int8_t i).sub (lit 1))).bnot).ty = int_t := rfl
      have hty2 : ((lit 1).shl U ((CVal.mk int8_t i).sub (lit 1))).ty = int_t := rfl
      have hlt : ((lit 1).shl U ((CVal.mk int8_t i).sub (lit 1))).bits < 2 ^ 32 :=
        shl_bits_lt U (lit 1) _
      have hpw : ((lit 1).shl U ((CVal.mk int8_t i).sub (lit 1))).ty.promote.width = 32 := rfl
      have hf : ∀ m, 32 ≤ m →
          ((lit 1).shl U ((CVal.mk int8_t i).sub (lit 1))).bits.testBit m = false :=
        fun m hm => testBit_eq_false_of_lt hlt hm
      have hsw : (int_t.signed = true) ∧ int_t.width = 32 := ⟨rfl, rfl⟩
      have hb := fun m => testBit_bnot ((lit 1).shl U ((CVal.mk int8_t i).sub (lit 1))) m
      unfold CVal.ebit ebit at hb ⊢
      rw [hty, hb, hb, hpw, hty2, hsw.1, hsw.2]
      by_cases hj32 : j < 32
      · have : ¬ 32 ≤ j := by omega
        simp [hj32, this]
      · have h32 : 32 ≤ j := by omega
        simp [hj32, h32, hf j h32]
    rw [hnot]
    simp only [ty_bnot, ty_shl, ty_lit, ty_mk, hc, hjP, hj, decide_True, Bool.true_and,
      CVal.ebit, bits_mk, ebit_of_lt hj]
  · simp [hj]

/-! ## `count_ones` on words of at most 32 bits -/

theorem foldl_count_range (p q : Nat → Bool) (k a : Nat) (h : ∀ i, i < k → p i = q i) :
    (List.range k).foldl (fun cnt i => if p i then cnt + 1 else cnt) a
      = a + ((List.range k).filter q).length := by
  induction k with
  | zero => simp
  | succ k ih =>
    rw [List.range_succ, List.foldl_append, List.filter_append, List.length_append,
      ih (fun i hi => h i (by omega))]
    have hk := h k (by omega)
    simp only [List.foldl_cons, List.foldl_nil, List.filter_cons, List.filter_nil, hk]
    cases q k
    · simp
    · simp
      omega

/-- On a word of at most 32 bits the test `n & (1 << i)` of `count_ones` is the
test of bit `i`. -/
theorem count_test_of_le_32 (U : Undef) {T : IntType} (hw : T.width ≤ 32)
    (n i : Nat) (hi : i < T.width) :
    ((CVal.mk T n).band ((lit 1).shl U (lit i))).toBool = n.testBit i := by
  have hP32 := promote_width_ge T
  have hPw : T.promote.width = 32 := by
    unfold IntType.promote
    split
    · rfl
    · omega
  have hc : (T.common int_t.promote) = T.promote := by rw [promote_int, common_int]
  have hiv : (lit i).val = (i : Int) := lit_val i (by omega)
  have hb : ∀ j, ((CVal.mk T n).band ((lit 1).shl U (lit i))).bits.testBit j
      = (decide (j = i) && n.testBit i) := by
    intro j
    rw [testBit_band, ebit_one_shl U (lit i) i j hiv (by omega)]
    simp only [ty_shl, ty_lit, ty_mk, hc, hPw]
    by_cases h1 : j = i
    · subst h1
      have : j < 32 := by omega
      simp [this, CVal.ebit, ebit_of_lt hi]
    · by_cases h2 : j < 32
      · have : ¬ 32 ≤ j := by omega
        simp [h1, h2, this]
      · simp [h1, h2]
  unfold CVal.toBool
  cases hn : n.testBit i
  · have : ((CVal.mk T n).band ((lit 1).shl U (lit i))).bits = 0 := by
      rw [eq_zero_iff_testBit]
      intro j
      rw [hb, hn]
      simp
    rw [this]
    rfl
  · have h1 := hb i
    rw [hn] at h1
    have : ((CVal.mk T n).band ((lit 1).shl U (lit i))).bits ≠ 0 := by
      intro h0
      rw [h0] at h1
      simp at h1
    exact bne_iff_ne.mpr this

/-- On a word of at most 32 bits `count_ones` is the population count. -/
theorem count_ones_eq_popCount (U : Undef) {T : IntType} (hT : T.supported)
    (hw : T.width ≤ 32) (n : Nat) : count_ones U T n = popCount T.width n := by
  unfold count_ones popCount
  rw [loopIndices_eq hT, foldl_count_range _ (fun i => n.testBit i) T.width 0
    (fun i hi => count_test_of_le_32 U hw n i hi)]
  simp

/-! ## Bitwise description of `check_bit` -/

/-- The value of the shift count `(targ - 1) & 1` of `check_bit`. -/
theorem check_count_val (i : Nat) (h1 : 1 ≤ i) (h2 : i ≤ 64) :
    (((CVal.mk int8_t i).sub (lit 1)).band (lit 1)).val = (((i - 1) % 2 : Nat) : Int) := by
  have c1 : int8_t.common int_t = int_t := by decide
  have c2 : int_t.common int_t = int_t := by decide
  have e1 : cvt int8_t int_t i = i :=
    cvt_of_lt int8_t int_t i (by simp only [int8_t]; omega) (by simp only [int_t]; omega)
  have e3 : cvt int_t int_t 1 = 1 := by decide
  have e4 : cvt int_t int_t (i - 1) = i - 1 :=
    cvt_self int_t (i - 1) (by simp only [int_t]; omega)
  have hw : int_t.width = 32 := rfl
  have hsub : (i + 2 ^ 32 - 1) % 2 ^ 32 = i - 1 := by omega
  unfold CVal.val CVal.band CVal.sub
  simp only [ty_mk, bits_mk, ty_lit, lit, c1, c2, e1, e3, hw, hsub, e4, Nat.and_one_is_mod]
  exact sval_of_lt int_t ((i - 1) % 2) (by simp only [int_t]; omega)

/-- Bit `j` of `check_bit(n, i)` for an index in range: the word is shifted
right by `(i - 1) mod 2`, that is, by 0 or 1, and nothing is masked. -/
theorem testBit_check_bit (U : Undef) {T : IntType} (hT : T.supported) (n i j : Nat)
    (hn : n < 2 ^ T.width) (h1 : 1 ≤ i) (h2 : i ≤ T.width) :
    (check_bit U T n i).testBit j
      = (decide (j < T.width) && ebit T n ((i - 1) % 2 + j)) := by
  have hP := width_le_promote T
  have hP32 := promote_width_ge T
  have hw := supported_width_le hT
  have hpos := supported_width_pos hT
  unfold check_bit
  rw [targOutside_eq_false hT i h1 h2]
  simp only [Bool.false_eq_true, if_false]
  rw [testBit_conv]
  by_cases hj : j < T.width
  · have hjP : j < T.promote.width := by omega
    rw [ebit_low _ (by simpa only [ty_shr, ty_mk] using hjP),
      testBit_shr U _ _ ((i - 1) % 2) j (check_count_val i h1 (by omega))
        (by simp only [ty_mk]; omega) hn hpos]
    simp only [ty_mk, hjP, hj, decide_True, Bool.true_and, CVal.ebit, bits_mk]
  · simp [hj]

theorem set_bit_lt (U : Undef) (T : IntType) (n i : Nat) (hn : n < 2 ^ T.width) :
    set_bit U T n i < 2 ^ T.width := by
  unfold set_bit
  split
  · exact hn
  · exact cvt_lt _ T _

/-- Where the shift of `set_bit` is defined (index at most 32), `checkBit(i)`
after `setBit(i)` is true. -/
theorem checkBit_setBit_of_le_32 (U : Undef) {T : IntType} (hT : T.supported) (n i : Nat)
    (hn : n < 2 ^ T.width) (h1 : 1 ≤ i) (h2 : i ≤ T.width) (h3 : i ≤ 32) :
    ((Bits.ofValue T n).setBit U i).checkBit U i = true := by
  have hw := supported_width_le hT
  show (check_bit U T (set_bit U T n ((CVal.mk T i).conv int8_t).bits)
    ((CVal.mk T i).conv int8_t).bits != 0) = true
  rw [index_conv hT i h2]
  have hm := set_bit_lt U T n i hn
  have hbit : (set_bit U T n i).testBit (i - 1) = true := by
    rw [testBit_set_bit U hT n i (i - 1) h1 h2,
      ebit_one_shl U _ (i - 1) (i - 1) (targ_sub_one_val i h1 (by omega)) (by omega)]
    have : i - 1 < T.width := by omega
    simp [this]
  have hs : (i - 1) % 2 ≤ i - 1 := Nat.mod_le _ _
  have hr := testBit_check_bit U hT (set_bit U T n i) i (i - 1 - (i - 1) % 2) hm h1 h2
  have e : (i - 1) % 2 + (i - 1 - (i - 1) % 2) = i - 1 := by omega
  have hlt : i - 1 - (i - 1) % 2 < T.width := by omega
  have hlt2 : i - 1 < T.width := by omega
  rw [e, ebit_of_lt hlt2, hbit] at hr
  simp only [hlt, decide_True, Bool.true_and] at hr
  apply bne_iff_ne.mpr
  intro h0
  rw [h0] at hr
  simp at hr

/-! ## `hamming_distance` and `count_ones` of the exclusive or -/

theorem common_self_int (T : IntType) : T.common T = T.promote := by
  unfold IntType.common
  simp

/-- The exclusive or of two words of type `T`, stored back into a `T`, is the
exclusive or of the patterns. -/
theorem bxor_conv_bits {T : IntType} (x y : Nat) (hx : x < 2 ^ T.width) (hy : y < 2 ^ T.width) :
    (((CVal.mk T x).bxor (CVal.mk T y)).conv T).bits = x ^^^ y := by
  have hP := width_le_promote T
  apply Nat.eq_of_testBit_eq
  intro j
  rw [testBit_conv, Nat.testBit_xor]
  by_cases hj : j < T.width
  · have hjP : j < T.promote.width := by omega
    rw [ebit_low _ (by simpa only [ty_bxor, ty_mk, common_self_int] using hjP), testBit_bxor]
    simp only [ty_mk, common_self_int, hjP, hj, decide_True, Bool.true_and, CVal.ebit, bits_mk,
      ebit_of_lt hj]
  · have h1 := testBit_eq_false_of_lt hx (Nat.le_of_not_lt hj)
    have h2 := testBit_eq_false_of_lt hy (Nat.le_of_not_lt hj)
    simp [hj, h1, h2]

theorem ebit_xor (T : IntType) (x y j : Nat) (hx : x < 2 ^ T.width) (hy : y < 2 ^ T.width) :
    ebit T (x ^^^ y) j = (ebit T x j != ebit T y j) := by
  unfold ebit
  rw [Nat.testBit_xor, Nat.testBit_xor]
  by_cases hj : j < T.width
  · have : ¬ T.width ≤ j := by omega
    simp [this]
  · have hle : T.width ≤ j := by omega
    have h1 := testBit_eq_false_of_lt hx hle
    have h2 := testBit_eq_false_of_lt hy hle
    simp only [h1, h2, hle, decide_True, Bool.and_true, Bool.false_or]
    cases T.signed <;> cases x.testBit (T.width - 1) <;> cases y.testBit (T.width - 1) <;> rfl

theorem cvt_xor (T C : IntType) (x y : Nat) (hx : x < 2 ^ T.width) (hy : y < 2 ^ T.width) :
    cvt T C (x ^^^ y) = cvt T C x ^^^ cvt T C y := by
  apply Nat.eq_of_testBit_eq
  intro j
  rw [Nat.testBit_xor, testBit_cvt, testBit_cvt, testBit_cvt, ebit_xor T x y j hx hy]
  cases decide (j < C.width) <;> simp

theorem bne_zero_eq_bne {u v : Nat} : (u ^^^ v != 0) = (u != v) := by
  by_cases h : u = v
  · subst h
    simp
  · have h2 : ¬ u ^^^ v = 0 := fun hh => h (Nat.xor_eq_zero.mp hh)
    rw [bne_iff_ne.mpr h, bne_iff_ne.mpr h2]

/-- The test of `hamming_distance` on `x` and `y` is the test of `count_ones`
on `x ^ y`, for any mask of type `int`. -/
theorem hamming_test_eq {T : IntType} (x y : Nat) (hx : x < 2 ^ T.width)
    (hy : y < 2 ^ T.width) (m : CVal) (hm : m.ty = int_t) :
    ((CVal.mk T x).band m).ne ((CVal.mk T y).band m)
      = ((CVal.mk T (((CVal.mk T x).bxor (CVal.mk T y)).conv T).bits).band m).toBool := by
  rw [bxor_conv_bits x y hx hy]
  have hc : T.common m.ty = T.promote := by rw [hm, common_int]
  have hcc : (T.common m.ty).common (T.common m.ty) = T.common m.ty := by
    rw [hc, common_self_promote]
  have hlt : ∀ p, p &&& cvt m.ty (T.common m.ty) m.bits < 2 ^ (T.common m.ty).width :=
    fun p => Nat.and_lt_two_pow p (cvt_lt _ _ _)
  unfold CVal.ne CVal.toBool CVal.band
  simp only [hcc]
  rw [cvt_self _ _ (hlt _), cvt_self _ _ (hlt _), cvt_xor T _ x y hx hy,
    Nat.and_xor_distrib_right, bne_zero_eq_bne]

/-- For every oracle `hamming_distance(x, y)` is `count_ones(x ^ y)`. -/
theorem hamming_distance_eq_count_ones {T : IntType} (U : Undef) (x y : Nat)
    (hx : x < 2 ^ T.width) (hy : y < 2 ^ T.width) :
    hamming_distance U T x y
      = count_ones U T (((CVal.mk T x).bxor (CVal.mk T y)).conv T).bits := by
  unfold hamming_distance count_ones
  congr 1
  funext diff i
  rw [hamming_test_eq x y hx hy ((lit 1).shl U (lit i)) rfl]

/-! ## Bit indices that fail the range guard -/

/-- A non-negative index up to 127, passed as a `T`, arrives unchanged in the
`int8_t` parameter of the primitives. -/
theorem index_conv_of_le_127 {T : IntType} (hT : T.supported) (i : Nat) (h : i ≤ 127) :
    ((CVal.mk T i).conv int8_t).bits = i := by
  have h8 : 8 ≤ T.width := by
    rcases hT with h | h | h | h <;> omega
  show cvt T int8_t i = i
  apply cvt_of_lt
  · have : 2 ^ 7 ≤ 2 ^ (T.width - 1) := Nat.pow_le_pow_right (by decide) (by omega)
    omega
  · simp only [int8_t]
    omega

/-- The index 0 and the indices above the width (up to 127, the largest
`int8_t`) fail the guard of the bit primitives. -/
theorem targOutside_eq_true {T : IntType} (hT : T.supported) (i : Nat)
    (hi : i = 0 ∨ (T.width < i ∧ i ≤ 127)) : targOutside T i = true := by
  have hw := supported_width_le hT
  have h127 : i ≤ 127 := by omega
  have c1 : int8_t.common int_t = int_t := by decide
  have c2 : size_t.common int8_t = size_t := by decide
  have e1 : cvt int8_t int_t i = i :=
    cvt_of_lt int8_t int_t i (by simp only [int8_t]; omega) (by simp only [int_t]; omega)
  have e2 : cvt int8_t size_t i = i :=
    cvt_of_lt int8_t size_t i (by simp only [int8_t]; omega) (by simp only [size_t]; omega)
  have e3 : cvt int_t int_t 1 = 1 := by decide
  have e4 : cvt size_t size_t T.width = T.width :=
    cvt_self size_t T.width (by simp only [size_t]; omega)
  have s1 : int_t.sval i = (i : Int) := sval_of_lt int_t i (by simp only [int_t]; omega)
  have s2 : int_t.sval 1 = 1 := by decide
  have s3 : size_t.sval i = (i : Int) := sval_of_lt size_t i (by simp only [size_t]; omega)
  have s4 : size_t.sval T.width = (T.width : Int) :=
    sval_of_lt size_t T.width (by simp only [size_t]; omega)
  unfold targOutside CVal.gt CVal.lt
  simp only [ty_mk, bits_mk, ty_lit, lit, sizeof_mul_BIT_SIZE hT, c1, c2, e1, e2, e3, e4, s1, s2,
    s3, s4]
  rcases hi with h0 | ⟨h1, _⟩
  · subst h0
    simp
  · have a2 : (T.width : Int) < (i : Int) := by omega
    simp [a2]

/-- Outside the guard `check_bit` returns the word itself. -/
theorem check_bit_outside (U : Undef) {T : IntType} (hT : T.supported) (n i : Nat)
    (hi : i = 0 ∨ (T.width < i ∧ i ≤ 127)) : check_bit U T n i = n := by
  unfold check_bit
  rw [targOutside_eq_true hT i hi]
  rfl

/-- Outside the guard `set_bit`, `clear_bit` and `toggle_bit` return the word
unchanged. -/
theorem set_clear_toggle_outside (U : Undef) {T : IntType} (hT : T.supported) (n i : Nat)
    (hi : i = 0 ∨ (T.width < i ∧ i ≤ 127)) :
    set_bit U T n i = n ∧ clear_bit U T n i = n ∧ toggle_bit U T n i = n := by
  unfold set_bit clear_bit toggle_bit
  rw [targOutside_eq_true hT i hi]
  exact ⟨rfl, rfl, rfl⟩

/-! ## `insertRight` -/

theorem lit_one_conv {T : IntType} (hT : T.supported) : ((lit 1).conv T).bits = 1 := by
  have h8 : 8 ≤ T.width := by
    rcases hT with h | h | h | h <;> omega
  show cvt int_t T 1 = 1
  apply cvt_of_lt
  · decide
  · have : 2 ^ 8 ≤ 2 ^ T.width := Nat.pow_le_pow_right (by decide) h8
    omega

theorem val_mk_one {T : IntType} (hT : T.supported) : (CVal.mk T 1).val = ((1 : Nat) : Int) := by
  have h8 : 8 ≤ T.width := by
    rcases hT with h | h | h | h <;> omega
  apply sval_of_lt
  have : 2 ^ 7 ≤ 2 ^ (T.width - 1) := Nat.pow_le_pow_right (by decide) (by omega)
  show 1 < 2 ^ (T.width - 1)
  omega

/-- Bit `j` of the word after `*this <<= 1`. -/
theorem testBit_shlAssign_one (U : Undef) {T : IntType} (hT : T.supported) (b : Bits T)
    (j : Nat) :
    (b.shlAssign U 1).number.testBit j
      = (decide (j < T.width) && (decide (1 ≤ j) && b.number.testBit (j - 1))) := by
  have hP := width_le_promote T
  have hP32 := promote_width_ge T
  show ((((CVal.mk T b.number).shl U (CVal.mk T 1)).conv T).bits).testBit j = _
  rw [testBit_conv]
  by_cases hj : j < T.width
  · have hjP : j < T.promote.width := by omega
    have hj1 : j - 1 < T.width := by omega
    rw [ebit_low _ (by simpa only [ty_shl, ty_mk] using hjP),
      testBit_shl U _ _ 1 j (val_mk_one hT) (by simp only [ty_mk]; omega)]
    simp only [ty_mk, hjP, hj, decide_True, Bool.true_and, CVal.ebit, bits_mk, ebit_of_lt hj1]
  · simp [hj]

/-- Bit `j` of the word after `*this |= 1`. -/
theorem testBit_orAssign_one {T : IntType} (b : Bits T) (j : Nat) :
    (b.orAssign 1).number.testBit j
      = (decide (j < T.width) && (b.number.testBit j || decide (j = 0))) := by
  have hP := width_le_promote T
  show ((((CVal.mk T b.number).bor (CVal.mk T 1)).conv T).bits).testBit j = _
  rw [testBit_conv]
  by_cases hj : j < T.width
  · have hjP : j < T.promote.width := by omega
    rw [ebit_low _ (by simpa only [ty_bor, ty_mk, common_self_int] using hjP), testBit_bor]
    simp only [ty_mk, common_self_int, hjP, hj, decide_True, Bool.true_and, CVal.ebit, bits_mk,
      ebit_of_lt hj]
    congr 1
    cases j with
    | zero => simp
    | succ m => simp [Nat.testBit_succ]
  · simp [hj]

/-- One step of `insertRight` doubles the word and adds the flag, modulo
`2 ^ W`. -/
theorem insertRightStep_number (U : Undef) {T : IntType} (hT : T.supported) (b : Bits T)
    (k : Nat) :
    (b.insertRightStep U k).number
      = (2 * b.number + (if k != 0 then 1 else 0)) % 2 ^ T.width := by
  have hpos := supported_width_pos hT
  apply Nat.eq_of_testBit_eq
  intro j
  have hf : (if k != 0 then 1 else 0) < 2 ^ 1 := by
    split <;> decide
  have e2 : 2 * b.number = 2 ^ 1 * b.number := by rw [Nat.pow_one]
  rw [Nat.testBit_mod_two_pow, e2, Nat.testBit_mul_pow_two_add _ hf]
  unfold Bits.insertRightStep
  rw [lit_one_conv hT]
  by_cases hk : (k != 0) = true
  · simp only [hk, if_true]
    rw [testBit_orAssign_one, testBit_shlAssign_one U hT]
    by_cases hj : j < T.width
    · cases j with
      | zero => simp [hpos]
      | succ m => simp [hj]
    · simp [hj]
  · have hk2 : (k != 0) = false := by simpa using hk
    simp only [hk2, Bool.false_eq_true, if_false]
    rw [testBit_shlAssign_one U hT]
    by_cases hj : j < T.width
    · cases j with
      | zero => simp
      | succ m => simp [hj]
    · simp [hj]

theorem insertRightStep_tsize (U : Undef) {T : IntType} (b : Bits T) (k : Nat) :
    (b.insertRightStep U k).tsize = b.tsize := by
  unfold Bits.insertRightStep
  split <;> rfl

theorem insertRightStep_eq (U : Undef) {T : IntType} (hT : T.supported) (b : Bits T)
    (k : Nat) :
    b.insertRightStep U k
      = ⟨(2 * b.number + (if k != 0 then 1 else 0)) % 2 ^ T.width, b.tsize⟩ := by
  have h1 := insertRightStep_number U hT b k
  have h2 := insertRightStep_tsize U b k
  cases hs : b.insertRightStep U k with
  | mk num ts =>
    rw [hs] at h1 h2
    simp only at h1 h2
    rw [h1, h2]

theorem sizeof_mul_eight {T : IntType} (hT : T.supported) : T.sizeof * 8 = T.width :=
  sizeof_mul_BIT_SIZE hT

/-- What `insertRight` leaves for every call that compiles: a non-empty flag
list of length at most `W + 1`. -/
theorem insertRight_eq (U : Undef) {T : IntType} (hT : T.supported) (flags : List Nat)
    (b : Bits T) (h1 : flags ≠ []) (h2 : flags.length ≤ T.width + 1) :
    b.insertRight U flags
      = some ⟨(b.number * 2 ^ flags.length + flagSum flags) % 2 ^ T.width, b.tsize⟩ := by
  induction flags generalizing b with
  | nil => exact absurd rfl h1
  | cons k rest ih =>
    cases rest with
    | nil =>
      simp only [Bits.insertRight, insertRightStep_eq U hT, List.length_cons, List.length_nil,
        flagSum]
      congr 3
      generalize (if k != 0 then 1 else 0) = f
      simp only [Nat.zero_add, Nat.pow_one, Nat.pow_zero, Nat.mul_one, Nat.add_zero]
      rw [Nat.mul_comm]
    | cons k2 bits =>
      have hlen : (k2 :: bits).length ≤ T.sizeof * 8 := by
        rw [sizeof_mul_eight hT]
        simp only [List.length_cons] at h2 ⊢
        omega
      rw [Bits.insertRight, if_pos hlen, ih (b.insertRightStep U k) (by simp)
        (by simp only [List.length_cons] at h2 ⊢; omega), insertRightStep_eq U hT]
      simp only [flagSum, List.length_cons]
      congr 2
      generalize (if k != 0 then 1 else 0) = f
      generalize flagSum (k2 :: bits) = s
      generalize bits.length = r
      rw [Nat.add_mod, Nat.mul_mod, Nat.mod_mod, ← Nat.mul_mod, ← Nat.add_mod]
      congr 1
      rw [show r + 1 + 1 = (r + 1) + 1 from rfl, Nat.pow_succ 2 (r + 1)]
      ring

/-! ## Independence of `set_bit`, `clear_bit` and `toggle_bit` from the oracle -/

/-- For an index from 1 to 32 the mask `1 << (targ - 1)` is a defined shift. -/
theorem one_shl_oracle (U V : Undef) (i : Nat) (h1 : 1 ≤ i) (h2 : i ≤ 32) :
    (lit 1).shl U ((CVal.mk int8_t i).sub (lit 1))
      = (lit 1).shl V ((CVal.mk int8_t i).sub (lit 1)) := by
  apply shl_oracle
  rw [targ_sub_one_val i h1 (by omega)]
  have hP : (lit 1).ty.promote.width = 32 := rfl
  rw [hP]
  omega

theorem set_bit_oracle (U V : Undef) (T : IntType) (n i : Nat) (h1 : 1 ≤ i) (h2 : i ≤ 32) :
    set_bit U T n i = set_bit V T n i := by
  unfold set_bit
  rw [one_shl_oracle U V i h1 h2]

theorem clear_bit_oracle (U V : Undef) (T : IntType) (n i : Nat) (h1 : 1 ≤ i) (h2 : i ≤ 32) :
    clear_bit U T n i = clear_bit V T n i := by
  unfold clear_bit
  rw [one_shl_oracle U V i h1 h2]

theorem toggle_bit_oracle (U V : Undef) (T : IntType) (n i : Nat) (h1 : 1 ≤ i) (h2 : i ≤ 32) :
    toggle_bit U T n i = toggle_bit V T n i := by
  unfold toggle_bit
  rw [one_shl_oracle U V i h1 h2]

/-! ## `insertLeft` on a 64-bit word -/

/-- Read beyond 32 bits, an `int` pattern repeats its bit 31. -/
theorem ebit_int_high (p j : Nat) (hp : p < 2 ^ 32) (hj : 32 ≤ j) :
    ebit int_t p j = p.testBit 31 := by
  have hf := testBit_eq_false_of_lt hp hj
  simp [ebit, int_t, hf, hj]

/-- On a 64-bit word `insertLeft(k)` with a non-zero flag is `setBit(64)`. -/
theorem insertLeft_uint64_t_one (U : Undef) :
    ((Bits.ofValue uint64_t 0).insertLeft U [1]).map Bits.value
      = some (set_bit U uint64_t 0 64) := by
  have hc : ((1 : Nat) != 0 && (CVal.mk int8_t (Bits.ofValue uint64_t 0).tsize).gt (lit 0))
      = true := by decide
  have ha : ((CVal.mk int8_t (Bits.ofValue uint64_t 0).tsize).conv uint64_t).bits = 64 := by
    decide
  have hb : ((CVal.mk uint64_t 64).conv int8_t).bits = 64 := by decide
  simp only [Bits.insertLeft, Bits.insertLeftStep, hc, if_true, ha, Bits.setBit, hb, Option.map,
    Bits.value]
  rfl

/-- Bits 62 and 63 of `set_bit(0, 64)` on a 64-bit word are equal: both copy
bit 31 of the `int` mask. -/
theorem set_bit_uint64_t_top (U : Undef) :
    (set_bit U uint64_t 0 64).testBit 63 = (set_bit U uint64_t 0 64).testBit 62 := by
  have hlt : ((lit 1).shl U ((CVal.mk int8_t 64).sub (lit 1))).bits < 2 ^ 32 :=
    shl_bits_lt U (lit 1) _
  have hty : ((lit 1).shl U ((CVal.mk int8_t 64).sub (lit 1))).ty = int_t := rfl
  rw [testBit_set_bit U (T := uint64_t) (by decide) 0 64 63 (by decide) (by decide),
    testBit_set_bit U (T := uint64_t) (by decide) 0 64 62 (by decide) (by decide)]
  unfold CVal.ebit
  rw [hty, ebit_int_high _ 63 hlt (by decide), ebit_int_high _ 62 hlt (by decide)]
  simp [uint64_t]

/-! ## The expression `(n >> i) & 1` -/

/-- For `i` below the width, `(n >> i) & 1` has the promoted type of `T` and the
value of bit `i` of `n`. -/
theorem bit_expr_bits (U : Undef) {T : IntType} (hT : T.supported) (n i : Nat)
    (hn : n < 2 ^ T.width) (hi : i < T.width) :
    (((CVal.mk T n).shr U (lit i)).band (lit 1)).bits = (n.testBit i).toNat := by
  have hw := supported_width_pos hT
  have hw64 := supported_width_le hT
  have hP := width_le_promote T
  have hP32 := promote_width_ge T
  have hiv : (lit i).val = (i : Int) := lit_val i (by omega)
  have h0P : 0 < T.promote.width := by omega
  have hiP : i < T.promote.width := by omega
  have e2 : ((CVal.mk T n).shr U (lit i)).bits.testBit 0 = n.testBit i := by
    rw [testBit_shr U _ _ i 0 hiv hiP hn hw]
    simp [h0P, CVal.ebit, ebit_of_lt hi]
  apply Nat.eq_of_testBit_eq
  intro j
  rw [testBit_band, ebit_lit_one, Nat.testBit_bool_to_nat]
  simp only [ty_shr, ty_lit, ty_mk, common_promote_int]
  by_cases hj0 : j = 0
  · subst hj0
    rw [ebit_low _ (by simpa only [ty_shr, ty_mk] using h0P), e2]
    simp [h0P]
  · simp [hj0]

theorem bit_expr_ty (U : Undef) (T : IntType) (n i : Nat) :
    (((CVal.mk T n).shr U (lit i)).band (lit 1)).ty = T.promote :=
  common_promote_int T

theorem bit_expr_val (U : Undef) {T : IntType} (hT : T.supported) (n i : Nat)
    (hn : n < 2 ^ T.width) (hi : i < T.width) :
    (((CVal.mk T n).shr U (lit i)).band (lit 1)).val = ((n.testBit i).toNat : Int) := by
  have hP32 := promote_width_ge T
  unfold CVal.val
  rw [bit_expr_bits U hT n i hn hi, bit_expr_ty]
  apply sval_of_lt
  have h1 : (n.testBit i).toNat ≤ 1 := Bool.toNat_le _
  have : 2 ^ 1 ≤ 2 ^ (T.promote.width - 1) := Nat.pow_le_pow_right (by decide) (by omega)
  omega

/-- The character `std::to_string` produces for `(n >> i) & 1`. -/
theorem to_string_bit_expr (U : Undef) {T : IntType} (hT : T.supported) (n i : Nat)
    (hn : n < 2 ^ T.width) (hi : i < T.width) :
    (to_string (((CVal.mk T n).shr U (lit i)).band (lit 1))).data
      = [if n.testBit i then '1' else '0'] := by
  unfold to_string
  rw [bit_expr_val U hT n i hn hi]
  cases n.testBit i <;> decide

/-- The element `as_vect` stores for `(n >> i) & 1`. -/
theorem bit_expr_conv_int (U : Undef) {T : IntType} (hT : T.supported) (n i : Nat)
    (hn : n < 2 ^ T.width) (hi : i < T.width) :
    ((((CVal.mk T n).shr U (lit i)).band (lit 1)).conv int_t).bits = (n.testBit i).toNat := by
  have hP32 := promote_width_ge T
  show cvt _ int_t _ = _
  rw [bit_expr_bits U hT n i hn hi, bit_expr_ty]
  have h1 : (n.testBit i).toNat ≤ 1 := Bool.toNat_le _
  apply cvt_of_lt
  · have : 2 ^ 1 ≤ 2 ^ (T.promote.width - 1) := Nat.pow_le_pow_right (by decide) (by omega)
    omega
  · simp only [int_t]
    omega

/-! ## The loops that build strings and vectors -/

theorem foldl_append_data (f : Nat → String) (c : Nat → Char) (l : List Nat) (s : String)
    (h : ∀ i, i ∈ l → (f i).data = [c i]) :
    (l.foldl (fun temp i => temp ++ f i) s).data = s.data ++ l.map c := by
  induction l generalizing s with
  | nil => simp
  | cons x xs ih =>
    rw [List.foldl_cons, ih _ (fun i hi => h i (List.mem_cons_of_mem _ hi)),
      String.data_append, h x (List.mem_cons_self _ _)]
    simp

theorem foldl_set_range (g : Nat → Nat) (k : Nat) (v : List Nat) (hk : k ≤ v.length) :
    ((List.range k).foldl (fun w i => w.set i (g i)) v).length = v.length
      ∧ ∀ j, ((List.range k).foldl (fun w i => w.set i (g i)) v)[j]?
          = if j < k then some (g j) else v[j]? := by
  induction k with
  | zero => simp
  | succ k ih =>
    obtain ⟨hl, hg⟩ := ih (by omega)
    rw [List.range_succ, List.foldl_append, List.foldl_cons, List.foldl_nil]
    refine ⟨by rw [List.length_set, hl], ?_⟩
    intro j
    rw [List.getElem?_set, hl, hg]
    by_cases hjk : k = j
    · subst hjk
      have : k < v.length := by omega
      simp [this]
    · by_cases hj : j < k
      · have : j < k + 1 := by omega
        simp [hjk, hj, this]
      · have : ¬ j < k + 1 := by omega
        simp [hjk, hj, this]

theorem foldl_set_congr (g h : Nat → Nat) (l : List Nat) (v : List Nat)
    (hgh : ∀ i, i ∈ l → g i = h i) :
    l.foldl (fun w i => w.set i (g i)) v = l.foldl (fun w i => w.set i (h i)) v := by
  induction l generalizing v with
  | nil => rfl
  | cons x xs ih =>
    rw [List.foldl_cons, List.foldl_cons, hgh x (List.mem_cons_self _ _),
      ih _ (fun i hi => hgh i (List.mem_cons_of_mem _ hi))]

end bittle

namespace bitty

open bittle

theorem Bittle.size_ofValue {T : IntType} (hT : T.supported) (n : Nat) :
    (Bittle.ofValue T n).size = T.width := by
  have hw := supported_width_le hT
  show cvt size_t int_t (BIT_SIZE * T.sizeof) = T.width
  rw [Nat.mul_comm, sizeof_mul_BIT_SIZE hT]
  apply cvt_of_lt
  · simp only [size_t]
    omega
  · simp only [int_t]
    omega

/-- The characters of `toString()`: bit `W - 1` first. -/
theorem Bittle.toString_data (U : Undef) {T : IntType} (hT : T.supported) (n : Nat)
    (hn : n < 2 ^ T.width) :
    ((Bittle.ofValue T n).toString U).data
      = (List.range T.width).reverse.map (fun i => if n.testBit i then '1' else '0') := by
  unfold Bittle.toString
  rw [Bittle.size_ofValue hT]
  rw [foldl_append_data _ (fun i => if n.testBit i then '1' else '0')]
  · rfl
  · intro i hi
    rw [List.mem_reverse, List.mem_range] at hi
    exact to_string_bit_expr U hT n i hn hi

/-- The characters of `toStringReverse()`: bit 0 first. -/
theorem Bittle.toStringReverse_data (U : Undef) {T : IntType} (hT : T.supported) (n : Nat)
    (hn : n < 2 ^ T.width) :
    ((Bittle.ofValue T n).toStringReverse U).data
      = (List.range T.width).map (fun i => if n.testBit i then '1' else '0') := by
  unfold Bittle.toStringReverse
  rw [Bittle.size_ofValue hT]
  rw [foldl_append_data _ (fun i => if n.testBit i then '1' else '0')]
  · rfl
  · intro i hi
    rw [List.mem_range] at hi
    exact to_string_bit_expr U hT n i hn hi

/-- The elements of `as_vect`: bit `i` at index `i`. -/
theorem as_vect_getElem (U : Undef) {T : IntType} (hT : T.supported) (n : Nat)
    (hn : n < 2 ^ T.width) :
    (as_vect U T n).length = T.width
      ∧ ∀ i, i < T.width → (as_vect U T n)[i]? = some (n.testBit i).toNat := by
  unfold as_vect
  rw [loopIndices_eq hT, sizeof_mul_BIT_SIZE hT,
    foldl_set_congr _ (fun i => (n.testBit i).toNat) _ _
      (fun i hi => bit_expr_conv_int U hT n i hn (List.mem_range.mp hi))]
  obtain ⟨hl, hg⟩ := foldl_set_range (fun i => (n.testBit i).toNat) T.width
    (List.replicate T.width 0) (by simp)
  refine ⟨by rw [hl]; simp, ?_⟩
  intro i hi
  rw [hg i]
  simp [hi]

end bitty

namespace bittle


/-! ## The claims -/

/-- C1: for every word `n` of a supported type (8, 16, 32 or 64 bits),
`count_ones(n) + count_zeroes(n)` equals the width, whatever the undefined
shifts produce. -/
theorem count_ones_add_count_zeroes (U : Undef) (T : IntType) (hT : T.supported) (n : Nat) :
    count_ones U T n + count_zeroes U T n = T.width := by
  unfold count_ones count_zeroes
  rw [foldl_count_add_count_not
    (fun i => ((CVal.mk T n).band ((lit 1).shl U (lit i))).toBool), loopIndices_eq hT]
  simp

/-- Witness of C1 at the 64-bit word `2 ^ 40 + 5`. -/
theorem count_ones_add_count_zeroes_witness :
    uint64_t.supported
      ∧ count_ones Undef.masked uint64_t (2 ^ 40 + 5)
          + count_zeroes Undef.masked uint64_t (2 ^ 40 + 5) = uint64_t.width :=
  ⟨by decide, count_ones_add_count_zeroes Undef.masked uint64_t (by decide) (2 ^ 40 + 5)⟩

/-- C2 fails on the code for 64-bit words: whatever the undefined shifts
`1 << i` (`i ≥ 32`) produce, `count_ones` returns the same count for
`0x80000000` and `0x180000000`, whose population counts are 1 and 2, so it is
not the population count at one of them.  When the shifted-out bit is lost it
returns 1 for `0x180000000`; when the count is taken modulo 32 it returns 2 for
`0x80000000`. -/
theorem count_ones_uint64_t_not_popCount (U : Undef) :
    ¬ (count_ones U uint64_t (2 ^ 31) = popCount uint64_t.width (2 ^ 31)
        ∧ count_ones U uint64_t (2 ^ 31 + 2 ^ 32) = popCount uint64_t.width (2 ^ 31 + 2 ^ 32))
      ∧ count_ones Undef.wrap uint64_t (2 ^ 31 + 2 ^ 32) = 1
      ∧ count_ones Undef.masked uint64_t (2 ^ 31) = 2 := by
  have p1 : popCount uint64_t.width (2 ^ 31) = 1 := by decide
  have p2 : popCount uint64_t.width (2 ^ 31 + 2 ^ 32) = 2 := by decide
  refine ⟨?_, by decide, by decide⟩
  rw [p1, p2, ← count_ones_uint64_t_bit32 U]
  omega

set_option maxRecDepth 100000 in
/-- C3: for every word `n` of a supported type of width `W` and every `i < W`,
bit `i` of `reverse_bits(n)` is bit `W - 1 - i` of `n`; and `reverseBits()` on
the 8-bit word `0b10000000` leaves the value `0b00000001`. -/
theorem reverse_bits_testBit (U : Undef) (T : IntType) (hT : T.supported) (n : Nat)
    (hn : n < 2 ^ T.width) (i : Nat) (hi : i < T.width) :
    (reverse_bits U T n).testBit i = n.testBit (T.width - 1 - i)
      ∧ ((Bits.ofValue uint8_t 0b10000000).reverseBits U).value = 0b00000001 := by
  constructor
  · rw [testBit_reverse_bits U T hT n hn]
    simp [hi]
  · show reverse_bits U uint8_t 0b10000000 = 0b00000001
    rw [reverse_bits_oracle U Undef.wrap uint8_t (by decide) _ (by decide)]
    decide

/-- Witness of C3 at the signed 16-bit word `0x8001`, bit 3. -/
theorem reverse_bits_testBit_witness :
    int16_t.supported ∧ 0x8001 < 2 ^ int16_t.width ∧ 3 < int16_t.width
      ∧ ((reverse_bits Undef.wrap int16_t 0x8001).testBit 3
            = Nat.testBit 0x8001 (int16_t.width - 1 - 3)
          ∧ ((Bits.ofValue uint8_t 0b10000000).reverseBits Undef.wrap).value = 0b00000001) :=
  ⟨by decide, by decide, by decide,
    reverse_bits_testBit Undef.wrap int16_t (by decide) 0x8001 (by decide) 3 (by decide)⟩

/-- C4: for every word `n` of a supported type,
`reverse_bits(reverse_bits(n)) == n`. -/
theorem reverse_bits_involutive (U : Undef) (T : IntType) (hT : T.supported) (n : Nat)
    (hn : n < 2 ^ T.width) :
    reverse_bits U T (reverse_bits U T n) = n := by
  apply Nat.eq_of_testBit_eq
  intro j
  rw [testBit_reverse_bits U T hT _ (reverse_bits_lt U T hT n hn),
    testBit_reverse_bits U T hT n hn]
  by_cases hj : j < T.width
  · have h1 : T.width - 1 - j < T.width := by omega
    have h2 : T.width - 1 - (T.width - 1 - j) = j := by omega
    simp [hj, h1, h2]
  · simp [hj, testBit_eq_false_of_lt hn (Nat.le_of_not_lt hj)]

/-- Witness of C4 at the 32-bit word `0x12345678`. -/
theorem reverse_bits_involutive_witness :
    uint32_t.supported ∧ 0x12345678 < 2 ^ uint32_t.width
      ∧ reverse_bits Undef.wrap uint32_t (reverse_bits Undef.wrap uint32_t 0x12345678)
          = 0x12345678 :=
  ⟨by decide, by decide,
    reverse_bits_involutive Undef.wrap uint32_t (by decide) 0x12345678 (by decide)⟩


/-- C5 fails on the code for 64-bit words: `reverse_bytes` copies the word into
an `int` and swaps bytes 0 to 7 at its address, so the result is a
sign-extended `int` whose top byte is `0x00` or `0xFF`; on the word `1` that
byte is not byte 0 of the input, whatever lies after the `int` in memory. -/
theorem reverse_bytes_uint64_t_top_byte (adj : Nat → Nat) :
    byteAt (reverse_bytes adj uint64_t 1) 7 ≠ byteAt 1 (uint64_t.sizeof - 1 - 7) := by
  intro h
  have hb : byteAt 1 (uint64_t.sizeof - 1 - 7) = 1 := by decide
  rw [hb] at h
  have b0 := testBit_byteAt (reverse_bytes adj uint64_t 1) 7 0
  have b1 := testBit_byteAt (reverse_bytes adj uint64_t 1) 7 1
  rw [h] at b0 b1
  rw [reverse_bytes_uint64_t_high adj 1 (8 * 7 + 0) (by decide) (by decide)] at b0
  rw [reverse_bytes_uint64_t_high adj 1 (8 * 7 + 1) (by decide) (by decide)] at b1
  have t0 : Nat.testBit 1 0 = true := by decide
  have t1 : Nat.testBit 1 1 = false := by decide
  rw [t0] at b0
  rw [t1] at b1
  simp at b0 b1
  rw [b0] at b1
  exact Bool.noConfusion b1

/-- C6 fails on the code for 64-bit words: every result of `reverse_bytes` is a
sign-extended `int`, and `2 ^ 40` is not one, so reversing twice cannot return
it, whatever lies after the `int` in memory at either call. -/
theorem reverse_bytes_uint64_t_not_involutive (adj adj2 : Nat → Nat) :
    reverse_bytes adj2 uint64_t (reverse_bytes adj uint64_t (2 ^ 40)) ≠ 2 ^ 40 := by
  intro h
  have hh := reverse_bytes_uint64_t_high adj2 (reverse_bytes adj uint64_t (2 ^ 40)) 40
    (by decide) (by decide)
  rw [h] at hh
  have t0 : Nat.testBit (2 ^ 40) 40 = true := by decide
  have t1 : Nat.testBit (2 ^ 40) 31 = false := by decide
  rw [t0, t1] at hh
  exact Bool.noConfusion hh

/-- C7 fails on the code: `check_bit` returns `n >> ((targ - 1) & 1)`, not
`(n >> (targ - 1)) & 1`, so on the 8-bit word 2 `checkBit(1)` is true although
bit 1 (the least significant) is 0. -/
theorem checkBit_uint8_t_two (U : Undef) :
    (Bits.ofValue uint8_t 2).checkBit U 1 = true ∧ Nat.testBit 2 (1 - 1) = false := by
  constructor
  · have e : (Bits.ofValue uint8_t 2).checkBit U 1
        = (Bits.ofValue uint8_t 2).checkBit Undef.wrap 1 := by
      unfold Bits.checkBit check_bit
      rw [shr_oracle U Undef.wrap]
      decide
    rw [e]
    decide
  · decide

/-- C9 fails on the code: after `clearBit(1)` the 8-bit word `0xFF` is `0xFE`,
and `checkBit(1)` tests `0xFE >> 0` against 0, which is true. -/
theorem checkBit_clearBit_uint8_t (U : Undef) :
    ((Bits.ofValue uint8_t 0xFF).clearBit U 1).checkBit U 1 = true := by
  have e : ((Bits.ofValue uint8_t 0xFF).clearBit U 1).checkBit U 1
      = ((Bits.ofValue uint8_t 0xFF).clearBit Undef.wrap 1).checkBit Undef.wrap 1 := by
    unfold Bits.checkBit check_bit Bits.clearBit clear_bit
    rw [shl_oracle U Undef.wrap, shr_oracle U Undef.wrap]
    · decide
    · decide
  rw [e]
  decide

/-- C10: for every word `n` of a supported type of width `W` and every index
`i` with `1 ≤ i ≤ W`, toggling bit `i` twice returns `n`, both for the
primitive `toggle_bit` and for the method `toggleBit`, whatever the undefined
shifts produce. -/
theorem toggle_bit_involutive (U : Undef) (T : IntType) (hT : T.supported) (n : Nat)
    (hn : n < 2 ^ T.width) (i : Nat) (h1 : 1 ≤ i) (h2 : i ≤ T.width) :
    toggle_bit U T (toggle_bit U T n i) i = n
      ∧ (((Bits.ofValue T n).toggleBit U i).toggleBit U i).value = n := by
  have e := toggle_bit_toggle_bit U hT n i hn h1 h2
  refine ⟨e, ?_⟩
  show toggle_bit U T (toggle_bit U T n ((CVal.mk T i).conv int8_t).bits)
    ((CVal.mk T i).conv int8_t).bits = n
  rw [index_conv hT i h2]
  exact e

/-- Witness of C10 at the 64-bit word `0x123456789`, index 40. -/
theorem toggle_bit_involutive_witness :
    uint64_t.supported ∧ 0x123456789 < 2 ^ uint64_t.width ∧ 1 ≤ 40 ∧ 40 ≤ uint64_t.width
      ∧ (toggle_bit Undef.masked uint64_t (toggle_bit Undef.masked uint64_t 0x123456789 40) 40
            = 0x123456789
          ∧ (((Bits.ofValue uint64_t 0x123456789).toggleBit Undef.masked 40).toggleBit
              Undef.masked 40).value = 0x123456789) :=
  ⟨by decide, by decide, by decide, by decide,
    toggle_bit_involutive Undef.masked uint64_t (by decide) 0x123456789 (by decide) 40
      (by decide) (by decide)⟩


/-- C11 fails on the code for 64-bit words: `hamming_distance` uses the same
`int` mask `1 << i` as `count_ones`.  Whatever the undefined shifts produce, it
returns the same distance from 0 for `0x80000000` and `0x180000000`, which
differ from 0 in 1 and 2 positions.  When the shifted-out bit is lost it
returns 1 for `0x180000000`; when the count is taken modulo 32 it returns 2 for
`0x80000000`. -/
theorem hamming_distance_uint64_t_not_differing (U : Undef) :
    ¬ (hamming_distance U uint64_t (2 ^ 31) 0 = differing uint64_t.width (2 ^ 31) 0
        ∧ hamming_distance U uint64_t (2 ^ 31 + 2 ^ 32) 0
            = differing uint64_t.width (2 ^ 31 + 2 ^ 32) 0)
      ∧ hamming_distance Undef.wrap uint64_t (2 ^ 31 + 2 ^ 32) 0 = 1
      ∧ hamming_distance Undef.masked uint64_t (2 ^ 31) 0 = 2 := by
  have p1 : differing uint64_t.width (2 ^ 31) 0 = 1 := by decide
  have p2 : differing uint64_t.width (2 ^ 31 + 2 ^ 32) 0 = 2 := by decide
  have h1 := hamming_distance_eq_count_ones (T := uint64_t) U (2 ^ 31) 0 (by decide) (by decide)
  have h2 := hamming_distance_eq_count_ones (T := uint64_t) U (2 ^ 31 + 2 ^ 32) 0
    (by decide) (by decide)
  have e1 : (((CVal.mk uint64_t (2 ^ 31)).bxor (CVal.mk uint64_t 0)).conv uint64_t).bits
      = 2 ^ 31 := by decide
  have e2 : (((CVal.mk uint64_t (2 ^ 31 + 2 ^ 32)).bxor (CVal.mk uint64_t 0)).conv
      uint64_t).bits = 2 ^ 31 + 2 ^ 32 := by decide
  rw [e1] at h1
  rw [e2] at h2
  refine ⟨?_, by decide, by decide⟩
  rw [h1, h2, p1, p2, ← count_ones_uint64_t_bit32 U]
  omega

/-- C12 fails on the code: the index is narrowed to the `int8_t` parameter of
the primitives before the guard sees it, so on a 16-bit word the index 257,
outside `[1, 16]`, arrives as 1: `setBit(257)` sets bit 1, `clearBit(257)`
clears it and `toggleBit(257)` toggles it. -/
theorem setBit_uint16_t_257 (U : Undef) :
    ((Bits.ofValue uint16_t 0).setBit U 257).value = 1
      ∧ ((Bits.ofValue uint16_t 1).clearBit U 257).value = 0
      ∧ ((Bits.ofValue uint16_t 0).toggleBit U 257).value = 1 := by
  refine ⟨?_, ?_, ?_⟩
  · have e : ((Bits.ofValue uint16_t 0).setBit U 257).value
        = ((Bits.ofValue uint16_t 0).setBit Undef.wrap 257).value := by
      unfold Bits.setBit set_bit
      rw [shl_oracle U Undef.wrap]
      decide
    rw [e]
    decide
  · have e : ((Bits.ofValue uint16_t 1).clearBit U 257).value
        = ((Bits.ofValue uint16_t 1).clearBit Undef.wrap 257).value := by
      unfold Bits.clearBit clear_bit
      rw [shl_oracle U Undef.wrap]
      decide
    rw [e]
    decide
  · have e : ((Bits.ofValue uint16_t 0).toggleBit U 257).value
        = ((Bits.ofValue uint16_t 0).toggleBit Undef.wrap 257).value := by
      unfold Bits.toggleBit toggle_bit
      rw [shl_oracle U Undef.wrap]
      decide
    rw [e]
    decide

/-- Behind the guard: for an index `i = 0` or `W < i ≤ 127`, `check_bit` returns
the word unchanged, so `checkBit(i)` is true exactly when `n` is non-zero. -/
theorem checkBit_outside (U : Undef) (T : IntType) (hT : T.supported) (n i : Nat)
    (hi : i = 0 ∨ (T.width < i ∧ i ≤ 127)) :
    check_bit U T n i = n ∧ (Bits.ofValue T n).checkBit U i = (n != 0) := by
  have e := check_bit_outside U hT n i hi
  refine ⟨e, ?_⟩
  show (check_bit U T n ((CVal.mk T i).conv int8_t).bits != 0) = (n != 0)
  rw [index_conv_of_le_127 hT i (by omega), e]

/-- C13 fails on the code: behind its guard `check_bit` executes `return n;`,
although its docstring says `returns: 1 or 0`.  On the 8-bit word 5 with the
index 9, `check_bit` returns 5 and `checkBit(9)` is true; on the 8-bit word 1,
`checkBit(0)` is true.  No shift is evaluated, so this holds whatever the
undefined shifts produce. -/
theorem checkBit_uint8_t_outside (U : Undef) :
    check_bit U uint8_t 5 9 = 5
      ∧ (Bits.ofValue uint8_t 5).checkBit U 9 = true
      ∧ (Bits.ofValue uint8_t 1).checkBit U 0 = true := by
  have h9 := checkBit_outside U uint8_t (by decide) 5 9 (by decide)
  have h0 := checkBit_outside U uint8_t (by decide) 1 0 (by decide)
  exact ⟨h9.1, h9.2.trans (by decide), h0.2.trans (by decide)⟩


/-- C14: for every word `n` of a supported type of width `W` and every flag
sequence of length `k` with `1 ≤ k ≤ W`, `insertRight` compiles and leaves the
value `(n * 2 ^ k + sum of [b_j ≠ 0] * 2 ^ (k - j)) mod 2 ^ W`; on a cleared
8-bit word the flags `1,0,1,1,0,0,1,0` yield 178. -/
theorem insertRight_value (U : Undef) (T : IntType) (hT : T.supported) (n : Nat)
    (flags : List Nat) (h1 : 1 ≤ flags.length) (h2 : flags.length ≤ T.width) :
    ((Bits.ofValue T n).insertRight U flags).map Bits.value
        = some ((n * 2 ^ flags.length + flagSum flags) % 2 ^ T.width)
      ∧ ((Bits.ofValue uint8_t 0).insertRight U [1, 0, 1, 1, 0, 0, 1, 0]).map Bits.value
        = some 178 := by
  constructor
  · rw [insertRight_eq U hT flags _ (by intro h; rw [h] at h1; simp at h1) (by omega)]
    rfl
  · rw [insertRight_eq U (T := uint8_t) (by decide) _ _ (by simp) (by decide)]
    decide

/-- Witness of C14 at the signed 16-bit word `0x1234` with flags `1,0,7`. -/
theorem insertRight_value_witness :
    int16_t.supported ∧ 1 ≤ [1, 0, 7].length ∧ [1, 0, 7].length ≤ int16_t.width
      ∧ (((Bits.ofValue int16_t 0x1234).insertRight Undef.wrap [1, 0, 7]).map Bits.value
            = some ((0x1234 * 2 ^ [1, 0, 7].length + flagSum [1, 0, 7]) % 2 ^ int16_t.width)
          ∧ ((Bits.ofValue uint8_t 0).insertRight Undef.wrap [1, 0, 1, 1, 0, 0, 1, 0]).map
              Bits.value = some 178) :=
  ⟨by decide, by decide, by decide,
    insertRight_value Undef.wrap int16_t (by decide) 0x1234 [1, 0, 7] (by decide) (by decide)⟩

/-- C15 fails on the code: the `static_assert` of `insertRight` counts only the
arguments after the first, so nine flags on an 8-bit word compile and leave
the low 8 bits of the nine-flag word (here 101); the call is rejected from ten
flags on. -/
theorem insertRight_nine_flags (U : Undef) :
    ((Bits.ofValue uint8_t 0).insertRight U [1, 0, 1, 1, 0, 0, 1, 0, 1]).map Bits.value
        = some 101
      ∧ ((Bits.ofValue uint8_t 0).insertRight U [1, 0, 1, 1, 0, 0, 1, 0, 1, 1]).map Bits.value
        = none := by
  constructor
  · rw [insertRight_eq U (T := uint8_t) (by decide) _ _ (by simp) (by decide)]
    decide
  · rw [Bits.insertRight, if_neg (by decide)]
    rfl

/-- C16 fails on the code for 64-bit words: `insertLeft(1)` is `setBit(64)`,
whose mask `1 << 63` is an undefined shift of the `int` literal 1.  Whatever it
produces, the `int` mask is sign-extended, so bits 63 and 62 of the result are
equal: bit 64 (1-based) cannot be set while the low 63 bits stay those of the
word 0.  When the shifted-out bit is lost the word stays 0; when the count is
taken modulo 32 bits 32 to 64 are all set. -/
theorem insertLeft_uint64_t_top (U : Undef) :
    ((Bits.ofValue uint64_t 0).insertLeft U [1]).map Bits.value
        = some (set_bit U uint64_t 0 64)
      ∧ ¬ ((set_bit U uint64_t 0 64).testBit (64 - 1) = true
          ∧ set_bit U uint64_t 0 64 % 2 ^ (64 - 1) = 0 % 2 ^ (64 - 1))
      ∧ ((Bits.ofValue uint64_t 0).insertLeft Undef.wrap [1]).map Bits.value = some 0
      ∧ ((Bits.ofValue uint64_t 0).insertLeft Undef.masked [1]).map Bits.value
        = some 0xFFFFFFFF80000000 := by
  refine ⟨insertLeft_uint64_t_one U, ?_, by decide, by decide⟩
  rintro ⟨h63, hlow⟩
  have h62 : (set_bit U uint64_t 0 64 % 2 ^ (64 - 1)).testBit 62 = false := by
    rw [hlow]
    decide
  rw [Nat.testBit_mod_two_pow] at h62
  have e := set_bit_uint64_t_top U
  rw [h63] at e
  rw [← e] at h62
  simp at h62

/-- C17 fails on the code: the single-argument `assign` only sets or clears
bit 1 and keeps the rest of the word, so `assign(1)` on the 8-bit word `0xFF`
leaves `0xFF`, while `insertRight(1)` on the cleared word leaves 1. -/
theorem assign_uint8_t_keeps (U : Undef) :
    ((Bits.ofValue uint8_t 0xFF).assign U [1]).map Bits.value = some 0xFF
      ∧ ((Bits.ofValue uint8_t 0).insertRight U [1]).map Bits.value = some 1 := by
  constructor
  · have e : ((Bits.ofValue uint8_t 0xFF).assign U [1]).map Bits.value
        = ((Bits.ofValue uint8_t 0xFF).assign Undef.wrap [1]).map Bits.value := by
      have h1 : ((lit 1).conv uint8_t).bits = 1 := by decide
      have h2 : ((CVal.mk uint8_t 1).conv int8_t).bits = 1 := by decide
      simp only [Bits.assign, Bits.setBit, Bits.clearBit, h1, h2]
      rw [set_bit_oracle U Undef.wrap uint8_t _ 1 (by decide) (by decide),
        clear_bit_oracle U Undef.wrap uint8_t _ 1 (by decide) (by decide)]
    rw [e]
    decide
  · rw [insertRight_eq U (T := uint8_t) (by decide) _ _ (by simp) (by decide)]
    decide


end bittle

namespace bitty

open bittle

/-- C18: for every word `n` of a supported type of width `W`, `toString()`
returns `W` characters, the one at position `j` being `'1'` when bit
`W - 1 - j` of `n` is 1 and `'0'` otherwise; for the 8-bit word 5 it is
`"00000101"`.  The method is `Bittle<T>::toString` of `src/bitty/bitty.hpp`;
`Bits<T>::toString` of `bittle.hpp` names an undeclared `size` and is not
embedded. -/
theorem toString_msb_first (U : Undef) (T : IntType) (hT : T.supported) (n : Nat)
    (hn : n < 2 ^ T.width) :
    ((Bittle.ofValue T n).toString U).length = T.width
      ∧ (∀ j, j < T.width → ((Bittle.ofValue T n).toString U).data[j]?
            = some (if n.testBit (T.width - 1 - j) then '1' else '0'))
      ∧ (Bittle.ofValue uint8_t 5).toString U = "00000101" := by
  refine ⟨?_, ?_, ?_⟩
  · show ((Bittle.ofValue T n).toString U).data.length = T.width
    rw [Bittle.toString_data U hT n hn]
    simp
  · intro j hj
    rw [Bittle.toString_data U hT n hn, List.getElem?_map,
      List.getElem?_reverse (by simpa using hj), List.length_range,
      List.getElem?_range (by omega)]
    rfl
  · apply String.ext
    rw [Bittle.toString_data U (T := uint8_t) (by decide) 5 (by decide)]
    decide

/-- Witness of C18 at the signed 16-bit word `0x8001`. -/
theorem toString_msb_first_witness :
    int16_t.supported ∧ 0x8001 < 2 ^ int16_t.width
      ∧ (((Bittle.ofValue int16_t 0x8001).toString Undef.wrap).length = int16_t.width
        ∧ (∀ j, j < int16_t.width → ((Bittle.ofValue int16_t 0x8001).toString Undef.wrap).data[j]?
              = some (if Nat.testBit 0x8001 (int16_t.width - 1 - j) then '1' else '0'))
        ∧ (Bittle.ofValue uint8_t 5).toString Undef.wrap = "00000101") :=
  ⟨by decide, by decide, toString_msb_first Undef.wrap int16_t (by decide) 0x8001 (by decide)⟩

/-- C19: for every word `n` of a supported type of width `W`,
`toStringReverse()` is `toString()` with its characters in reverse order: `W`
characters, the one at position `j` being `'1'` when bit `j` of `n` is 1 and
`'0'` otherwise; for the 8-bit word 5 it is `"10100000"`.  The methods are
those of `Bittle<T>` of `src/bitty/bitty.hpp`; `Bits<T>::toStringReverse` of
`bittle.hpp` names an undeclared `size` and is not embedded. -/
theorem toStringReverse_lsb_first (U : Undef) (T : IntType) (hT : T.supported) (n : Nat)
    (hn : n < 2 ^ T.width) :
    ((Bittle.ofValue T n).toStringReverse U).data
        = ((Bittle.ofValue T n).toString U).data.reverse
      ∧ ((Bittle.ofValue T n).toStringReverse U).length = T.width
      ∧ (∀ j, j < T.width → ((Bittle.ofValue T n).toStringReverse U).data[j]?
            = some (if n.testBit j then '1' else '0'))
      ∧ (Bittle.ofValue uint8_t 5).toStringReverse U = "10100000" := by
  refine ⟨?_, ?_, ?_, ?_⟩
  · rw [Bittle.toStringReverse_data U hT n hn, Bittle.toString_data U hT n hn,
      ← List.map_reverse, List.reverse_reverse]
  · show ((Bittle.ofValue T n).toStringReverse U).data.length = T.width
    rw [Bittle.toStringReverse_data U hT n hn]
    simp
  · intro j hj
    rw [Bittle.toStringReverse_data U hT n hn, List.getElem?_map, List.getElem?_range hj]
    rfl
  · apply String.ext
    rw [Bittle.toStringReverse_data U (T := uint8_t) (by decide) 5 (by decide)]
    decide

/-- Witness of C19 at the 32-bit word `0x80000005`. -/
theorem toStringReverse_lsb_first_witness :
    uint32_t.supported ∧ 0x80000005 < 2 ^ uint32_t.width
      ∧ (((Bittle.ofValue uint32_t 0x80000005).toStringReverse Undef.wrap).data
            = ((Bittle.ofValue uint32_t 0x80000005).toString Undef.wrap).data.reverse
        ∧ ((Bittle.ofValue uint32_t 0x80000005).toStringReverse Undef.wrap).length
            = uint32_t.width
        ∧ (∀ j, j < uint32_t.width →
            ((Bittle.ofValue uint32_t 0x80000005).toStringReverse Undef.wrap).data[j]?
              = some (if Nat.testBit 0x80000005 j then '1' else '0'))
        ∧ (Bittle.ofValue uint8_t 5).toStringReverse Undef.wrap = "10100000") :=
  ⟨by decide, by decide,
    toStringReverse_lsb_first Undef.wrap uint32_t (by decide) 0x80000005 (by decide)⟩

/-- C20: for every word `n` of a supported type of width `W`, `as_vect(n)` (and
the method `asVector()`) returns a sequence of length `W` whose element at index
`i` is bit `i` of `n`, as 0 or 1, index 0 being the least significant bit. -/
theorem as_vect_bits (U : Undef) (T : IntType) (hT : T.supported) (n : Nat)
    (hn : n < 2 ^ T.width) :
    (as_vect U T n).length = T.width
      ∧ (∀ i, i < T.width → (as_vect U T n)[i]? = some (if n.testBit i then 1 else 0))
      ∧ (∀ x, x ∈ as_vect U T n → x = 0 ∨ x = 1)
      ∧ (Bittle.ofValue T n).asVector U = as_vect U T n := by
  obtain ⟨hl, hg⟩ := as_vect_getElem U hT n hn
  refine ⟨hl, ?_, ?_, rfl⟩
  · intro i hi
    rw [hg i hi]
    cases n.testBit i <;> rfl
  · intro x hx
    obtain ⟨i, hi⟩ := List.mem_iff_getElem?.mp hx
    have hlt : i < T.width := by
      by_contra hge
      rw [List.getElem?_eq_none (by omega)] at hi
      exact Option.noConfusion hi
    rw [hg i hlt] at hi
    have := Option.some.inj hi
    cases hb : n.testBit i <;> rw [hb] at this <;> simp at this <;> omega

/-- Witness of C20 at the signed 64-bit word `2 ^ 63 + 5`. -/
theorem as_vect_bits_witness :
    int64_t.supported ∧ 2 ^ 63 + 5 < 2 ^ int64_t.width
      ∧ ((as_vect Undef.wrap int64_t (2 ^ 63 + 5)).length = int64_t.width
        ∧ (∀ i, i < int64_t.width → (as_vect Undef.wrap int64_t (2 ^ 63 + 5))[i]?
              = some (if Nat.testBit (2 ^ 63 + 5) i then 1 else 0))
        ∧ (∀ x, x ∈ as_vect Undef.wrap int64_t (2 ^ 63 + 5) → x = 0 ∨ x = 1)
        ∧ (Bittle.ofValue int64_t (2 ^ 63 + 5)).asVector Undef.wrap
            = as_vect Undef.wrap int64_t (2 ^ 63 + 5)) :=
  ⟨by decide, by decide, as_vect_bits Undef.wrap int64_t (by decide) (2 ^ 63 + 5) (by decide)⟩

end bitty

namespace bittle

/-! ## `set_bit` and `flip_bit` where the shift is defined -/

theorem flip_bit_oracle (U V : Undef) (T : IntType) (n i : Nat) (h1 : 1 ≤ i) (h2 : i ≤ 32) :
    flip_bit U T n i = flip_bit V T n i := by
  unfold flip_bit
  rw [one_shl_oracle U V i h1 h2]

/-- Where the mask has one bit within the word (index at most 31, or a word of
at most 32 bits), `set_bit(n, i)` is `n OR 2 ^ (i - 1)`. -/
theorem set_bit_eq_or (U : Undef) {T : IntType} (hT : T.supported) (n i : Nat)
    (hn : n < 2 ^ T.width) (h1 : 1 ≤ i) (h2 : i ≤ T.width)
    (h3 : i ≤ 31 ∨ T.width ≤ 32) : set_bit U T n i = n ||| 2 ^ (i - 1) := by
  have hw := supported_width_le hT
  apply Nat.eq_of_testBit_eq
  intro j
  rw [testBit_set_bit U hT n i j h1 h2,
    ebit_one_shl U _ (i - 1) j (targ_sub_one_val i h1 (by omega)) (by omega),
    Nat.testBit_or, Nat.testBit_two_pow]
  by_cases hj : j < T.width
  · have hx : ¬ (i - 1 = 31 ∧ 32 ≤ j) := by omega
    by_cases hji : j = i - 1
    · subst hji
      simp [hj]
    · have hij : ¬ i - 1 = j := fun h => hji h.symm
      simp only [hj, decide_True, Bool.true_and, hji, decide_False, Bool.false_or, hij,
        Bool.or_false]
      by_cases h31 : i - 1 = 31
      · have : ¬ 32 ≤ j := by omega
        simp [this]
      · simp [h31]
  · have hf := testBit_eq_false_of_lt hn (Nat.le_of_not_lt hj)
    have hij : ¬ i - 1 = j := by omega
    simp [hj, hf, hij]

/-! ## `right_bits` -/

theorem common_promote_right (T : IntType) : T.common T.promote = T.promote := by
  rw [← common_promote_left, common_self_promote]

theorem testBit_rightStep (U : Undef) (T : IntType) (hT : T.supported) (n ret i j : Nat)
    (hn : n < 2 ^ T.width) (hi : i < T.width) :
    (rightStep U T n ret i).testBit j
      = (decide (j < T.width) && (ret.testBit j || (decide (j = i) && n.testBit i))) := by
  have hw := supported_width_pos hT
  have hw64 := supported_width_le hT
  have hP := width_le_promote T
  have hiv : (lit i).val = (i : Int) := lit_val i (by omega)
  have hiP : i < T.promote.width := by omega
  have h0P : 0 < T.promote.width := by omega
  have e2 : ((CVal.mk T n).shr U (lit i)).bits.testBit 0 = n.testBit i := by
    rw [testBit_shr U _ _ i 0 hiv hiP hn hw]
    simp [h0P, CVal.ebit, ebit_of_lt hi]
  have et : ∀ m, m < T.width →
      ((((CVal.mk T n).shr U (lit i)).band (lit 1)).conv T).bits.testBit m
        = (decide (m = 0) && n.testBit i) := by
    intro m hm
    have hmP : m < T.promote.width := by omega
    rw [testBit_conv]
    simp only [ebit_low, testBit_band, ebit_lit_one, ty_band, ty_shr, ty_lit, ty_mk,
      common_promote_int, hmP, hm, decide_True, Bool.true_and]
    by_cases hm0 : m = 0
    · subst hm0
      simp [ebit_low, ty_shr, h0P, e2]
    · simp [hm0]
  rw [rightStep, testBit_conv]
  by_cases hj : j < T.width
  · have hjP : j < T.promote.width := by omega
    have e1 : ((CVal.mk T ((((CVal.mk T n).shr U (lit i)).band (lit 1)).conv T).bits).shl U
        (lit i)).bits.testBit j = (decide (j = i) && n.testBit i) := by
      rw [testBit_shl U _ _ i j hiv hiP]
      have hji : j - i < T.width := by omega
      simp only [hjP, decide_True, Bool.true_and, CVal.ebit, ebit_of_lt hji, et _ hji]
      by_cases h : j = i
      · subst h
        simp
      · by_cases h2 : i ≤ j
        · have : ¬ j - i = 0 := by omega
          simp [h, this]
        · simp [h, h2]
    simp only [ebit_low, testBit_bor, ty_bor, ty_shl, ty_mk, common_promote_right, hjP, hj,
      decide_True, Bool.true_and, e1, bits_mk]
  · simp [hj]

/-- State of `right_bits` after the iterations `i = 0 .. k - 1`. -/
theorem testBit_right_loop (U : Undef) (T : IntType) (hT : T.supported) (n : Nat)
    (hn : n < 2 ^ T.width) (k : Nat) (hk : k ≤ T.width) (j : Nat) :
    ((List.range k).foldl (fun ret i => rightStep U T n ret i) 0).testBit j
      = (decide (j < k) && n.testBit j) := by
  induction k with
  | zero => simp
  | succ k ih =>
    rw [List.range_succ, List.foldl_append, List.foldl_cons, List.foldl_nil,
      testBit_rightStep U T hT n _ k j hn (by omega), ih (by omega)]
    by_cases hjk : j = k
    · subst hjk
      have : j < T.width := by omega
      simp [this]
    · by_cases h2 : j < k
      · have h3 : j < k + 1 := by omega
        have h4 : j < T.width := by omega
        simp [hjk, h2, h3, h4]
      · have h3 : ¬ j < k + 1 := by omega
        simp [hjk, h2, h3]

theorem right_bits_eq_mod (U : Undef) (T : IntType) (hT : T.supported) (n : Nat)
    (hn : n < 2 ^ T.width) (k : Nat) (hk : k ≤ T.width) :
    right_bits U T n k = n % 2 ^ k := by
  have hw64 := supported_width_le hT
  have hk31 : k < 2 ^ 31 := by omega
  have hs : (int_t.sval k).toNat = k := by
    have : k.testBit 31 = false := Nat.testBit_lt_two_pow hk31
    simp [IntType.sval, int_t, this]
  rw [right_bits, hs]
  apply Nat.eq_of_testBit_eq
  intro j
  rw [testBit_right_loop U T hT n hn k hk j, Nat.testBit_mod_two_pow]

/-! ## `insertRight` in several calls, and `assign` -/

theorem flagSum_append (a b : List Nat) :
    flagSum (a ++ b) = flagSum a * 2 ^ b.length + flagSum b := by
  induction a with
  | nil => simp [flagSum]
  | cons k rest ih =>
    show (if k != 0 then 1 else 0) * 2 ^ (rest ++ b).length + flagSum (rest ++ b)
      = ((if k != 0 then 1 else 0) * 2 ^ rest.length + flagSum rest) * 2 ^ b.length + flagSum b
    rw [ih, List.length_append, Nat.pow_add]
    ring

theorem testBit_two_mul (x j : Nat) :
    (2 * x).testBit j = (decide (1 ≤ j) && x.testBit (j - 1)) := by
  cases j with
  | zero => simp [Nat.testBit_zero]
  | succ m =>
    have : 2 * x / 2 = x := by omega
    simp [Nat.testBit_succ, this]

theorem testBit_even_add_one (n m : Nat) (h : n % 2 = 0) :
    (n + 1).testBit m = (n.testBit m || decide (m = 0)) := by
  cases m with
  | zero =>
    have : (n + 1) % 2 = 1 := by omega
    simp [Nat.testBit_zero, this]
  | succ k =>
    have : (n + 1) / 2 = n / 2 := by omega
    simp [Nat.testBit_succ, this]

/-- Bit `j` of the word after `setBit(1)`. -/
theorem testBit_setBit_one (U : Undef) {T : IntType} (hT : T.supported) (b : Bits T) (j : Nat) :
    (b.setBit U 1).number.testBit j
      = (decide (j < T.width) && (b.number.testBit j || decide (j = 0))) := by
  have hw := supported_width_pos hT
  show (set_bit U T b.number ((CVal.mk T 1).conv int8_t).bits).testBit j = _
  rw [index_conv hT 1 (by omega), testBit_set_bit U hT _ 1 j (by omega) (by omega),
    ebit_one_shl U _ 0 j (targ_sub_one_val 1 (by omega) (by omega)) (by omega)]
  simp

/-- Bit `j` of the word after `clearBit(1)`. -/
theorem testBit_clearBit_one (U : Undef) {T : IntType} (hT : T.supported) (b : Bits T)
    (j : Nat) :
    (b.clearBit U 1).number.testBit j
      = (decide (j < T.width) && (b.number.testBit j && !decide (j = 0))) := by
  have hw := supported_width_pos hT
  show (clear_bit U T b.number ((CVal.mk T 1).conv int8_t).bits).testBit j = _
  rw [index_conv hT 1 (by omega), testBit_clear_bit U hT _ 1 j (by omega) (by omega),
    ebit_one_shl U _ 0 j (targ_sub_one_val 1 (by omega) (by omega)) (by omega)]
  simp

theorem setBit_tsize (U : Undef) {T : IntType} (b : Bits T) (i : Nat) :
    (b.setBit U i).tsize = b.tsize := rfl

theorem clearBit_tsize (U : Undef) {T : IntType} (b : Bits T) (i : Nat) :
    (b.clearBit U i).tsize = b.tsize := rfl

theorem shlAssign_tsize (U : Undef) {T : IntType} (b : Bits T) (i : Nat) :
    (b.shlAssign U i).tsize = b.tsize := rfl

theorem bits_ext {T : IntType} (b : Bits T) (n t : Nat) (h1 : b.number = n) (h2 : b.tsize = t) :
    b = ⟨n, t⟩ := by
  cases b
  simp only at h1 h2
  rw [h1, h2]

/-- The statement of the variadic `assign` on a word whose bit 1 is clear: the
word is doubled and the flag lands at bit 2. -/
theorem assign_step_eq (U : Undef) {T : IntType} (hT : T.supported) (b : Bits T) (k : Nat)
    (he : b.number % 2 = 0) :
    (if k != 0 then (b.setBit U 1).shlAssign U 1 else (b.shlAssign U 1).clearBit U 1)
      = ⟨(2 * b.number + 2 * (if k != 0 then 1 else 0)) % 2 ^ T.width, b.tsize⟩ := by
  apply bits_ext
  · apply Nat.eq_of_testBit_eq
    intro j
    rw [Nat.testBit_mod_two_pow, ← Nat.mul_add, testBit_two_mul]
    by_cases hk : (k != 0) = true
    · simp only [hk, if_true]
      rw [testBit_shlAssign_one U hT, testBit_setBit_one U hT, testBit_even_add_one _ _ he]
      by_cases hj : j < T.width
      · have : j - 1 < T.width := by omega
        simp [hj, this]
      · simp [hj]
    · have hk2 : (k != 0) = false := by simpa using hk
      simp only [hk2, Bool.false_eq_true, if_false]
      rw [testBit_clearBit_one U hT, testBit_shlAssign_one U hT]
      by_cases hj : j < T.width
      · cases j with
        | zero => simp
        | succ m => simp [hj]
      · simp [hj]
  · split <;> rfl

/-- The statement of the single-argument `assign` on a word whose bit 1 is
clear. -/
theorem assign_last_eq (U : Undef) {T : IntType} (hT : T.supported) (b : Bits T) (k : Nat)
    (he : b.number % 2 = 0) :
    (if k != 0 then b.setBit U 1 else b.clearBit U 1)
      = ⟨(b.number + (if k != 0 then 1 else 0)) % 2 ^ T.width, b.tsize⟩ := by
  apply bits_ext
  · apply Nat.eq_of_testBit_eq
    intro j
    rw [Nat.testBit_mod_two_pow]
    by_cases hk : (k != 0) = true
    · simp only [hk, if_true]
      rw [testBit_setBit_one U hT, testBit_even_add_one _ _ he]
    · have hk2 : (k != 0) = false := by simpa using hk
      simp only [hk2, Bool.false_eq_true, if_false, Nat.add_zero]
      rw [testBit_clearBit_one U hT]
      have h0 : b.number.testBit 0 = false := by simp [Nat.testBit_zero, he]
      by_cases hj : j = 0
      · subst hj
        simp [h0]
      · simp [hj]
  · split <;> rfl

/-- What `assign` leaves on a word whose bit 1 is clear, for every call that
compiles. -/
theorem assign_eq (U : Undef) {T : IntType} (hT : T.supported) (flags : List Nat)
    (b : Bits T) (he : b.number % 2 = 0) (h1 : flags ≠ [])
    (h2 : flags.length ≤ T.width + 1) :
    b.assign U flags
      = some ⟨(b.number * 2 ^ (flags.length - 1) + flagSum flags) % 2 ^ T.width, b.tsize⟩ := by
  have hw := supported_width_pos hT
  induction flags generalizing b with
  | nil => exact absurd rfl h1
  | cons k rest ih =>
    cases rest with
    | nil =>
      simp only [Bits.assign, lit_one_conv hT, assign_last_eq U hT b k he, List.length_cons,
        List.length_nil, flagSum]
      congr 3
      generalize (if k != 0 then 1 else 0) = f
      simp
    | cons k2 bits =>
      have hlen : (k2 :: bits).length ≤ T.sizeof * 8 := by
        rw [sizeof_mul_eight hT]
        simp only [List.length_cons] at h2 ⊢
        omega
      have hev : (2 * b.number + 2 * (if k != 0 then 1 else 0)) % 2 ^ T.width % 2 = 0 := by
        have hd : 2 ∣ 2 ^ T.width := dvd_pow_self 2 (by omega)
        rw [Nat.mod_mod_of_dvd _ hd]
        omega
      rw [Bits.assign, if_pos hlen, lit_one_conv hT, assign_step_eq U hT b k he,
        ih _ hev (by simp) (by simp only [List.length_cons] at h2 ⊢; omega)]
      simp only [flagSum, List.length_cons]
      congr 2
      generalize (if k != 0 then 1 else 0) = f
      generalize flagSum (k2 :: bits) = s
      generalize bits.length = r
      rw [Nat.add_mod, Nat.mul_mod, Nat.mod_mod, ← Nat.mul_mod, ← Nat.add_mod]
      congr 1
      rw [show r + 1 + 1 - 1 = r + 1 from rfl, show r + 1 - 1 = r from rfl, Nat.pow_succ 2 r]
      ring

/-! ## The member `tsize` -/

theorem tsize_reset {T : IntType} (hT : T.supported) :
    ((CVal.mk size_t (T.sizeof * 8)).conv int8_t).bits = T.width := by
  have hw := supported_width_le hT
  show cvt size_t int8_t (T.sizeof * 8) = T.width
  rw [sizeof_mul_eight hT]
  apply cvt_of_lt
  · simp only [size_t]
    omega
  · simp only [int8_t]
    omega

theorem tsize_ofValue {T : IntType} (hT : T.supported) (n : Nat) :
    (Bits.ofValue T n).tsize = T.width := by
  show ((CVal.mk size_t (BIT_SIZE * T.sizeof)).conv int8_t).bits = T.width
  rw [Nat.mul_comm]
  exact tsize_reset hT

theorem bits_of_tsize {T : IntType} (hT : T.supported) (b : Bits T) (h : b.tsize = T.width) :
    b.bits = T.width := by
  have hw := supported_width_le hT
  have h8 : 8 ≤ T.width := by
    rcases hT with h | h | h | h <;> omega
  show cvt int8_t T b.tsize = T.width
  rw [h]
  apply cvt_of_lt
  · simp only [int8_t]
    omega
  · have : T.width < 2 ^ T.width := Nat.lt_two_pow T.width
    exact this

theorem insertRight_tsize (U : Undef) {T : IntType} (flags : List Nat) (b c : Bits T)
    (h : b.insertRight U flags = some c) : c.tsize = b.tsize := by
  induction flags generalizing b with
  | nil => simp [Bits.insertRight] at h
  | cons k rest ih =>
    cases rest with
    | nil =>
      simp only [Bits.insertRight, Option.some.injEq] at h
      rw [← h, insertRightStep_tsize]
    | cons k2 bits =>
      rw [Bits.insertRight] at h
      split at h
      · rw [ih _ h, insertRightStep_tsize]
      · simp at h

theorem assign_tsize (U : Undef) {T : IntType} (flags : List Nat) (b c : Bits T)
    (h : b.assign U flags = some c) : c.tsize = b.tsize := by
  induction flags generalizing b with
  | nil => simp [Bits.assign] at h
  | cons k rest ih =>
    cases rest with
    | nil =>
      simp only [Bits.assign, Option.some.injEq] at h
      rw [← h]
      split <;> rfl
    | cons k2 bits =>
      rw [Bits.assign] at h
      split at h
      · rw [ih _ h]
        split <;> rfl
      · simp at h

/-- Every call of `insertLeft` that compiles ends in the single-argument
overload, which stores `sizeof(T) * 8` in `tsize`. -/
theorem insertLeft_tsize (U : Undef) {T : IntType} (hT : T.supported) (flags : List Nat)
    (b c : Bits T) (h : b.insertLeft U flags = some c) : c.tsize = T.width := by
  induction flags generalizing b with
  | nil => simp [Bits.insertLeft] at h
  | cons k rest ih =>
    cases rest with
    | nil =>
      simp only [Bits.insertLeft, Option.some.injEq] at h
      rw [← h]
      exact tsize_reset hT
    | cons k2 bits =>
      rw [Bits.insertLeft] at h
      split at h
      · exact ih _ h
      · simp at h

theorem toggleBit_tsize (U : Undef) {T : IntType} (b : Bits T) (i : Nat) :
    (b.toggleBit U i).tsize = b.tsize := by
  unfold Bits.toggleBit
  rfl

theorem flipBit_tsize (U : Undef) {T : IntType} (b : Bits T) (i : Nat) :
    (b.flipBit U i).tsize = b.tsize := by
  unfold Bits.flipBit
  rfl

theorem reverseBits_tsize (U : Undef) {T : IntType} (b : Bits T) :
    (b.reverseBits U).tsize = b.tsize := by
  unfold Bits.reverseBits
  rfl

theorem reverseBytes_tsize (adj : Nat → Nat) {T : IntType} (b : Bits T) :
    (b.reverseBytes adj).tsize = b.tsize := by
  unfold Bits.reverseBytes
  rfl

theorem orAssign_tsize {T : IntType} (b : Bits T) (n : Nat) :
    (b.orAssign n).tsize = b.tsize := by
  unfold Bits.orAssign
  rfl

theorem run_tsize (U : Undef) {T : IntType} (hT : T.supported) (b : Bits T) (op : Op)
    (h : b.tsize = T.width) : (Op.run U b op).tsize = T.width := by
  cases op with
  | write v =>
    simp only [Op.run]
    exact h
  | setBit i => simp only [Op.run, setBit_tsize, h]
  | clearBit i => simp only [Op.run, clearBit_tsize, h]
  | toggleBit i => simp only [Op.run, toggleBit_tsize, h]
  | flipBit i => simp only [Op.run, flipBit_tsize, h]
  | reverseBits => simp only [Op.run, reverseBits_tsize, h]
  | reverseBytes adj => simp only [Op.run, reverseBytes_tsize, h]
  | shlAssign n => simp only [Op.run, shlAssign_tsize, h]
  | orAssign n => simp only [Op.run, orAssign_tsize, h]
  | insertRight flags =>
    simp only [Op.run]
    cases hc : b.insertRight U flags with
    | none => exact h
    | some c => exact (insertRight_tsize U flags b c hc).trans h
  | insertLeft flags =>
    simp only [Op.run]
    cases hc : b.insertLeft U flags with
    | none => exact h
    | some c => exact insertLeft_tsize U hT flags b c hc
  | assign flags =>
    simp only [Op.run]
    cases hc : b.assign U flags with
    | none => exact h
    | some c => exact (assign_tsize U flags b c hc).trans h

theorem foldl_run_tsize (U : Undef) {T : IntType} (hT : T.supported) (ops : List Op)
    (b : Bits T) (h : b.tsize = T.width) :
    (ops.foldl (fun c op => Op.run U c op) b).tsize = T.width := by
  induction ops generalizing b with
  | nil => exact h
  | cons op rest ih => exact ih _ (run_tsize U hT b op h)

/-! ## Division -/

theorem testBit_top_iff (W n : Nat) (hn : n < 2 ^ W) (hw : 0 < W) :
    n.testBit (W - 1) = true ↔ 2 ^ (W - 1) ≤ n := by
  constructor
  · intro h
    exact Nat.testBit_implies_ge h
  · intro h
    by_contra hc
    have hf : n.testBit (W - 1) = false := by simpa using hc
    have : n < 2 ^ (W - 1) := by
      apply Nat.lt_pow_two_of_testBit
      intro i hi
      by_cases h1 : i = W - 1
      · rw [h1]
        exact hf
      · exact testBit_eq_false_of_lt hn (by omega)
    omega

theorem sval_eq (T : IntType) (n : Nat) (hn : n < 2 ^ T.width) (hw : 0 < T.width) :
    T.sval n
      = if T.signed = true ∧ 2 ^ (T.width - 1) ≤ n then (n : Int) - 2 ^ T.width else (n : Int) := by
  unfold IntType.sval
  by_cases hs : T.signed = true
  · by_cases hb : 2 ^ (T.width - 1) ≤ n
    · have := (testBit_top_iff T.width n hn hw).mpr hb
      simp [hs, hb, this]
    · have : n.testBit (T.width - 1) = false := by
        have h := (testBit_top_iff T.width n hn hw).not.mpr hb
        simpa using h
      simp [hs, hb, this]
  · simp [hs]

theorem promote_of_lt (T : IntType) (h : T.width < 32) : T.promote = int_t := by
  unfold IntType.promote
  rw [if_pos h]

theorem promote_of_ge (T : IntType) (h : 32 ≤ T.width) : T.promote = T := by
  unfold IntType.promote
  rw [if_neg (by omega)]

theorem two_pow_pred_double (W : Nat) (hw : 0 < W) : 2 ^ W = 2 * 2 ^ (W - 1) := by
  obtain ⟨k, hk⟩ : ∃ k, W = k + 1 := ⟨W - 1, by omega⟩
  rw [hk, Nat.add_sub_cancel, Nat.pow_succ, Nat.mul_comm]

/-- The value of a pattern, with the powers of two named: `M = 2 ^ W` and
`H = 2 ^ (W - 1)`. -/
theorem sval_cases (T : IntType) (n : Nat) (hn : n < 2 ^ T.width) (hw : 0 < T.width) :
    ∃ M H : Nat, M = 2 ^ T.width ∧ H = 2 ^ (T.width - 1) ∧ M = 2 * H ∧ 0 < H ∧ n < M
      ∧ ((T.signed = true ∧ H ≤ n ∧ T.sval n = (n : Int) - (M : Int))
        ∨ (¬ (T.signed = true ∧ H ≤ n) ∧ T.sval n = (n : Int))) := by
  refine ⟨2 ^ T.width, 2 ^ (T.width - 1), rfl, rfl, two_pow_pred_double T.width hw,
    by positivity, hn, ?_⟩
  rw [sval_eq T n hn hw]
  by_cases hc : T.signed = true ∧ 2 ^ (T.width - 1) ≤ n
  · left
    rw [if_pos hc]
    refine ⟨hc.1, hc.2, ?_⟩
    push_cast
    rfl
  · right
    rw [if_neg hc]
    exact ⟨hc, rfl⟩

/-- Integral promotion keeps the value. -/
theorem sval_promote (T : IntType) (hw : 0 < T.width) (n : Nat) (hn : n < 2 ^ T.width) :
    T.promote.sval (cvt T T.promote n) = T.sval n := by
  by_cases h : T.width < 32
  · rw [promote_of_lt T h]
    have hx := cvt_eq_sval_emod T int_t n hn
    have hxl := cvt_lt T int_t n
    have hM : 2 ^ T.width ≤ 2 ^ 31 := Nat.pow_le_pow_right (by decide) (by omega)
    obtain ⟨M, H, hMe, -, hMH, hH, hnM, hc⟩ := sval_cases T n hn hw
    obtain ⟨M2, H2, hM2, hH2, -, -, hxM, hc2⟩ := sval_cases int_t _ hxl (by decide)
    have e1 : M2 = 4294967296 := by rw [hM2]; decide
    have e2 : H2 = 2147483648 := by rw [hH2]; decide
    have e3 : ((2 : Int) ^ int_t.width) = 4294967296 := by decide
    rw [← hMe, show (2 : Nat) ^ 31 = 2147483648 from by decide] at hM
    rw [e3] at hx
    subst e1 e2
    generalize cvt T int_t n = x at hx hxM hc2 ⊢
    generalize T.sval n = v at hx hc ⊢
    generalize int_t.sval x = u at hc2 ⊢
    rcases hc with ⟨-, h1, h2⟩ | ⟨-, h2⟩ <;> rcases hc2 with ⟨-, h3, h4⟩ | ⟨h3, h4⟩
    · omega
    · have hsg : int_t.signed = true := rfl
      have : ¬ 2147483648 ≤ x := fun hh => h3 ⟨hsg, hh⟩
      omega
    · omega
    · omega
  · rw [promote_of_ge T (by omega), cvt_self T n hn]

theorem sval_eq_zero_iff (T : IntType) (hw : 0 < T.width) (d : Nat) (hd : d < 2 ^ T.width) :
    T.sval d = 0 ↔ d = 0 := by
  obtain ⟨M, H, -, -, hMH, hH, hnM, hc⟩ := sval_cases T d hd hw
  rcases hc with ⟨-, h1, h2⟩ | ⟨-, h2⟩ <;> rw [h2] <;> omega

theorem sval_eq_neg_one_iff (T : IntType) (hw : 0 < T.width) (hs : T.signed = true) (d : Nat)
    (hd : d < 2 ^ T.width) : T.sval d = -1 ↔ d = 2 ^ T.width - 1 := by
  obtain ⟨M, H, hMe, -, hMH, hH, hnM, hc⟩ := sval_cases T d hd hw
  rw [← hMe]
  rcases hc with ⟨-, h1, h2⟩ | ⟨h1, h2⟩
  · rw [h2]
    omega
  · have : ¬ H ≤ d := fun hh => h1 ⟨hs, hh⟩
    rw [h2]
    omega

theorem sval_eq_min_iff (T : IntType) (hw : 0 < T.width) (hs : T.signed = true) (n : Nat)
    (hn : n < 2 ^ T.width) : T.sval n = -(2 ^ (T.width - 1)) ↔ n = 2 ^ (T.width - 1) := by
  obtain ⟨M, H, -, hHe, hMH, hH, hnM, hc⟩ := sval_cases T n hn hw
  have hHi : ((H : Nat) : Int) = 2 ^ (T.width - 1) := by
    rw [hHe]
    push_cast
    rfl
  rw [← hHi, ← hHe]
  rcases hc with ⟨-, h1, h2⟩ | ⟨h1, h2⟩
  · rw [h2]
    omega
  · have : ¬ H ≤ n := fun hh => h1 ⟨hs, hh⟩
    rw [h2]
    omega

theorem sval_gt_of_lt_32 (T : IntType) (hw : 0 < T.width) (h : T.width < 32) (n : Nat)
    (hn : n < 2 ^ T.width) : -(2 ^ 31 : Int) < T.sval n := by
  obtain ⟨M, H, hMe, -, hMH, hH, hnM, hc⟩ := sval_cases T n hn hw
  have hM : 2 ^ T.width ≤ 2 ^ 31 := Nat.pow_le_pow_right (by decide) (by omega)
  rw [← hMe, show (2 : Nat) ^ 31 = 2147483648 from by decide] at hM
  rw [show (2 : Int) ^ 31 = 2147483648 from by decide]
  rcases hc with ⟨-, h1, h2⟩ | ⟨-, h2⟩ <;> rw [h2] <;> omega

/-- The operands of `a / b` and `a % b` for which the language defines no
result, for two words of type `T`: the divisor 0, and on a signed word of 32
or 64 bits the least value divided by -1. -/
theorem div_cond_iff (T : IntType) (hT : T.supported) (n d : Nat) (hn : n < 2 ^ T.width)
    (hd : d < 2 ^ T.width) :
    (T.sval d = 0
        ∨ (T.promote.signed = true ∧ T.sval n = -(2 ^ (T.promote.width - 1)) ∧ T.sval d = -1))
      ↔ (d = 0
        ∨ (T.signed = true ∧ 32 ≤ T.width ∧ n = 2 ^ (T.width - 1) ∧ d = 2 ^ T.width - 1)) := by
  have hw := supported_width_pos hT
  rw [sval_eq_zero_iff T hw d hd]
  apply or_congr_right
  by_cases h : T.width < 32
  · rw [promote_of_lt T h]
    have hg := sval_gt_of_lt_32 T hw h n hn
    have hw32 : int_t.width - 1 = 31 := rfl
    rw [hw32]
    constructor
    · rintro ⟨-, h1, -⟩
      rw [h1] at hg
      exact absurd hg (lt_irrefl _)
    · rintro ⟨-, h1, -⟩
      omega
  · rw [promote_of_ge T (by omega)]
    by_cases hs : T.signed = true
    · rw [sval_eq_min_iff T hw hs n hn, sval_eq_neg_one_iff T hw hs d hd]
      constructor
      · rintro ⟨-, h1, h2⟩
        exact ⟨hs, by omega, h1, h2⟩
      · rintro ⟨-, -, h1, h2⟩
        exact ⟨hs, h1, h2⟩
    · constructor
      · rintro ⟨h1, -⟩
        exact absurd h1 hs
      · rintro ⟨h1, -⟩
        exact absurd h1 hs

theorem div_eq (T : IntType) (hT : T.supported) (n d : Nat) (hn : n < 2 ^ T.width)
    (hd : d < 2 ^ T.width) :
    (CVal.mk T n).div (CVal.mk T d)
      = if d = 0
          ∨ (T.signed = true ∧ 32 ≤ T.width ∧ n = 2 ^ (T.width - 1) ∧ d = 2 ^ T.width - 1) then
          none
        else some ⟨T.promote, T.promote.ofInt ((T.sval n).tdiv (T.sval d))⟩ := by
  have hw := supported_width_pos hT
  unfold CVal.div
  simp only [ty_mk, bits_mk, common_self_int, sval_promote T hw n hn, sval_promote T hw d hd,
    div_cond_iff T hT n d hn hd]

theorem mod_eq (T : IntType) (hT : T.supported) (n d : Nat) (hn : n < 2 ^ T.width)
    (hd : d < 2 ^ T.width) :
    (CVal.mk T n).mod (CVal.mk T d)
      = if d = 0
          ∨ (T.signed = true ∧ 32 ≤ T.width ∧ n = 2 ^ (T.width - 1) ∧ d = 2 ^ T.width - 1) then
          none
        else some ⟨T.promote, T.promote.ofInt ((T.sval n).tmod (T.sval d))⟩ := by
  have hw := supported_width_pos hT
  unfold CVal.mod
  simp only [ty_mk, bits_mk, common_self_int, sval_promote T hw n hn, sval_promote T hw d hd,
    div_cond_iff T hT n d hn hd]

theorem sval_unsigned (T : IntType) (hs : T.signed = false) (n : Nat) : T.sval n = (n : Int) := by
  simp [IntType.sval, hs]

theorem ofInt_natCast (T : IntType) (q : Nat) (h : q < 2 ^ T.width) : T.ofInt (q : Int) = q := by
  unfold IntType.ofInt
  have hMi : ((2 ^ T.width : Nat) : Int) = 2 ^ T.width := by push_cast; rfl
  rw [← hMi, ← Int.ofNat_emod, Nat.mod_eq_of_lt h, Int.toNat_ofNat]

/-- A value below `2 ^ W` computed in the promoted type and stored back. -/
theorem conv_ofInt_natCast (T : IntType) (q : Nat) (h : q < 2 ^ T.width) : cvt T.promote T (T.promote.ofInt (q : Int)) = q := by
  have hP := width_le_promote T
  have hq : q < 2 ^ T.promote.width :=
    Nat.lt_of_lt_of_le h (Nat.pow_le_pow_right (by decide) hP)
  rw [ofInt_natCast T.promote q hq]
  by_cases hw : T.width < 32
  · rw [promote_of_lt T hw]
    apply cvt_of_lt
    · have : 2 ^ T.width ≤ 2 ^ 31 := Nat.pow_le_pow_right (by decide) (by omega)
      exact Nat.lt_of_lt_of_le h this
    · exact h
  · rw [promote_of_ge T (by omega)]
    exact cvt_self T q h

theorem divide_unsigned (T : IntType) (hT : T.supported) (hs : T.signed = false) (n d : Nat)
    (hn : n < 2 ^ T.width) (hd : d < 2 ^ T.width) (h0 : d ≠ 0) :
    (Bits.ofValue T n).divide d = some ⟨n / d, (Bits.ofValue T n).tsize⟩
      ∧ (Bits.ofValue T n).mod d = some ⟨n % d, (Bits.ofValue T n).tsize⟩ := by
  have hc : ¬ (d = 0
      ∨ (T.signed = true ∧ 32 ≤ T.width ∧ n = 2 ^ (T.width - 1) ∧ d = 2 ^ T.width - 1)) := by
    rintro (h | ⟨h, -⟩)
    · exact h0 h
    · rw [hs] at h
      exact absurd h (by decide)
  have hq : n / d < 2 ^ T.width := Nat.lt_of_le_of_lt (Nat.div_le_self n d) hn
  have hr : n % d < 2 ^ T.width := Nat.lt_of_le_of_lt (Nat.mod_le n d) hn
  have hn0 : (Bits.ofValue T n).number = n := rfl
  constructor
  · unfold Bits.divide
    rw [hn0, div_eq T hT n d hn hd, if_neg hc, sval_unsigned T hs, sval_unsigned T hs,
      ← Int.ofNat_tdiv]
    simp only [Option.map_some', CVal.conv, conv_ofInt_natCast T _ hq]
  · unfold Bits.mod
    rw [hn0, mod_eq T hT n d hn hd, if_neg hc, sval_unsigned T hs, sval_unsigned T hs,
      ← Int.ofNat_tmod]
    simp only [Option.map_some', CVal.conv, conv_ofInt_natCast T _ hr]

theorem divide_none_iff (T : IntType) (hT : T.supported) (n d : Nat) (hn : n < 2 ^ T.width)
    (hd : d < 2 ^ T.width) :
    ((Bits.ofValue T n).divide d = none
        ↔ (d = 0
          ∨ (T.signed = true ∧ 32 ≤ T.width ∧ n = 2 ^ (T.width - 1) ∧ d = 2 ^ T.width - 1)))
      ∧ ((Bits.ofValue T n).mod d = none
        ↔ (d = 0
          ∨ (T.signed = true ∧ 32 ≤ T.width ∧ n = 2 ^ (T.width - 1)
            ∧ d = 2 ^ T.width - 1))) := by
  have hn0 : (Bits.ofValue T n).number = n := rfl
  constructor
  · unfold Bits.divide
    rw [hn0, div_eq T hT n d hn hd]
    split
    · next h => simp [h]
    · next h => simp [h]
  · unfold Bits.mod
    rw [hn0, mod_eq T hT n d hn hd]
    split
    · next h => simp [h]
    · next h => simp [h]

/-! ## `insertLeft`: every call starts at the most significant bit -/

theorem tsize_gt_zero : ∀ t, t < 65 → 1 ≤ t → (CVal.mk int8_t t).gt (lit 0) = true := by
  decide

theorem tsize_pred : ∀ t, t < 65 → 1 ≤ t →
    (((CVal.mk int8_t t).sub (lit 1)).conv int8_t).bits = t - 1 := by
  decide

theorem tsize_conv {T : IntType} (hT : T.supported) (t : Nat) (h : t ≤ T.width) :
    ((CVal.mk int8_t t).conv T).bits = t := by
  have hw := supported_width_le hT
  show cvt int8_t T t = t
  apply cvt_of_lt
  · simp only [int8_t]
    omega
  · exact Nat.lt_of_le_of_lt h (Nat.lt_two_pow T.width)

/-- The statement shared by the overloads of `insertLeft`, while `tsize` is an
index of the word: `tsize` is decremented, and the bits of the mask
`1 << (tsize - 1)` take the value of the flag. -/
theorem insertLeftStep_spec (U : Undef) {T : IntType} (hT : T.supported) (b : Bits T) (k : Nat)
    (h1 : 1 ≤ b.tsize) (h2 : b.tsize ≤ T.width) :
    (b.insertLeftStep U k).tsize = b.tsize - 1
      ∧ ∀ j, (b.insertLeftStep U k).number.testBit j
          = (decide (j < T.width)
              && (if k != 0 then
                    (b.number.testBit j
                      || ((lit 1).shl U ((CVal.mk int8_t b.tsize).sub (lit 1))).ebit j)
                  else
                    (b.number.testBit j
                      && !((lit 1).shl U ((CVal.mk int8_t b.tsize).sub (lit 1))).ebit j))) := by
  have hw := supported_width_le hT
  have hg := tsize_gt_zero b.tsize (by omega) h1
  have hp := tsize_pred b.tsize (by omega) h1
  have ha := tsize_conv hT b.tsize h2
  have hi := index_conv hT b.tsize h2
  unfold Bits.insertLeftStep
  simp only [hg, hp, ha, Bool.and_true]
  by_cases hk : (k != 0) = true
  · simp only [hk, if_true]
    refine ⟨rfl, ?_⟩
    intro j
    show (set_bit U T b.number ((CVal.mk T b.tsize).conv int8_t).bits).testBit j = _
    rw [hi, testBit_set_bit U hT _ _ j h1 h2]
  · have hk2 : (k != 0) = false := by simpa using hk
    simp only [hk2, Bool.false_eq_true, if_false]
    refine ⟨rfl, ?_⟩
    intro j
    show (clear_bit U T b.number ((CVal.mk T b.tsize).conv int8_t).bits).testBit j = _
    rw [hi, testBit_clear_bit U hT _ _ j h1 h2]

theorem insertLeft_eq_foldl (U : Undef) {T : IntType} (hT : T.supported) (flags : List Nat)
    (b : Bits T) (h1 : flags ≠ []) (h2 : flags.length ≤ T.width + 1) :
    b.insertLeft U flags
      = some { flags.foldl (fun c k => c.insertLeftStep U k) b with
          tsize := ((CVal.mk size_t (T.sizeof * 8)).conv int8_t).bits } := by
  induction flags generalizing b with
  | nil => exact absurd rfl h1
  | cons k rest ih =>
    cases rest with
    | nil => rfl
    | cons k2 bits =>
      have hlen : (k2 :: bits).length ≤ T.sizeof * 8 := by
        rw [sizeof_mul_eight hT]
        simp only [List.length_cons] at h2 ⊢
        omega
      rw [Bits.insertLeft, if_pos hlen, ih (b.insertLeftStep U k) (by simp)
        (by simp only [List.length_cons] at h2 ⊢; omega)]
      rfl

theorem foldl_insertLeftStep_tsize (U : Undef) {T : IntType} (hT : T.supported)
    (flags : List Nat) (b : Bits T) (h1 : flags.length ≤ b.tsize) (h2 : b.tsize ≤ T.width) :
    (flags.foldl (fun c k => c.insertLeftStep U k) b).tsize = b.tsize - flags.length := by
  induction flags generalizing b with
  | nil => rfl
  | cons k rest ih =>
    simp only [List.length_cons] at h1
    have hs := (insertLeftStep_spec U hT b k (by omega) h2).1
    rw [List.foldl_cons, ih _ (by rw [hs]; omega) (by rw [hs]; omega), hs, List.length_cons]
    omega

/-- Two words with the same `tsize` that agree at bit `j` still agree there
after the same flags. -/
theorem foldl_insertLeftStep_agree (U : Undef) {T : IntType} (hT : T.supported)
    (flags : List Nat) (b c : Bits T) (j : Nat) (ht : b.tsize = c.tsize)
    (h1 : flags.length ≤ b.tsize) (h2 : b.tsize ≤ T.width)
    (h : b.number.testBit j = c.number.testBit j) :
    (flags.foldl (fun c k => c.insertLeftStep U k) b).number.testBit j
      = (flags.foldl (fun c k => c.insertLeftStep U k) c).number.testBit j := by
  induction flags generalizing b c with
  | nil => exact h
  | cons k rest ih =>
    simp only [List.length_cons] at h1
    have hb := insertLeftStep_spec U hT b k (by omega) h2
    have hc := insertLeftStep_spec U hT c k (by omega) (by omega)
    rw [List.foldl_cons, List.foldl_cons]
    apply ih
    · rw [hb.1, hc.1, ht]
    · rw [hb.1]
      omega
    · rw [hb.1]
      omega
    · rw [hb.2, hc.2, h, ht]

/-- Two words with the same `tsize` agree, after the same flags, at every bit of
a mask that one of the flags has written. -/
theorem foldl_insertLeftStep_cover (U : Undef) {T : IntType} (hT : T.supported)
    (flags : List Nat) (b c : Bits T) (j s : Nat) (ht : b.tsize = c.tsize)
    (h1 : flags.length ≤ b.tsize) (h2 : b.tsize ≤ T.width)
    (hs1 : b.tsize - flags.length < s) (hs2 : s ≤ b.tsize)
    (hm : ((lit 1).shl U ((CVal.mk int8_t s).sub (lit 1))).ebit j = true) :
    (flags.foldl (fun c k => c.insertLeftStep U k) b).number.testBit j
      = (flags.foldl (fun c k => c.insertLeftStep U k) c).number.testBit j := by
  induction flags generalizing b c with
  | nil =>
    simp only [List.length_nil] at hs1
    omega
  | cons k rest ih =>
    simp only [List.length_cons] at h1 hs1
    have hb := insertLeftStep_spec U hT b k (by omega) h2
    have hc := insertLeftStep_spec U hT c k (by omega) (by omega)
    rw [List.foldl_cons, List.foldl_cons]
    by_cases hst : s = b.tsize
    · apply foldl_insertLeftStep_agree U hT
      · rw [hb.1, hc.1, ht]
      · rw [hb.1]
        omega
      · rw [hb.1]
        omega
      · rw [hb.2, hc.2, ← ht, ← hst, hm]
        simp
    · apply ih
      · rw [hb.1, hc.1, ht]
      · rw [hb.1]
        omega
      · rw [hb.1]
        omega
      · rw [hb.1]
        omega
      · rw [hb.1]
        omega

/-- A bit outside every mask that the flags have written is left as it was. -/
theorem foldl_insertLeftStep_frame (U : Undef) {T : IntType} (hT : T.supported)
    (flags : List Nat) (b : Bits T) (j : Nat) (h1 : flags.length ≤ b.tsize)
    (h2 : b.tsize ≤ T.width) (hn : b.number < 2 ^ T.width)
    (hm : ∀ s, b.tsize - flags.length < s → s ≤ b.tsize →
      ((lit 1).shl U ((CVal.mk int8_t s).sub (lit 1))).ebit j = false) :
    (flags.foldl (fun c k => c.insertLeftStep U k) b).number.testBit j
      = b.number.testBit j := by
  induction flags generalizing b with
  | nil => rfl
  | cons k rest ih =>
    simp only [List.length_cons] at h1 hm
    have hb := insertLeftStep_spec U hT b k (by omega) h2
    have hlt : (b.insertLeftStep U k).number < 2 ^ T.width := by
      apply Nat.lt_pow_two_of_testBit
      intro i hi
      have : ¬ i < T.width := by omega
      rw [hb.2]
      simp [this]
    have e : (b.insertLeftStep U k).number.testBit j = b.number.testBit j := by
      rw [hb.2, hm b.tsize (by omega) (Nat.le_refl _)]
      by_cases hj : j < T.width
      · by_cases hk : (k != 0) = true <;> simp [hj, hk]
      · have := testBit_eq_false_of_lt hn (Nat.le_of_not_lt hj)
        simp [hj, this]
    rw [List.foldl_cons, ih _ (by rw [hb.1]; omega) (by rw [hb.1]; omega) hlt, e]
    intro s hs1 hs2
    rw [hb.1] at hs1 hs2
    exact hm s (by omega) (by omega)

/-- A call of `insertLeft` overwrites what a call with at most as many flags
has written before it. -/
theorem insertLeft_overwrite (U : Undef) {T : IntType} (hT : T.supported) (b : Bits T)
    (a bs : List Nat) (ht : b.tsize = T.width) (hn : b.number < 2 ^ T.width) (ha : a ≠ [])
    (hb : bs ≠ []) (hab : a.length ≤ bs.length) (hl : bs.length ≤ T.width) :
    (b.insertLeft U a).bind (fun c => c.insertLeft U bs) = b.insertLeft U bs := by
  have hr := tsize_reset hT
  rw [insertLeft_eq_foldl U hT a b ha (by omega), Option.some_bind,
    insertLeft_eq_foldl U hT bs _ hb (by omega), insertLeft_eq_foldl U hT bs b hb (by omega)]
  have key : (bs.foldl (fun (c : Bits T) k => c.insertLeftStep U k)
        { a.foldl (fun (c : Bits T) k => c.insertLeftStep U k) b with
          tsize := ((CVal.mk size_t (T.sizeof * 8)).conv int8_t).bits }).number
      = (bs.foldl (fun (c : Bits T) k => c.insertLeftStep U k) b).number := by
    apply Nat.eq_of_testBit_eq
    intro j
    by_cases hcov : ∃ s, T.width - a.length < s ∧ s ≤ T.width
        ∧ ((lit 1).shl U ((CVal.mk int8_t s).sub (lit 1))).ebit j = true
    · obtain ⟨s, hs1, hs2, hm⟩ := hcov
      apply foldl_insertLeftStep_cover U hT bs _ b j s
      · simp only [hr, ht]
      · simp only [hr]
        exact hl
      · simp only [hr]
        exact Nat.le_refl _
      · simp only [hr]
        omega
      · simp only [hr]
        exact hs2
      · exact hm
    · apply foldl_insertLeftStep_agree U hT bs _ b j
      · simp only [hr, ht]
      · simp only [hr]
        exact hl
      · simp only [hr]
        exact Nat.le_refl _
      · show (a.foldl (fun (c : Bits T) k => c.insertLeftStep U k) b).number.testBit j
          = b.number.testBit j
        apply foldl_insertLeftStep_frame U hT a b j (by omega) (by omega) hn
        intro s hs1 hs2
        rw [ht] at hs1 hs2
        cases hm : ((lit 1).shl U ((CVal.mk int8_t s).sub (lit 1))).ebit j with
        | false => rfl
        | true => exact absurd ⟨s, hs1, hs2, hm⟩ hcov
  exact congrArg
    (fun m => some (Bits.mk m ((CVal.mk size_t (T.sizeof * 8)).conv int8_t).bits)) key


/-! ## The claims C21 to C30 -/

/-- C22 fails on the code: `left_bits` shifts by `W - k - 1`, one less than
`W - k`, so it returns the high `k + 1` bits: on the 8-bit word `0x80` with
`k = 1` it returns 2, while `floor(0x80 / 2 ^ 7)` is 1. -/
theorem left_bits_uint8_t_one (U : Undef) :
    left_bits U uint8_t 0x80 1 = 2 ∧ 0x80 / 2 ^ (uint8_t.width - 1) = 1 := by
  constructor
  · have e : left_bits U uint8_t 0x80 1 = left_bits Undef.wrap uint8_t 0x80 1 := by
      unfold left_bits
      rw [shr_oracle U Undef.wrap]
      decide
    rw [e]
    decide
  · decide

/-- C23 fails on the code for 64-bit words: at index 32 the `int` mask `1 << 31`
is sign-extended to bits 31 to 63.  On `0x100000000`, `flip_bit` finds one of
these bits set and clears them all (result 0), `toggle_bit` inverts them all,
and neither is `n XOR 2 ^ 31`. -/
theorem flip_bit_uint64_t_32 (U : Undef) :
    flip_bit U uint64_t (2 ^ 32) 32 = 0
      ∧ toggle_bit U uint64_t (2 ^ 32) 32 = 0xFFFFFFFE80000000
      ∧ 2 ^ 32 ^^^ 2 ^ (32 - 1) = 0x180000000 := by
  refine ⟨?_, ?_, by decide⟩
  · rw [flip_bit_oracle U Undef.wrap uint64_t _ 32 (by decide) (by decide)]
    decide
  · rw [toggle_bit_oracle U Undef.wrap uint64_t _ 32 (by decide) (by decide)]
    decide

/-- C26 fails on the code for 64-bit words: at index 32 the `int` mask `1 << 31`
is sign-extended, so `set_bit(0, 32)` sets bits 31 to 63 instead of bit 31
alone. -/
theorem set_bit_uint64_t_32 (U : Undef) :
    set_bit U uint64_t 0 32 = 0xFFFFFFFF80000000
      ∧ ((Bits.ofValue uint64_t 0).setBit U 32).value = 0xFFFFFFFF80000000
      ∧ 0 ||| 2 ^ (32 - 1) = 0x80000000 := by
  refine ⟨?_, ?_, by decide⟩
  · rw [set_bit_oracle U Undef.wrap uint64_t _ 32 (by decide) (by decide)]
    decide
  · have e : ((Bits.ofValue uint64_t 0).setBit U 32).value
        = ((Bits.ofValue uint64_t 0).setBit Undef.wrap 32).value := by
      unfold Bits.setBit set_bit
      rw [shl_oracle U Undef.wrap]
      decide
    rw [e]
    decide

/-- C27 fails on the code: `flip_bit` has no guard.  For index 0 it shifts by
-1, an undefined shift; with the count taken modulo 32 the mask is `1 << 31`
and `flipBit(0)` sets bit 32 of the 32-bit word 0, and `flipBit(33)` sets bit 1
of the 8-bit word 0.  The index of the method is also narrowed to `int8_t`:
for every outcome of the undefined shifts `flipBit(257)` flips bit 1 of a
16-bit word. -/
theorem flipBit_outside (U : Undef) :
    flip_bit Undef.masked uint32_t 0 0 = 0x80000000
      ∧ ((Bits.ofValue uint32_t 0).flipBit Undef.masked 0).value = 0x80000000
      ∧ ((Bits.ofValue uint8_t 0).flipBit Undef.masked 33).value = 1
      ∧ ((Bits.ofValue uint16_t 0).flipBit U 257).value = 1 := by
  refine ⟨by decide, by decide, by decide, ?_⟩
  have e : ((Bits.ofValue uint16_t 0).flipBit U 257).value
      = ((Bits.ofValue uint16_t 0).flipBit Undef.wrap 257).value := by
    unfold Bits.flipBit flip_bit
    rw [shl_oracle U Undef.wrap]
    decide
  rw [e]
  decide

/-- C21: for every word `n` of a supported type of width `W` and every `k` with
`0 ≤ k ≤ W`, `right_bits(n, k)` is `n mod 2 ^ k`: bit `j` of the result is bit
`j` of `n` for `j < k` and 0 elsewhere, whatever the undefined shifts
produce. -/
theorem right_bits_low (U : Undef) (T : IntType) (hT : T.supported) (n : Nat)
    (hn : n < 2 ^ T.width) (k : Nat) (hk : k ≤ T.width) :
    right_bits U T n k = n % 2 ^ k
      ∧ ∀ j, (right_bits U T n k).testBit j = (decide (j < k) && n.testBit j) := by
  have e := right_bits_eq_mod U T hT n hn k hk
  refine ⟨e, ?_⟩
  intro j
  rw [e, Nat.testBit_mod_two_pow]

/-- Witness of C21 at the signed 8-bit word `0xB5` with `k = 3`. -/
theorem right_bits_low_witness :
    int8_t.supported ∧ 0xB5 < 2 ^ int8_t.width ∧ 3 ≤ int8_t.width
      ∧ (right_bits Undef.wrap int8_t 0xB5 3 = 0xB5 % 2 ^ 3
          ∧ ∀ j, (right_bits Undef.wrap int8_t 0xB5 3).testBit j
              = (decide (j < 3) && Nat.testBit 0xB5 j)) :=
  ⟨by decide, by decide, by decide,
    right_bits_low Undef.wrap int8_t (by decide) 0xB5 (by decide) 3 (by decide)⟩

/-- C28: on a cleared word of a supported type of width `W`, for every flag
sequence of length `k` with `1 ≤ k ≤ W`, `assign` and `insertRight` both
compile and leave the same word, the one spelled by the flags read most
significant bit first, whatever the undefined shifts produce. -/
theorem assign_eq_insertRight (U : Undef) (T : IntType) (hT : T.supported)
    (flags : List Nat) (h1 : 1 ≤ flags.length) (h2 : flags.length ≤ T.width) :
    (Bits.ofValue T 0).assign U flags = (Bits.ofValue T 0).insertRight U flags
      ∧ ((Bits.ofValue T 0).assign U flags).map Bits.value
          = some (flagSum flags % 2 ^ T.width) := by
  have hne : flags ≠ [] := by
    intro h
    rw [h] at h1
    simp at h1
  have e1 := assign_eq U hT flags (Bits.ofValue T 0) rfl hne (by omega)
  have e2 := insertRight_eq U hT flags (Bits.ofValue T 0) hne (by omega)
  have h0 : (Bits.ofValue T 0).number = 0 := rfl
  rw [h0, Nat.zero_mul, Nat.zero_add] at e1 e2
  rw [e1, e2]
  exact ⟨rfl, rfl⟩

/-- Witness of C28 at a cleared 8-bit word with the flags `1,0,1,1,0,0,1,0`. -/
theorem assign_eq_insertRight_witness :
    uint8_t.supported ∧ 1 ≤ [1, 0, 1, 1, 0, 0, 1, 0].length
      ∧ [1, 0, 1, 1, 0, 0, 1, 0].length ≤ uint8_t.width
      ∧ ((Bits.ofValue uint8_t 0).assign Undef.wrap [1, 0, 1, 1, 0, 0, 1, 0]
            = (Bits.ofValue uint8_t 0).insertRight Undef.wrap [1, 0, 1, 1, 0, 0, 1, 0]
          ∧ ((Bits.ofValue uint8_t 0).assign Undef.wrap [1, 0, 1, 1, 0, 0, 1, 0]).map Bits.value
            = some (flagSum [1, 0, 1, 1, 0, 0, 1, 0] % 2 ^ uint8_t.width)) :=
  ⟨by decide, by decide, by decide,
    assign_eq_insertRight Undef.wrap uint8_t (by decide) [1, 0, 1, 1, 0, 0, 1, 0] (by decide)
      (by decide)⟩

/-- C29: for every word of a supported type of width `W` and all non-empty flag
sequences `a` and `b` with total length at most `W`, `insertRight(a)` followed
by `insertRight(b)` compiles and leaves the same object as the single call
`insertRight(a followed by b)`, whatever the undefined shifts produce. -/
theorem insertRight_grouping (U : Undef) (T : IntType) (hT : T.supported) (w : Bits T)
    (a b : List Nat) (ha : a ≠ []) (hb : b ≠ []) (hl : a.length + b.length ≤ T.width) :
    (w.insertRight U a).bind (fun c => c.insertRight U b) = w.insertRight U (a ++ b)
      ∧ (w.insertRight U (a ++ b)).isSome = true := by
  have hab : a ++ b ≠ [] := by simp [ha]
  have hlen : (a ++ b).length ≤ T.width + 1 := by
    rw [List.length_append]
    omega
  rw [insertRight_eq U hT a w ha (by omega), Option.some_bind,
    insertRight_eq U hT b _ hb (by omega), insertRight_eq U hT (a ++ b) w hab hlen]
  refine ⟨?_, rfl⟩
  simp only [flagSum_append, List.length_append]
  congr 2
  generalize flagSum a = fa
  generalize flagSum b = fb
  generalize a.length = p
  generalize b.length = q
  rw [Nat.add_mod, Nat.mul_mod, Nat.mod_mod, ← Nat.mul_mod, ← Nat.add_mod]
  congr 1
  rw [Nat.pow_add]
  ring

/-- Witness of C29 at the 8-bit word 5 with the flags `1` and then `0,1`. -/
theorem insertRight_grouping_witness :
    uint8_t.supported ∧ [1] ≠ ([] : List Nat) ∧ [0, 1] ≠ ([] : List Nat)
      ∧ [1].length + [0, 1].length ≤ uint8_t.width
      ∧ (((Bits.ofValue uint8_t 5).insertRight Undef.wrap [1]).bind
            (fun c => c.insertRight Undef.wrap [0, 1])
          = (Bits.ofValue uint8_t 5).insertRight Undef.wrap ([1] ++ [0, 1])
        ∧ ((Bits.ofValue uint8_t 5).insertRight Undef.wrap ([1] ++ [0, 1])).isSome = true) :=
  ⟨by decide, by decide, by decide, by decide,
    insertRight_grouping Undef.wrap uint8_t (by decide) (Bits.ofValue uint8_t 5) [1] [0, 1]
      (by decide) (by decide) (by decide)⟩

/-- C24: for every supported type of width `W`, `bits()` returns `W` after
construction and after every sequence of public mutator calls, among them
`insertLeft` with any number of flags: `tsize` is written by `insertLeft` only,
and every call of `insertLeft` ends by storing `sizeof(T) * 8` in it. -/
theorem bits_constant (U : Undef) (T : IntType) (hT : T.supported) (n : Nat)
    (ops : List Op) :
    (Bits.ofValue T n).bits = T.width
      ∧ (ops.foldl (fun c op => Op.run U c op) (Bits.ofValue T n)).bits = T.width :=
  ⟨bits_of_tsize hT _ (tsize_ofValue hT n),
    bits_of_tsize hT _ (foldl_run_tsize U hT ops _ (tsize_ofValue hT n))⟩

/-- Witness of C24 at an 8-bit word that receives nine flags on the left, a
`setBit` and one more flag on the left. -/
theorem bits_constant_witness :
    uint8_t.supported
      ∧ ((Bits.ofValue uint8_t 0).bits = uint8_t.width
        ∧ ([Op.insertLeft [1, 0, 1, 1, 1, 1, 1, 1, 1], Op.setBit 3, Op.insertLeft [1]].foldl
            (fun c op => Op.run Undef.wrap c op) (Bits.ofValue uint8_t 0)).bits
          = uint8_t.width) :=
  ⟨by decide,
    bits_constant Undef.wrap uint8_t (by decide) 0
      [Op.insertLeft [1, 0, 1, 1, 1, 1, 1, 1, 1], Op.setBit 3, Op.insertLeft [1]]⟩

/-- C25 does not hold as stated: `divide` and `mod` contain no check, and the
division of the language has no result for a second pair of operands.  On a
signed 32-bit word holding the least value, `divide(-1)` and `mod(-1)` produce
no value although the divisor is not 0. -/
theorem divide_int32_t_min :
    ((Bits.ofValue int32_t (2 ^ 31)).divide (2 ^ 32 - 1)).isNone = true
      ∧ ((Bits.ofValue int32_t (2 ^ 31)).mod (2 ^ 32 - 1)).isNone = true
      ∧ 2 ^ 32 - 1 ≠ 0 := by
  have h := divide_none_iff int32_t (by decide) (2 ^ 31) (2 ^ 32 - 1) (by decide) (by decide)
  have hc : 2 ^ 32 - 1 = 0
      ∨ (int32_t.signed = true ∧ 32 ≤ int32_t.width ∧ 2 ^ 31 = 2 ^ (int32_t.width - 1)
        ∧ 2 ^ 32 - 1 = 2 ^ int32_t.width - 1) := by decide
  refine ⟨?_, ?_, by decide⟩
  · rw [h.1.mpr hc]
    rfl
  · rw [h.2.mpr hc]
    rfl

/-- C25 amended: for words `n` and `d` of a supported type of width `W`,
`divide(d)` and `mod(d)` produce no value exactly when `d == 0`, or when the
type is signed with 32 or 64 bits, `n` is the least value and `d` is -1; for
every non-zero `d` on an unsigned word they leave `floor(n / d)` and
`n mod d`. -/
theorem divide_mod_defined (T : IntType) (hT : T.supported) (n d : Nat)
    (hn : n < 2 ^ T.width) (hd : d < 2 ^ T.width) :
    ((Bits.ofValue T n).divide d = none
        ↔ (d = 0
          ∨ (T.signed = true ∧ 32 ≤ T.width ∧ n = 2 ^ (T.width - 1) ∧ d = 2 ^ T.width - 1)))
      ∧ ((Bits.ofValue T n).mod d = none
        ↔ (d = 0
          ∨ (T.signed = true ∧ 32 ≤ T.width ∧ n = 2 ^ (T.width - 1) ∧ d = 2 ^ T.width - 1)))
      ∧ (T.signed = false → d ≠ 0 →
          ((Bits.ofValue T n).divide d).map Bits.value = some (n / d)
            ∧ ((Bits.ofValue T n).mod d).map Bits.value = some (n % d)) := by
  have h := divide_none_iff T hT n d hn hd
  refine ⟨h.1, h.2, ?_⟩
  intro hs h0
  have e := divide_unsigned T hT hs n d hn hd h0
  rw [e.1, e.2]
  exact ⟨rfl, rfl⟩

/-- Witness of the amended C25 at the 8-bit words 17 and 5. -/
theorem divide_mod_defined_witness :
    uint8_t.supported ∧ 17 < 2 ^ uint8_t.width ∧ 5 < 2 ^ uint8_t.width
      ∧ (((Bits.ofValue uint8_t 17).divide 5 = none
          ↔ (5 = 0
            ∨ (uint8_t.signed = true ∧ 32 ≤ uint8_t.width ∧ 17 = 2 ^ (uint8_t.width - 1)
              ∧ 5 = 2 ^ uint8_t.width - 1)))
        ∧ ((Bits.ofValue uint8_t 17).mod 5 = none
          ↔ (5 = 0
            ∨ (uint8_t.signed = true ∧ 32 ≤ uint8_t.width ∧ 17 = 2 ^ (uint8_t.width - 1)
              ∧ 5 = 2 ^ uint8_t.width - 1)))
        ∧ (uint8_t.signed = false → 5 ≠ 0 →
            ((Bits.ofValue uint8_t 17).divide 5).map Bits.value = some (17 / 5)
              ∧ ((Bits.ofValue uint8_t 17).mod 5).map Bits.value = some (17 % 5))) :=
  ⟨by decide, by decide, by decide,
    divide_mod_defined uint8_t (by decide) 17 5 (by decide) (by decide)⟩

/-- C30 does not hold as stated: every call of `insertLeft` ends by storing
`sizeof(T) * 8` in `tsize`, so the next call starts again at the most
significant bit.  On the 8-bit word 0, `insertLeft(1)` followed by
`insertLeft(0)` writes bit 8 twice and leaves 0, while `insertLeft(1, 0)` leaves
128 (the shifts involved are defined, by 7 and by 6 places). -/
theorem insertLeft_uint8_t_grouped :
    (((Bits.ofValue uint8_t 0).insertLeft Undef.wrap [1]).bind
        (fun c => c.insertLeft Undef.wrap [0])).map Bits.value = some 0
      ∧ ((Bits.ofValue uint8_t 0).insertLeft Undef.wrap ([1] ++ [0])).map Bits.value
        = some 128 := by
  decide

/-- C30 amended: `insertLeft` depends on how the flags are grouped, because
every call starts at the most significant bit.  For every word `n` of a
supported type of width `W` and all non-empty flag sequences `a` and `b` with
`|a| ≤ |b| ≤ W`, `insertLeft(a)` followed by `insertLeft(b)` compiles and leaves
the same object as `insertLeft(b)` alone, whatever the undefined shifts
produce. -/
theorem insertLeft_restarts (U : Undef) (T : IntType) (hT : T.supported) (n : Nat)
    (hn : n < 2 ^ T.width) (a b : List Nat) (ha : a ≠ []) (hb : b ≠ [])
    (hab : a.length ≤ b.length) (hl : b.length ≤ T.width) :
    ((Bits.ofValue T n).insertLeft U a).bind (fun c => c.insertLeft U b)
        = (Bits.ofValue T n).insertLeft U b
      ∧ ((Bits.ofValue T n).insertLeft U b).isSome = true := by
  refine ⟨insertLeft_overwrite U hT _ a b (tsize_ofValue hT n) hn ha hb hab hl, ?_⟩
  rw [insertLeft_eq_foldl U hT b _ hb (by omega)]
  rfl

/-- Witness of the amended C30 at the 8-bit word 5 with the flags `1` and then
`0,1`. -/
theorem insertLeft_restarts_witness :
    uint8_t.supported ∧ 5 < 2 ^ uint8_t.width ∧ [1] ≠ ([] : List Nat)
      ∧ [0, 1] ≠ ([] : List Nat) ∧ [1].length ≤ [0, 1].length
      ∧ [0, 1].length ≤ uint8_t.width
      ∧ (((Bits.ofValue uint8_t 5).insertLeft Undef.wrap [1]).bind
            (fun c => c.insertLeft Undef.wrap [0, 1])
          = (Bits.ofValue uint8_t 5).insertLeft Undef.wrap [0, 1]
        ∧ ((Bits.ofValue uint8_t 5).insertLeft Undef.wrap [0, 1]).isSome = true) :=
  ⟨by decide, by decide, by decide, by decide, by decide, by decide,
    insertLeft_restarts Undef.wrap uint8_t (by decide) 5 (by decide) [1] [0, 1] (by decide)
      (by decide) (by decide) (by decide)⟩

end bittle

namespace bittle

/-! ## The loop of `reverse_bits`, and counting under two tests -/

theorem take_loopIndices {T : IntType} (hT : T.supported) (k : Nat) (hk : k ≤ T.width) :
    (loopIndices T).take k = List.range k := by
  rw [loopIndices_eq hT, List.take_range, Nat.min_eq_left hk]

theorem foldl_count_le_add (p q r : Nat → Bool) (l : List Nat)
    (h : ∀ i, i ∈ l → p i = true → q i = true ∨ r i = true) (a b c : Nat) (habc : a ≤ b + c) :
    l.foldl (fun cnt i => if p i then cnt + 1 else cnt) a
      ≤ l.foldl (fun cnt i => if q i then cnt + 1 else cnt) b
        + l.foldl (fun cnt i => if r i then cnt + 1 else cnt) c := by
  induction l generalizing a b c with
  | nil => exact habc
  | cons x xs ih =>
    simp only [List.foldl_cons]
    apply ih (fun i hi => h i (List.mem_cons_of_mem _ hi))
    have hx := h x (List.mem_cons_self _ _)
    cases hp : p x <;> cases hq : q x <;> cases hr : r x <;> simp_all <;> omega

theorem foldl_count_add_le (p q : Nat → Bool) (l : List Nat)
    (h : ∀ i, i ∈ l → p i = true → q i = true) (a b d : Nat) (hab : a + d ≤ b) :
    l.foldl (fun cnt i => if p i then cnt + 1 else cnt) a + d
      ≤ l.foldl (fun cnt i => if q i then cnt + 1 else cnt) b := by
  induction l generalizing a b with
  | nil => exact hab
  | cons x xs ih =>
    simp only [List.foldl_cons]
    apply ih (fun i hi => h i (List.mem_cons_of_mem _ hi))
    have hx := h x (List.mem_cons_self _ _)
    cases hp : p x <;> cases hq : q x <;> simp_all <;> omega

/-- A test that holds wherever another one does, and once more, counts more. -/
theorem foldl_count_lt (p q : Nat → Bool) (l : List Nat)
    (h : ∀ i, i ∈ l → p i = true → q i = true) (k : Nat) (hk : k ∈ l) (hpk : p k = false)
    (hqk : q k = true) (a b : Nat) (hab : a ≤ b) :
    l.foldl (fun cnt i => if p i then cnt + 1 else cnt) a
      < l.foldl (fun cnt i => if q i then cnt + 1 else cnt) b := by
  induction l generalizing a b with
  | nil => simp at hk
  | cons x xs ih =>
    simp only [List.foldl_cons]
    have hx := h x (List.mem_cons_self _ _)
    rcases List.mem_cons.mp hk with hkx | hkx
    · subst hkx
      have := foldl_count_add_le p q xs (fun i hi => h i (List.mem_cons_of_mem _ hi))
        a (b + 1) 1 (by omega)
      simp only [hpk, hqk, Bool.false_eq_true, if_false, if_true]
      omega
    · apply ih (fun i hi => h i (List.mem_cons_of_mem _ hi)) hkx
      cases hp : p x <;> cases hq : q x <;> simp_all
      omega

/-- The test of `hamming_distance` compares the same function of the two
words, so it holds for `x, z` only if it holds for `x, y` or for `y, z`. -/
theorem hamming_test_trans (T : IntType) (x y z : Nat) (m : CVal)
    (h : ((CVal.mk T x).band m).ne ((CVal.mk T z).band m) = true) :
    ((CVal.mk T x).band m).ne ((CVal.mk T y).band m) = true
      ∨ ((CVal.mk T y).band m).ne ((CVal.mk T z).band m) = true := by
  unfold CVal.ne at h ⊢
  simp only [ty_band, ty_mk] at h ⊢
  by_cases hxy : cvt (T.common m.ty) ((T.common m.ty).common (T.common m.ty))
      ((CVal.mk T x).band m).bits
      = cvt (T.common m.ty) ((T.common m.ty).common (T.common m.ty)) ((CVal.mk T y).band m).bits
  · right
    rw [← hxy]
    exact h
  · left
    exact bne_iff_ne.mpr hxy

theorem hamming_triangle (U : Undef) (T : IntType) (x y z : Nat) :
    hamming_distance U T x z ≤ hamming_distance U T x y + hamming_distance U T y z := by
  unfold hamming_distance
  apply foldl_count_le_add
  · intro i _ h
    exact hamming_test_trans T x y z _ h
  · omega

/-- The member `operator!` returns at no depth of calls. -/
theorem operatorNot_none {T : IntType} (b : Bits T) (fuel : Nat) :
    b.operatorNot fuel = none := by
  induction fuel with
  | zero => rfl
  | succ k ih =>
    rw [Bits.operatorNot]
    exact ih

/-! ## `count_ones` after `reverse_bits` on a 64-bit word -/

theorem toBool_band_uint64_t (x : Nat) (m : CVal) (hm : m.ty = int_t) :
    ((CVal.mk uint64_t x).band m).toBool
      = (cvt uint64_t uint64_t x &&& cvt int_t uint64_t m.bits != 0) := by
  have hc : uint64_t.common int_t = uint64_t := by decide
  unfold CVal.toBool CVal.band
  simp only [ty_mk, bits_mk, hm, hc]

/-- On a 64-bit word, a mask of type `int` that meets bit 31 or bit 63 meets
bit 32 as well: its conversion copies bit 31 into the bits above. -/
theorem count_test_reversed (U : Undef) (i : Nat)
    (h : ((CVal.mk uint64_t (2 ^ 31 + 2 ^ 63)).band ((lit 1).shl U (lit i))).toBool = true) :
    ((CVal.mk uint64_t (2 ^ 0 + 2 ^ 32)).band ((lit 1).shl U (lit i))).toBool = true := by
  have hX : ((lit 1).shl U (lit i)).bits < 2 ^ 32 := shl_bits_lt U (lit 1) (lit i)
  have e1 : cvt uint64_t uint64_t (2 ^ 31 + 2 ^ 63) = 2 ^ 31 ||| 2 ^ 63 := by decide
  have e2 : cvt uint64_t uint64_t (2 ^ 0 + 2 ^ 32) = 2 ^ 0 ||| 2 ^ 32 := by decide
  have hf := testBit_eq_false_of_lt hX (Nat.le_refl 32)
  have h32 : (cvt int_t uint64_t ((lit 1).shl U (lit i)).bits).testBit 32
      = (cvt int_t uint64_t ((lit 1).shl U (lit i)).bits).testBit 31 := by
    simp [testBit_cvt, ebit, int_t, uint64_t, hf]
  have h63 : (cvt int_t uint64_t ((lit 1).shl U (lit i)).bits).testBit 63
      = (cvt int_t uint64_t ((lit 1).shl U (lit i)).bits).testBit 31 := by
    have hf63 := testBit_eq_false_of_lt hX (show 32 ≤ 63 by decide)
    simp [testBit_cvt, ebit, int_t, uint64_t, hf63]
  rw [toBool_band_uint64_t _ _ rfl] at h ⊢
  rw [e1] at h
  rw [e2]
  by_contra hc
  have hz : (2 ^ 0 ||| 2 ^ 32) &&& cvt int_t uint64_t ((lit 1).shl U (lit i)).bits = 0 := by
    simpa using hc
  rw [or_and_eq_zero, two_pow_and_eq_zero, two_pow_and_eq_zero, h32] at hz
  have hn : (2 ^ 31 ||| 2 ^ 63) &&& cvt int_t uint64_t ((lit 1).shl U (lit i)).bits = 0 := by
    rw [or_and_eq_zero, two_pow_and_eq_zero, two_pow_and_eq_zero, h63]
    exact ⟨hz.2, hz.2⟩
  rw [hn] at h
  simp at h

theorem count_ones_reversed_lt (U : Undef) :
    count_ones U uint64_t (2 ^ 31 + 2 ^ 63) < count_ones U uint64_t (2 ^ 0 + 2 ^ 32) := by
  have h0 : (0 : Int) ≤ (lit 0).val ∧ (lit 0).val < ((lit 1).ty.promote.width : Int) := by
    decide
  have hp : ((CVal.mk uint64_t (2 ^ 31 + 2 ^ 63)).band ((lit 1).shl U (lit 0))).toBool
      = false := by
    rw [shl_oracle U Undef.wrap _ _ h0]
    decide
  have hq : ((CVal.mk uint64_t (2 ^ 0 + 2 ^ 32)).band ((lit 1).shl U (lit 0))).toBool
      = true := by
    rw [shl_oracle U Undef.wrap _ _ h0]
    decide
  unfold count_ones
  apply foldl_count_lt _ _ _ (fun i _ h => count_test_reversed U i h) 0 _ hp hq 0 0
    (Nat.le_refl 0)
  rw [loopIndices_eq (T := uint64_t) (by decide), List.mem_range]
  decide

set_option maxRecDepth 100000 in
theorem reverse_bits_uint64_t_pair (U : Undef) :
    reverse_bits U uint64_t (2 ^ 31 + 2 ^ 63) = 2 ^ 0 + 2 ^ 32 := by
  rw [reverse_bits_oracle U Undef.wrap uint64_t (by decide) _ (by decide)]
  decide

/-! ## The flags spelled by `toString` -/

theorem mod_two_pow_succ_testBit (n k : Nat) :
    n % 2 ^ (k + 1) = (if n.testBit k then 1 else 0) * 2 ^ k + n % 2 ^ k := by
  apply Nat.eq_of_testBit_eq
  intro j
  have hlt : n % 2 ^ k < 2 ^ k := Nat.mod_lt _ (by positivity)
  rw [Nat.mul_comm, Nat.testBit_mul_pow_two_add _ hlt, Nat.testBit_mod_two_pow,
    Nat.testBit_mod_two_pow]
  by_cases h1 : j < k
  · have h2 : j < k + 1 := by omega
    simp [h1, h2]
  · by_cases h2 : j = k
    · subst h2
      cases n.testBit j <;> simp
    · have h3 : ¬ j < k + 1 := by omega
      have h5 : Nat.testBit 1 (j - k) = false := by
        obtain ⟨m, hm⟩ : ∃ m, j - k = m + 1 := ⟨j - k - 1, by omega⟩
        rw [hm, Nat.testBit_succ]
        simp
      cases n.testBit k <;> simp [h1, h3, h5]

theorem flagSum_bits (n k : Nat) :
    flagSum ((List.range k).reverse.map (fun i => if n.testBit i then 1 else 0)) = n % 2 ^ k := by
  induction k with
  | zero => simp [flagSum, Nat.mod_one]
  | succ k ih =>
    rw [List.range_succ, List.reverse_append, List.reverse_singleton, List.singleton_append,
      List.map_cons, flagSum, ih, List.length_map, List.length_reverse, List.length_range,
      mod_two_pow_succ_testBit]
    cases n.testBit k <;> simp

theorem flagsOfString_toString (U : Undef) {T : IntType} (hT : T.supported) (n : Nat)
    (hn : n < 2 ^ T.width) :
    flagsOfString ((bitty.Bittle.ofValue T n).toString U)
      = (List.range T.width).reverse.map (fun i => if n.testBit i then 1 else 0) := by
  unfold flagsOfString
  rw [bitty.Bittle.toString_data U hT n hn, List.map_map]
  apply List.map_congr_left
  intro i _
  show (if (if n.testBit i then '1' else '0') = '1' then 1 else 0) = _
  cases n.testBit i <;> decide

/-! ## Arithmetic in the common type, stored back into a word -/

theorem cvt_unsigned (S D : IntType) (p : Nat) (hs : S.signed = false) :
    cvt S D p = p % 2 ^ D.width := by
  unfold cvt
  simp [hs]

theorem cvt_narrow (S D : IntType) (p : Nat) (h : D.width ≤ S.width) :
    cvt S D p = p % 2 ^ D.width := by
  apply Nat.eq_of_testBit_eq
  intro j
  rw [testBit_cvt, Nat.testBit_mod_two_pow]
  by_cases hj : j < D.width
  · rw [ebit_of_lt (by omega)]
  · simp [hj]

theorem two_pow_cast (w : Nat) : ((2 ^ w : Nat) : Int) = 2 ^ w := by
  push_cast
  rfl

theorem two_pow_dvd_cast {v w : Nat} (h : v ≤ w) : ((2 : Int) ^ v) ∣ 2 ^ w :=
  pow_dvd_pow 2 h

theorem ofInt_congr (T : IntType) (v w : Int) (h : v % 2 ^ T.width = w % 2 ^ T.width) :
    T.ofInt v = T.ofInt w := by
  unfold IntType.ofInt
  rw [h]

theorem ofInt_cast (T : IntType) (v : Int) : ((T.ofInt v : Nat) : Int) = v % 2 ^ T.width := by
  unfold IntType.ofInt
  exact Int.toNat_of_nonneg (Int.emod_nonneg _ (by positivity))

theorem ofInt_natCast_mod (T : IntType) (q : Nat) : T.ofInt (q : Int) = q % 2 ^ T.width := by
  unfold IntType.ofInt
  rw [← two_pow_cast, ← Int.ofNat_emod, Int.toNat_ofNat]

/-- A value computed in a type `C` and stored into a type `D` that is not wider
is the value reduced modulo `2 ^ D.width`. -/
theorem cvt_ofInt (C D : IntType) (v : Int) (h : D.width ≤ C.width) :
    cvt C D (C.ofInt v) = D.ofInt v := by
  rw [cvt_narrow C D _ h]
  apply Int.ofNat.inj
  show (((C.ofInt v % 2 ^ D.width : Nat)) : Int) = ((D.ofInt v : Nat) : Int)
  rw [Int.ofNat_emod, ofInt_cast, ofInt_cast, two_pow_cast,
    Int.emod_emod_of_dvd _ (two_pow_dvd_cast h)]

/-- A conversion keeps the value modulo `2 ^ width` of the target type. -/
theorem sval_cvt_emod (A C : IntType) (a : Nat) (ha : a < 2 ^ A.width) (hC : 0 < C.width) :
    C.sval (cvt A C a) % 2 ^ C.width = A.sval a % 2 ^ C.width := by
  have hx := cvt_eq_sval_emod A C a ha
  obtain ⟨M, H, hMe, -, -, -, -, hc⟩ := sval_cases C (cvt A C a) (cvt_lt A C a) hC
  have hMi : (M : Int) = 2 ^ C.width := by rw [hMe, two_pow_cast]
  rw [← hMi] at hx ⊢
  rcases hc with ⟨-, -, h2⟩ | ⟨-, h2⟩
  · rw [h2, Int.sub_emod, Int.emod_self, Int.sub_zero, Int.emod_emod, hx, Int.emod_emod]
  · rw [h2, hx, Int.emod_emod]

theorem emod_narrow {v w : Int} {c d : Nat} (h : v % 2 ^ c = w % 2 ^ c) (hd : d ≤ c) :
    v % 2 ^ d = w % 2 ^ d := by
  rw [← Int.emod_emod_of_dvd v (two_pow_dvd_cast hd), h,
    Int.emod_emod_of_dvd w (two_pow_dvd_cast hd)]

/-- The sum of two operands, computed in the common type `C` and stored into a
type `D` that is not wider, is the sum of their values modulo
`2 ^ D.width`. -/
theorem cvt_ofInt_add (A B C D : IntType) (a b : Nat) (ha : a < 2 ^ A.width)
    (hb : b < 2 ^ B.width) (hC : 0 < C.width) (h : D.width ≤ C.width) :
    cvt C D (C.ofInt (C.sval (cvt A C a) + C.sval (cvt B C b)))
      = D.ofInt (A.sval a + B.sval b) := by
  rw [cvt_ofInt C D _ h]
  apply ofInt_congr
  have h1 := emod_narrow (sval_cvt_emod A C a ha hC) h
  have h2 := emod_narrow (sval_cvt_emod B C b hb hC) h
  rw [Int.add_emod, h1, h2, ← Int.add_emod]

theorem cvt_ofInt_mul (A B C D : IntType) (a b : Nat) (ha : a < 2 ^ A.width)
    (hb : b < 2 ^ B.width) (hC : 0 < C.width) (h : D.width ≤ C.width) :
    cvt C D (C.ofInt (C.sval (cvt A C a) * C.sval (cvt B C b)))
      = D.ofInt (A.sval a * B.sval b) := by
  rw [cvt_ofInt C D _ h]
  apply ofInt_congr
  have h1 := emod_narrow (sval_cvt_emod A C a ha hC) h
  have h2 := emod_narrow (sval_cvt_emod B C b hb hC) h
  rw [Int.mul_emod, h1, h2, ← Int.mul_emod]

theorem width_le_common_left (A B : IntType) : A.width ≤ (A.common B).width := by
  have h1 := width_le_promote A
  unfold IntType.common
  split
  · exact h1
  · split
    · exact h1
    · omega

theorem width_le_common_right (A B : IntType) : B.width ≤ (A.common B).width := by
  have h1 := width_le_promote B
  unfold IntType.common
  split
  · next h =>
    show B.width ≤ A.promote.width
    omega
  · split
    · omega
    · exact h1

/-! ## `negate`, the friend operators and the conversions between words -/

theorem tsize_gt (s t : Nat) (hs : s ≤ 64) (ht : t ≤ 64) :
    (CVal.mk int8_t s).gt (CVal.mk int8_t t) = decide (t < s) := by
  have c1 : int8_t.common int8_t = int_t := by decide
  have e1 : ∀ u, u ≤ 64 → int_t.sval (cvt int8_t int_t u) = (u : Int) := by
    intro u hu
    rw [cvt_of_lt int8_t int_t u (by simp only [int8_t]; omega) (by simp only [int_t]; omega)]
    exact sval_of_lt int_t u (by simp only [int_t]; omega)
  unfold CVal.gt CVal.lt
  simp only [ty_mk, bits_mk, c1, e1 s hs, e1 t ht, Nat.cast_lt]

theorem unsigned_cases {T : IntType} (hT : T.supported) (hs : T.signed = false) :
    T = uint8_t ∨ T = uint16_t ∨ T = uint32_t ∨ T = uint64_t := by
  obtain ⟨w, s⟩ := T
  simp only at hs
  subst hs
  rcases hT with h | h | h | h <;> simp only at h <;> subst h <;> decide

/-- Two unsigned word types have a signed common type only when both are
narrower than `int`. -/
theorem common_signed_unsigned {G F : IntType} (hG : G.supported) (hF : F.supported)
    (hGs : G.signed = false) (hFs : F.signed = false)
    (h : (G.common F).signed = true) :
    G.common F = int_t ∧ G.promote = int_t ∧ F.promote = int_t ∧ G.width ≤ 16
      ∧ F.width ≤ 16 := by
  rcases unsigned_cases hG hGs with e | e | e | e <;>
    rcases unsigned_cases hF hFs with e2 | e2 | e2 | e2 <;> subst e e2 <;> revert h <;> decide

theorem sval_lt_of_unsigned (T : IntType) (hs : T.signed = false) (hw : T.width ≤ 16)
    (hpos : 0 < T.width) (h : T.promote = int_t) (n : Nat) (hn : n < 2 ^ T.width) :
    int_t.sval (cvt T int_t n) = (n : Int) ∧ n < 2 ^ 16 := by
  have h1 := sval_promote T hpos n hn
  rw [h, sval_unsigned T hs] at h1
  exact ⟨h1, Nat.lt_of_lt_of_le hn (Nat.pow_le_pow_right (by decide) hw)⟩

/-- The sum of two unsigned words is defined. -/
theorem add_unsigned {G F : IntType} (hG : G.supported) (hF : F.supported)
    (hGs : G.signed = false) (hFs : F.signed = false) (a b : Nat) (ha : a < 2 ^ G.width)
    (hb : b < 2 ^ F.width) :
    (CVal.mk G a).add (CVal.mk F b)
      = some ⟨G.common F, (G.common F).ofInt
          ((G.common F).sval (cvt G (G.common F) a)
            + (G.common F).sval (cvt F (G.common F) b))⟩ := by
  unfold CVal.add
  simp only [ty_mk, bits_mk]
  rw [if_neg]
  rintro ⟨hsig, hov⟩
  obtain ⟨hc, hGp, hFp, hGw, hFw⟩ := common_signed_unsigned hG hF hGs hFs hsig
  rw [hc] at hov
  obtain ⟨e1, l1⟩ := sval_lt_of_unsigned G hGs hGw (supported_width_pos hG) hGp a ha
  obtain ⟨e2, l2⟩ := sval_lt_of_unsigned F hFs hFw (supported_width_pos hF) hFp b hb
  rw [e1, e2] at hov
  have hw : int_t.width - 1 = 31 := rfl
  rw [hw, show (2 : Int) ^ 31 = 2147483648 from by decide] at hov
  rw [show (2 : Nat) ^ 16 = 65536 from by decide] at l1 l2
  omega

theorem ofValue_number (T : IntType) (n : Nat) : (Bits.ofValue T n).number = n := rfl

theorem ofValue_value (T : IntType) (n : Nat) : (Bits.ofValue T n).value = n := rfl

/-- The value that `a + b` holds for two unsigned words. -/
theorem operatorPlus_unsigned {G F : IntType} (hG : G.supported) (hF : F.supported)
    (hGs : G.signed = false) (hFs : F.signed = false) (a b : Nat) (ha : a < 2 ^ G.width)
    (hb : b < 2 ^ F.width) :
    (operatorPlus uint64_t (Bits.ofValue G a) (Bits.ofValue F b)).map Bits.value
      = some ((a + b) % 2 ^ (if F.width < G.width then G.width else F.width)) := by
  have hGw := supported_width_le hG
  have hFw := supported_width_le hF
  have hCpos : 0 < (G.common F).width :=
    Nat.lt_of_lt_of_le (supported_width_pos hG) (width_le_common_left G F)
  have key : ∀ D : IntType, D.signed = false → D.width ≤ 64 → D.width ≤ (G.common F).width →
      cvt D uint64_t (cvt (G.common F) D ((G.common F).ofInt
        ((G.common F).sval (cvt G (G.common F) a) + (G.common F).sval (cvt F (G.common F) b))))
        = (a + b) % 2 ^ D.width := by
    intro D hDs hD64 hDC
    rw [cvt_ofInt_add G F (G.common F) D a b ha hb hCpos hDC, sval_unsigned G hGs,
      sval_unsigned F hFs, ← Int.ofNat_add, ofInt_natCast_mod, cvt_unsigned D _ _ hDs]
    apply Nat.mod_eq_of_lt
    have h1 : (a + b) % 2 ^ D.width < 2 ^ D.width := Nat.mod_lt _ (by positivity)
    have h2 : 2 ^ D.width ≤ 2 ^ uint64_t.width := Nat.pow_le_pow_right (by decide) hD64
    omega
  unfold operatorPlus
  rw [tsize_ofValue hG, tsize_ofValue hF, tsize_gt _ _ hGw hFw, ofValue_number,
    ofValue_number, add_unsigned hG hF hGs hFs a b ha hb]
  by_cases hlt : F.width < G.width
  · simp only [hlt, decide_True, if_true, Option.map_some', ofValue_value, CVal.conv]
    rw [key G hGs hGw (width_le_common_left G F)]
  · simp only [hlt, decide_False, Bool.false_eq_true, if_false, Option.map_some',
      ofValue_value, CVal.conv]
    rw [key F hFs hFw (width_le_common_right G F)]

theorem ofInt_neg (T : IntType) (n : Nat) (hn : n ≤ 2 ^ T.width) :
    T.ofInt (-(n : Int)) = (2 ^ T.width - n) % 2 ^ T.width := by
  rw [← ofInt_natCast_mod]
  apply ofInt_congr
  rw [Int.ofNat_sub hn, two_pow_cast]
  have e : (2 : Int) ^ T.width - (n : Int) = -(n : Int) + 2 ^ T.width := by ring
  rw [e, Int.add_emod_self]

/-- What `negate()` leaves on an unsigned word. -/
theorem negate_unsigned {T : IntType} (hT : T.supported) (hs : T.signed = false) (n : Nat)
    (hn : n < 2 ^ T.width) :
    (Bits.ofValue T n).negate
      = some ⟨(2 ^ T.width - n) % 2 ^ T.width, (Bits.ofValue T n).tsize⟩ := by
  have hpos := supported_width_pos hT
  have hm1 : int_t.sval (int_t.ofInt (-1)) = -1 := by decide
  have hm1lt : int_t.ofInt (-1) < 2 ^ int_t.width := by decide
  have hdef : (CVal.mk T n).mul (CVal.mk int_t (int_t.ofInt (-1)))
      = some ⟨T.promote, T.promote.ofInt
          (T.promote.sval (cvt T T.promote n)
            * T.promote.sval (cvt int_t T.promote (int_t.ofInt (-1))))⟩ := by
    unfold CVal.mul
    simp only [ty_mk, bits_mk, common_int]
    rw [if_neg]
    rintro ⟨hsig, hov⟩
    have hw32 : T.width < 32 := by
      by_contra hc
      rw [promote_of_ge T (by omega), hs] at hsig
      exact absurd hsig (by decide)
    have hw16 : T.width ≤ 16 := by
      rcases hT with h | h | h | h <;> omega
    rw [promote_of_lt T hw32] at hov
    obtain ⟨e1, l1⟩ := sval_lt_of_unsigned T hs hw16 hpos (promote_of_lt T hw32) n hn
    have e2 : int_t.sval (cvt int_t int_t (int_t.ofInt (-1))) = -1 := by decide
    rw [e1, e2] at hov
    have hw : int_t.width - 1 = 31 := rfl
    rw [hw, show (2 : Int) ^ 31 = 2147483648 from by decide] at hov
    rw [show (2 : Nat) ^ 16 = 65536 from by decide] at l1
    omega
  unfold Bits.negate
  rw [ofValue_number, hdef]
  simp only [Option.map_some', CVal.conv]
  rw [cvt_ofInt_mul T int_t T.promote T n _ hn hm1lt
    (Nat.lt_of_lt_of_le hpos (width_le_promote T)) (width_le_promote T), sval_unsigned T hs,
    hm1, Int.mul_neg_one, ofInt_neg T n (Nat.le_of_lt hn)]

theorem negate_fixed_iff (W n : Nat) (hw : 0 < W) (hn : n < 2 ^ W) :
    (2 ^ W - n) % 2 ^ W = n ↔ (n = 0 ∨ n = 2 ^ (W - 1)) := by
  have h2 := two_pow_pred_double W hw
  have hH : 0 < 2 ^ (W - 1) := by positivity
  generalize 2 ^ (W - 1) = H at h2 hH
  by_cases h0 : n = 0
  · subst h0
    simp
  · rw [Nat.mod_eq_of_lt (by omega)]
    omega

/-! ## The claims C31 to C40 -/

/-- C31 does not hold as stated: the loop of `reverse_bits` consumes the input
from its low end.  On the 8-bit word 1, after the iteration with index 0 the
low bit of the result is 1, the low bit of the input, while the high bit of
the input is 0. -/
theorem reverse_bits_loop_uint8_t :
    (((loopIndices uint8_t).take (0 + 1)).foldl
        (fun ret k => reverseStep Undef.wrap uint8_t 1 ret k) 0).testBit 0 = true
      ∧ Nat.testBit 1 (uint8_t.width - 1 - 0) = false := by
  decide

/-- C31 amended: for every word `n` of a supported type of width `W` and every
`i < W`, after the iteration with loop index `i` the low `i + 1` bits of the
accumulated result hold the low `i + 1` bits of the input in reversed order
(bit `j` of the result is bit `i - j` of `n`) and every other bit is 0; after
the last iteration the accumulated result is the value `reverse_bits`
returns. -/
theorem reverse_bits_loop (U : Undef) (T : IntType) (hT : T.supported) (n : Nat)
    (hn : n < 2 ^ T.width) (i : Nat) (hi : i < T.width) :
    (∀ j, (((loopIndices T).take (i + 1)).foldl
          (fun ret k => reverseStep U T n ret k) 0).testBit j
        = (decide (j ≤ i) && n.testBit (i - j)))
      ∧ (i + 1 = T.width →
          ((loopIndices T).take (i + 1)).foldl (fun ret k => reverseStep U T n ret k) 0
            = reverse_bits U T n) := by
  constructor
  · intro j
    rw [take_loopIndices hT (i + 1) (by omega),
      testBit_reverse_prefix U T hT n hn (i + 1) (by omega) j]
    have e : i + 1 - 1 - j = i - j := by omega
    rw [e]
    by_cases h : j ≤ i
    · have h2 : j < i + 1 := by omega
      simp [h, h2]
    · have h2 : ¬ j < i + 1 := by omega
      simp [h, h2]
  · intro h
    rw [take_loopIndices hT (i + 1) (by omega), h, reverse_bits, loopIndices_eq hT]

/-- Witness of the amended C31 at the 8-bit word `0xB5` after the iteration with
index 2. -/
theorem reverse_bits_loop_witness :
    uint8_t.supported ∧ 0xB5 < 2 ^ uint8_t.width ∧ 2 < uint8_t.width
      ∧ ((∀ j, (((loopIndices uint8_t).take (2 + 1)).foldl
            (fun ret k => reverseStep Undef.wrap uint8_t 0xB5 ret k) 0).testBit j
          = (decide (j ≤ 2) && Nat.testBit 0xB5 (2 - j)))
        ∧ (2 + 1 = uint8_t.width →
            ((loopIndices uint8_t).take (2 + 1)).foldl
                (fun ret k => reverseStep Undef.wrap uint8_t 0xB5 ret k) 0
              = reverse_bits Undef.wrap uint8_t 0xB5)) :=
  ⟨by decide, by decide, by decide,
    reverse_bits_loop Undef.wrap uint8_t (by decide) 0xB5 (by decide) 2 (by decide)⟩

/-- C32 does not hold as stated: `negate()` is `this->number *= -1` for every
type, with no test of the signedness.  On the unsigned 8-bit word 5 it
succeeds and leaves 251. -/
theorem negate_uint8_t_five :
    ((Bits.ofValue uint8_t 5).negate).map Bits.value = some 251 := by
  rw [negate_unsigned (T := uint8_t) (by decide) rfl 5 (by decide)]
  decide

/-- C32 amended: for every word `n` of an unsigned supported type of width `W`,
`negate()` succeeds and leaves `(2 ^ W - n) mod 2 ^ W`; the stored value is
unchanged exactly when `n = 0` or `n = 2 ^ (W - 1)`. -/
theorem negate_unsigned_value (T : IntType) (hT : T.supported) (hs : T.signed = false)
    (n : Nat) (hn : n < 2 ^ T.width) :
    ((Bits.ofValue T n).negate).map Bits.value = some ((2 ^ T.width - n) % 2 ^ T.width)
      ∧ ((2 ^ T.width - n) % 2 ^ T.width = n ↔ (n = 0 ∨ n = 2 ^ (T.width - 1))) := by
  refine ⟨?_, negate_fixed_iff T.width n (supported_width_pos hT) hn⟩
  rw [negate_unsigned hT hs n hn]
  rfl

/-- Witness of the amended C32 at the unsigned 16-bit word 300. -/
theorem negate_unsigned_value_witness :
    uint16_t.supported ∧ uint16_t.signed = false ∧ 300 < 2 ^ uint16_t.width
      ∧ (((Bits.ofValue uint16_t 300).negate).map Bits.value
            = some ((2 ^ uint16_t.width - 300) % 2 ^ uint16_t.width)
          ∧ ((2 ^ uint16_t.width - 300) % 2 ^ uint16_t.width = 300
            ↔ (300 = 0 ∨ 300 = 2 ^ (uint16_t.width - 1)))) :=
  ⟨by decide, by decide, by decide,
    negate_unsigned_value uint16_t (by decide) (by decide) 300 (by decide)⟩

/-- C33: for every word `n` of an unsigned type `G` and every type `T`, the
converting constructor and the converting assignment (from a temporary) store
`n mod 2 ^ W_T`;
when `T` is strictly wider the value of the result is `n`, and when `T` is at
least as wide, converting back to `G` returns `n`; a `Bits32` built from a
64-bit word holding 300 has value 300. -/
theorem ofBits_value (G T : IntType) (hs : G.signed = false) (n : Nat)
    (hn : n < 2 ^ G.width) :
    (Bits.ofBits T (Bits.ofValue G n)).value = n % 2 ^ T.width
      ∧ ((Bits.ofValue T 0).operatorAssign (Bits.ofValue G n)).value = n % 2 ^ T.width
      ∧ (G.width < T.width → T.sval (Bits.ofBits T (Bits.ofValue G n)).value = (n : Int))
      ∧ (G.width ≤ T.width → (Bits.ofBits G (Bits.ofBits T (Bits.ofValue G n))).value = n)
      ∧ (Bits.ofBits int32_t (Bits.ofValue uint64_t 300)).value = 300 := by
  have e1 : (Bits.ofBits T (Bits.ofValue G n)).value = cvt G T n := rfl
  have e2 : ((Bits.ofValue T 0).operatorAssign (Bits.ofValue G n)).value = cvt G T n := rfl
  have e3 : (Bits.ofBits G (Bits.ofBits T (Bits.ofValue G n))).value
      = cvt T G (cvt G T n) := rfl
  have hc := cvt_unsigned G T n hs
  refine ⟨e1.trans hc, e2.trans hc, ?_, ?_, by decide⟩
  · intro hw
    have hle : 2 ^ G.width ≤ 2 ^ (T.width - 1) := Nat.pow_le_pow_right (by decide) (by omega)
    have hle2 : 2 ^ (T.width - 1) ≤ 2 ^ T.width := Nat.pow_le_pow_right (by decide) (by omega)
    rw [e1, hc, Nat.mod_eq_of_lt (by omega)]
    exact sval_of_lt T n (by omega)
  · intro hw
    have hle : 2 ^ G.width ≤ 2 ^ T.width := Nat.pow_le_pow_right (by decide) hw
    rw [e3, hc, Nat.mod_eq_of_lt (by omega), cvt_narrow T G n hw, Nat.mod_eq_of_lt hn]

/-- Witness of C33 at the unsigned 8-bit word 200 converted to `int32_t`. -/
theorem ofBits_value_witness :
    uint8_t.signed = false ∧ 200 < 2 ^ uint8_t.width
      ∧ ((Bits.ofBits int32_t (Bits.ofValue uint8_t 200)).value = 200 % 2 ^ int32_t.width
        ∧ ((Bits.ofValue int32_t 0).operatorAssign (Bits.ofValue uint8_t 200)).value
          = 200 % 2 ^ int32_t.width
        ∧ (uint8_t.width < int32_t.width →
            int32_t.sval (Bits.ofBits int32_t (Bits.ofValue uint8_t 200)).value
              = ((200 : Nat) : Int))
        ∧ (uint8_t.width ≤ int32_t.width →
            (Bits.ofBits uint8_t (Bits.ofBits int32_t (Bits.ofValue uint8_t 200))).value = 200)
        ∧ (Bits.ofBits int32_t (Bits.ofValue uint64_t 300)).value = 300) :=
  ⟨by decide, by decide, ofBits_value uint8_t int32_t (by decide) 200 (by decide)⟩

/-- C34: for unsigned words `a` of type `G` and `b` of type `F`, the expression
`a + b` is defined and holds `(a + b) mod 2 ^ w`, where `w` is the width of `G`
when `G` is strictly wider than `F` and the width of `F` otherwise;
`Bits64U(100) + Bits32(200)` has value 300 and its product with `Bits64U(100)`
has value 30000. -/
theorem operatorPlus_value (G F : IntType) (hG : G.supported) (hF : F.supported)
    (hGs : G.signed = false) (hFs : F.signed = false) (a b : Nat) (ha : a < 2 ^ G.width)
    (hb : b < 2 ^ F.width) :
    (operatorPlus uint64_t (Bits.ofValue G a) (Bits.ofValue F b)).map Bits.value
        = some ((a + b) % 2 ^ (if F.width < G.width then G.width else F.width))
      ∧ (operatorPlus uint64_t (Bits.ofValue uint64_t 100) (Bits.ofValue int32_t 200)).map
          Bits.value = some 300
      ∧ ((operatorPlus uint64_t (Bits.ofValue uint64_t 100) (Bits.ofValue int32_t 200)).bind
          (fun c => operatorStar uint64_t c (Bits.ofValue uint64_t 100))).map Bits.value
        = some 30000 :=
  ⟨operatorPlus_unsigned hG hF hGs hFs a b ha hb, by decide, by decide⟩

/-- Witness of C34 at the 16-bit word 65535 plus the 8-bit word 100. -/
theorem operatorPlus_value_witness :
    uint16_t.supported ∧ uint8_t.supported ∧ uint16_t.signed = false
      ∧ uint8_t.signed = false ∧ 65535 < 2 ^ uint16_t.width ∧ 100 < 2 ^ uint8_t.width
      ∧ ((operatorPlus uint64_t (Bits.ofValue uint16_t 65535) (Bits.ofValue uint8_t 100)).map
            Bits.value
          = some ((65535 + 100)
              % 2 ^ (if uint8_t.width < uint16_t.width then uint16_t.width else uint8_t.width))
        ∧ (operatorPlus uint64_t (Bits.ofValue uint64_t 100) (Bits.ofValue int32_t 200)).map
            Bits.value = some 300
        ∧ ((operatorPlus uint64_t (Bits.ofValue uint64_t 100) (Bits.ofValue int32_t 200)).bind
            (fun c => operatorStar uint64_t c (Bits.ofValue uint64_t 100))).map Bits.value
          = some 30000) :=
  ⟨by decide, by decide, by decide, by decide, by decide, by decide,
    operatorPlus_value uint16_t uint8_t (by decide) (by decide) (by decide) (by decide) 65535
      100 (by decide) (by decide)⟩

/-- C35 fails on the code for 64-bit words: `count_ones` tests `n & (1 << i)`
with an `int` mask, which cannot tell the bits 31 to 63 apart.  The word with
bits 31 and 63 set is reversed to the word with bits 0 and 32 set, and
`count_ones` returns a larger count for the reversed word, whatever the
undefined shifts produce. -/
theorem count_ones_reverse_bits_uint64_t (U : Undef) :
    reverse_bits U uint64_t (2 ^ 31 + 2 ^ 63) = 2 ^ 0 + 2 ^ 32
      ∧ count_ones U uint64_t (2 ^ 31 + 2 ^ 63)
        < count_ones U uint64_t (reverse_bits U uint64_t (2 ^ 31 + 2 ^ 63)) := by
  have e := reverse_bits_uint64_t_pair U
  refine ⟨e, ?_⟩
  rw [e]
  exact count_ones_reversed_lt U

/-- C36: for all words `x`, `y`, `z` of one type, `hamming_distance(x, z)` is at
most `hamming_distance(x, y) + hamming_distance(y, z)`, for the primitive and
for the method `hammingDistance`, whatever the undefined shifts produce. -/
theorem hamming_distance_triangle (U : Undef) (T : IntType) (x y z : Nat) :
    hamming_distance U T x z ≤ hamming_distance U T x y + hamming_distance U T y z
      ∧ (Bits.ofValue T x).hammingDistance U z
        ≤ (Bits.ofValue T x).hammingDistance U y + (Bits.ofValue T y).hammingDistance U z :=
  ⟨hamming_triangle U T x y z, hamming_triangle U T x y z⟩

/-- C37: for every word `n` of a supported type of width `W`, the characters of
`toString()` spell `W` flags, and `insertRight` of these flags on a cleared
word of the same type compiles and leaves the value `n`, whatever the
undefined shifts produce. -/
theorem insertRight_toString (U : Undef) (T : IntType) (hT : T.supported) (n : Nat)
    (hn : n < 2 ^ T.width) :
    (flagsOfString ((bitty.Bittle.ofValue T n).toString U)).length = T.width
      ∧ ((Bits.ofValue T 0).insertRight U
          (flagsOfString ((bitty.Bittle.ofValue T n).toString U))).map Bits.value
        = some n := by
  have hpos := supported_width_pos hT
  have hlen : (flagsOfString ((bitty.Bittle.ofValue T n).toString U)).length = T.width := by
    rw [flagsOfString_toString U hT n hn]
    simp
  have hne : flagsOfString ((bitty.Bittle.ofValue T n).toString U) ≠ [] := by
    intro h
    rw [h] at hlen
    simp at hlen
    omega
  refine ⟨hlen, ?_⟩
  rw [insertRight_eq U hT _ _ hne (by omega), ofValue_number, Nat.zero_mul, Nat.zero_add,
    flagsOfString_toString U hT n hn, flagSum_bits, Nat.mod_mod, Nat.mod_eq_of_lt hn]
  rfl

/-- Witness of C37 at the unsigned 8-bit word 178. -/
theorem insertRight_toString_witness :
    uint8_t.supported ∧ 178 < 2 ^ uint8_t.width
      ∧ ((flagsOfString ((bitty.Bittle.ofValue uint8_t 178).toString Undef.wrap)).length
          = uint8_t.width
        ∧ ((Bits.ofValue uint8_t 0).insertRight Undef.wrap
            (flagsOfString ((bitty.Bittle.ofValue uint8_t 178).toString Undef.wrap))).map
              Bits.value
          = some 178) :=
  ⟨by decide, by decide, insertRight_toString Undef.wrap uint8_t (by decide) 178 (by decide)⟩

/-- C39 fails on the code: the body of `operator!` is `return !(*this);`, a
call of `operator!` on the same object, so the call returns at no depth; in
particular it never returns the negation of the conversion to `bool`. -/
theorem operatorNot_never_returns (T : IntType) (b : Bits T) (fuel : Nat) :
    b.operatorNot fuel = none ∧ b.operatorNot fuel ≠ some (!b.operatorBool) := by
  have h := operatorNot_none b fuel
  refine ⟨h, ?_⟩
  rw [h]
  exact fun hh => Option.noConfusion hh

/-- C40 fails on the code for 64-bit words: the constructor shifts the array
element itself, so with elements of type `uint64_t` the flag 1 lands at bit 64
and the word is `2 ^ 63`; `insertLeft(1)` is `setBit(64)`, whose `int` mask
`1 << 63` is an undefined shift and is sign-extended, so whatever it produces
the result is not `2 ^ 63`. -/
theorem ofArray_uint64_t_top (U : Undef) :
    (Bits.ofArray U uint64_t uint64_t (fun i => [1].getD i 0) [1].length).value = 2 ^ 63
      ∧ ((Bits.ofValue uint64_t 0).insertLeft U [1]).map Bits.value ≠ some (2 ^ 63) := by
  constructor
  · have e : (Bits.ofArray U uint64_t uint64_t (fun i => [1].getD i 0) [1].length).value
        = (Bits.ofArray Undef.wrap uint64_t uint64_t (fun i => [1].getD i 0) [1].length).value := by
      unfold Bits.ofArray
      simp only [List.length_singleton, List.range_succ, List.range_zero, List.nil_append,
        List.foldl_cons, List.foldl_nil]
      rw [shl_oracle U Undef.wrap]
      decide
    rw [e]
    decide
  · rw [insertLeft_uint64_t_one U]
    intro h
    have h1 : set_bit U uint64_t 0 64 = 2 ^ 63 := Option.some.inj h
    have h2 := set_bit_uint64_t_top U
    rw [h1] at h2
    exact absurd h2 (by decide)

end bittle
